import Mathlib

/-!
Shallow embedding of the or-tools routing local-search filters
(routing filters source file and the adjustable k-ary heap header),
together with theorems settling the specification claims about them.

Conventions:
* C++ `int64_t` values are modelled as `Int`, with the saturating
  operations `CapAdd`, `CapSub`, `CapProd` clamping to `kint64min` /
  `kint64max` exactly as the source does.
* C++ vectors indexed by node are modelled as functions `Nat → _`
  (total, with the source's sentinel values such as `-1`).
* Early returns are modelled with `Option` (`none` = early exit).
-/

namespace ORTools

/-! ### Saturating 64-bit arithmetic -/

def kint64min : Int := -(2 ^ 63)

def kint64max : Int := 2 ^ 63 - 1

/-- Saturating addition on 64-bit signed integers. -/
def CapAdd (a b : Int) : Int := max kint64min (min kint64max (a + b))

/-- Saturating subtraction on 64-bit signed integers. -/
def CapSub (a b : Int) : Int := max kint64min (min kint64max (a - b))

/-- Saturating multiplication on 64-bit signed integers. -/
def CapProd (a b : Int) : Int := max kint64min (min kint64max (a * b))

theorem CapAdd_eq (a b : Int) (h1 : kint64min ≤ a + b) (h2 : a + b ≤ kint64max) :
    CapAdd a b = a + b := by
  simp [CapAdd, min_eq_right h2, max_eq_right]
  omega

theorem CapSub_eq (a b : Int) (h1 : kint64min ≤ a - b) (h2 : a - b ≤ kint64max) :
    CapSub a b = a - b := by
  simp [CapSub, min_eq_right h2, max_eq_right]
  omega

theorem CapProd_eq (a b : Int) (h1 : kint64min ≤ a * b) (h2 : a * b ≤ kint64max) :
    CapProd a b = a * b := by
  simp [CapProd, min_eq_right h2, max_eq_right]
  omega

/-! ### Delta elements

An element of an `Assignment` delta whose variable was found among the
filter's next variables (`FindIndex` succeeded): the variable's index and
its domain bounds `Min()` / `Max()`.  The element is bound iff
`Min() = Max()`, and then `Value() = Min()`. -/

structure IntVarElement where
  index : Nat
  emin : Int
  emax : Int
deriving DecidableEq

/-! ### MaxActiveVehiclesFilter

Model of `MaxActiveVehiclesFilter` from the routing filters source.
`MAVModel` gathers the routing-model data the filter reads, `MAVFilter`
its synchronized state. -/

structure MAVModel where
  vehicles : Nat
  isStart : Nat → Bool
  vehicleIndex : Nat → Nat
  endOf : Nat → Int
  maxActiveVehicles : Int

structure MAVFilter where
  is_active : Nat → Bool
  active_vehicles : Int

/-- The element loop of `MaxActiveVehiclesFilter::Accept`: walks the delta,
returning `true` immediately on an unbound start variable (LNS), otherwise
adjusting the running active-vehicle count, and finally comparing it with
the configured maximum. -/
def MAVacceptLoop (m : MAVModel) (f : MAVFilter) :
    List IntVarElement → Int → Bool
  | [], count => decide (count ≤ m.maxActiveVehicles)
  | e :: rest, count =>
    if m.isStart e.index then
      if e.emin ≠ e.emax then true
      else
        MAVacceptLoop m f rest
          (if (e.emin ≠ m.endOf (m.vehicleIndex e.index)) ∧
              ¬ f.is_active (m.vehicleIndex e.index) then count + 1
           else if ¬ (e.emin ≠ m.endOf (m.vehicleIndex e.index)) ∧
              f.is_active (m.vehicleIndex e.index) then count - 1
           else count)
    else MAVacceptLoop m f rest count

/-- `MaxActiveVehiclesFilter::Accept`. -/
def MAVaccept (m : MAVModel) (f : MAVFilter) (delta : List IntVarElement) :
    Bool :=
  MAVacceptLoop m f delta f.active_vehicles

/-- Proposed activity of vehicle `v`: the delta override on `v`'s start
variable when present, the synchronized activity otherwise. -/
def proposedIsActive (m : MAVModel) (f : MAVFilter)
    (delta : List IntVarElement) (v : Nat) : Bool :=
  match delta.find? (fun e => m.isStart e.index && (m.vehicleIndex e.index == v)) with
  | some e => decide (e.emin ≠ m.endOf v)
  | none => f.is_active v

/-- Number of vehicles active under predicate `g`. -/
def activeCount (numVehicles : Nat) (g : Nat → Bool) : Nat :=
  (List.range numVehicles).countP g

theorem countP_pointwise_eq {l : List Nat} {p q : Nat → Bool}
    (h : ∀ x ∈ l, p x = q x) : l.countP p = l.countP q := by
  induction l with
  | nil => rfl
  | cons x xs ih =>
    rw [List.countP_cons, List.countP_cons, h x (List.mem_cons_self x xs),
      ih (fun y hy => h y (List.mem_cons_of_mem x hy))]

theorem countP_update (l : List Nat) (hl : l.Nodup) (p : Nat → Bool)
    (v : Nat) (hv : v ∈ l) (b : Bool) :
    ((l.countP (fun x => if x = v then b else p x) : Int)) =
      (l.countP p : Int) + (if b then 1 else 0) - (if p v then 1 else 0) := by
  induction l with
  | nil => cases hv
  | cons x xs ih =>
    rcases List.mem_cons.mp hv with h | h
    · subst h
      have hxnot : v ∉ xs := (List.nodup_cons.mp hl).1
      have : xs.countP (fun y => if y = v then b else p y) = xs.countP p :=
        countP_pointwise_eq (fun y hy => by
          have : y ≠ v := fun he => hxnot (he ▸ hy)
          simp [this])
      rw [List.countP_cons, List.countP_cons, this]
      by_cases hb : b <;> by_cases hp : p v <;> simp [hb, hp]
    · have hx : x ≠ v := fun he => ((List.nodup_cons.mp hl).1 (he ▸ h))
      have ihx := ih (List.nodup_cons.mp hl).2 h
      rw [List.countP_cons, List.countP_cons]
      simp only [hx, if_false]
      push_cast
      omega

theorem MAVacceptLoop_congr (m : MAVModel) (f g : MAVFilter)
    (delta : List IntVarElement)
    (h : ∀ e ∈ delta, m.isStart e.index →
      f.is_active (m.vehicleIndex e.index) = g.is_active (m.vehicleIndex e.index)) :
    ∀ count, MAVacceptLoop m f delta count = MAVacceptLoop m g delta count := by
  induction delta with
  | nil => intro count; rfl
  | cons e rest ih =>
    intro count
    by_cases hs : m.isStart e.index
    · simp only [MAVacceptLoop, hs, if_true]
      by_cases hb : e.emin ≠ e.emax
      · simp [hb]
      · simp only [hb, if_false]
        rw [h e (List.mem_cons_self e rest) hs]
        exact ih (fun e' he' => h e' (List.mem_cons_of_mem e he')) _
    · simp only [MAVacceptLoop, hs, if_false]
      exact ih (fun e' he' => h e' (List.mem_cons_of_mem e he')) _

theorem activeCount_congr (n : Nat) {g h : Nat → Bool}
    (he : ∀ x, g x = h x) : activeCount n g = activeCount n h :=
  countP_pointwise_eq (fun x _ => he x)

theorem MAVacceptLoop_spec (m : MAVModel) :
    ∀ (delta : List IntVarElement) (f : MAVFilter),
    (∀ e ∈ delta, e.emin = e.emax) →
    ((delta.filter (fun e => m.isStart e.index)).map
        (fun e => m.vehicleIndex e.index)).Nodup →
    (∀ e ∈ delta, m.isStart e.index → m.vehicleIndex e.index < m.vehicles) →
    MAVacceptLoop m f delta ((activeCount m.vehicles f.is_active : Int)) =
      decide ((activeCount m.vehicles (proposedIsActive m f delta) : Int) ≤
        m.maxActiveVehicles) := by
  intro delta
  induction delta with
  | nil =>
    intro f _ _ _
    have hpt : activeCount m.vehicles (proposedIsActive m f []) =
        activeCount m.vehicles f.is_active :=
      activeCount_congr _ (fun x => rfl)
    simp only [MAVacceptLoop, hpt]
  | cons e rest ih =>
    intro f hbound hnodup hrange
    by_cases hs : m.isStart e.index
    · have hb : e.emin = e.emax := hbound e (List.mem_cons_self e rest)
      simp only [MAVacceptLoop, hs, if_true, ne_eq, hb, not_true_eq_false,
        if_false, not_not]
      have hnodup' : (e :: rest).filter (fun x => m.isStart x.index) =
          e :: rest.filter (fun x => m.isStart x.index) := by
        simp [List.filter_cons, hs]
      rw [hnodup', List.map_cons] at hnodup
      have hvrest : ∀ e' ∈ rest, m.isStart e'.index →
          m.vehicleIndex e'.index ≠ m.vehicleIndex e.index := by
        intro e' he' hs' hcontra
        exact (List.nodup_cons.mp hnodup).1
          (List.mem_map.mpr ⟨e', List.mem_filter.mpr ⟨he', by simp [hs']⟩,
            hcontra⟩)
      have hg' := fun x => (if x = m.vehicleIndex e.index then
        decide (e.emax ≠ m.endOf (m.vehicleIndex e.index)) else f.is_active x)
      have hcount' :
          (if ¬ e.emax = m.endOf (m.vehicleIndex e.index) ∧
              ¬ f.is_active (m.vehicleIndex e.index) = true then
            ((activeCount m.vehicles f.is_active : Int)) + 1
          else if e.emax = m.endOf (m.vehicleIndex e.index) ∧
              f.is_active (m.vehicleIndex e.index) = true then
            ((activeCount m.vehicles f.is_active : Int)) - 1
          else ((activeCount m.vehicles f.is_active : Int))) =
          ((activeCount m.vehicles (fun x =>
            if x = m.vehicleIndex e.index then
              decide (e.emax ≠ m.endOf (m.vehicleIndex e.index))
            else f.is_active x) : Int)) := by
        have hvlt : m.vehicleIndex e.index < m.vehicles :=
          hrange e (List.mem_cons_self e rest) hs
        have hupd := countP_update (List.range m.vehicles) (List.nodup_range _)
          f.is_active (m.vehicleIndex e.index) (List.mem_range.mpr hvlt)
          (decide (e.emax ≠ m.endOf (m.vehicleIndex e.index)))
        unfold activeCount
        by_cases haa : e.emax = m.endOf (m.vehicleIndex e.index) <;>
          by_cases hf : f.is_active (m.vehicleIndex e.index) <;>
          simp [haa, hf] at hupd ⊢ <;> omega
      rw [hcount']
      have hcongr := MAVacceptLoop_congr m f
        ⟨fun x => if x = m.vehicleIndex e.index then
          decide (e.emax ≠ m.endOf (m.vehicleIndex e.index))
        else f.is_active x, 0⟩ rest
        (by
          intro e' he' hs'
          simp only
          rw [if_neg (hvrest e' he' hs')])
      rw [hcongr]
      rw [ih _ (fun e' he' => hbound e' (List.mem_cons_of_mem e he'))
        (List.nodup_cons.mp hnodup).2
        (fun e' he' => hrange e' (List.mem_cons_of_mem e he'))]
      have hpoint : ∀ x, proposedIsActive m
          ⟨fun y => if y = m.vehicleIndex e.index then
            decide (e.emax ≠ m.endOf (m.vehicleIndex e.index))
          else f.is_active y, 0⟩ rest x =
          proposedIsActive m f (e :: rest) x := by
        intro x
        unfold proposedIsActive
        by_cases hx : x = m.vehicleIndex e.index
        · subst hx
          rw [List.find?_cons_of_pos _ (by simp [hs])]
          have hnone : rest.find? (fun e' => m.isStart e'.index &&
              (m.vehicleIndex e'.index == m.vehicleIndex e.index)) = none := by
            apply List.find?_eq_none.mpr
            intro e' he'
            by_cases hs' : m.isStart e'.index
            · simp [hs', hvrest e' he' hs']
            · simp [hs']
          rw [hnone]
          simp [hb]
        · rw [List.find?_cons_of_neg _ (by simp [hs]; intro; omega)]
          cases hfind : rest.find? (fun e' => m.isStart e'.index &&
              (m.vehicleIndex e'.index == x)) with
          | none => simp only; rw [if_neg hx]
          | some e' => rfl
      rw [show activeCount m.vehicles (proposedIsActive m
          ⟨fun y => if y = m.vehicleIndex e.index then
            decide (e.emax ≠ m.endOf (m.vehicleIndex e.index))
          else f.is_active y, 0⟩ rest) =
          activeCount m.vehicles (proposedIsActive m f (e :: rest)) from
        activeCount_congr _ hpoint]
    · have hs' : m.isStart e.index = false := by simpa using hs
      simp only [MAVacceptLoop, hs', Bool.false_eq_true, if_false]
      have hfilter : (e :: rest).filter (fun x => m.isStart x.index) =
          rest.filter (fun x => m.isStart x.index) := by
        simp [List.filter_cons, hs]
      rw [ih f (fun e' he' => hbound e' (List.mem_cons_of_mem e he'))
        (by rwa [hfilter] at hnodup)
        (fun e' he' => hrange e' (List.mem_cons_of_mem e he'))]
      rw [show activeCount m.vehicles (proposedIsActive m f rest) =
          activeCount m.vehicles (proposedIsActive m f (e :: rest)) from
        activeCount_congr _ (fun x => by
          unfold proposedIsActive
          rw [List.find?_cons_of_neg _ (by simp [hs])])]

/-- Claim C2/C9 area: `MaxActiveVehiclesFilter::Accept` returns true iff the
number of vehicles whose start's proposed next is not that vehicle's end is
at most the configured maximum number of active vehicles.  The hypotheses
state that every delta element is bound, that no vehicle's start appears
twice in the delta, that vehicle indices are in range, and that the
synchronized count agrees with the synchronized activity bits. -/
theorem maxActiveVehicles_accept_iff (m : MAVModel) (f : MAVFilter)
    (delta : List IntVarElement)
    (hbound : ∀ e ∈ delta, e.emin = e.emax)
    (hnodup : ((delta.filter (fun e => m.isStart e.index)).map
        (fun e => m.vehicleIndex e.index)).Nodup)
    (hrange : ∀ e ∈ delta, m.isStart e.index → m.vehicleIndex e.index < m.vehicles)
    (hsync : f.active_vehicles = ((activeCount m.vehicles f.is_active : Int))) :
    MAVaccept m f delta =
      decide ((activeCount m.vehicles (proposedIsActive m f delta) : Int) ≤
        m.maxActiveVehicles) := by
  unfold MAVaccept
  rw [hsync]
  exact MAVacceptLoop_spec m delta f hbound hnodup hrange

/-! Scenario S1: `V = 3`, cap `2`; the delta keeps vehicles 0 and 1 active
and makes vehicle 2's start point to a regular node. -/

def s1Model : MAVModel where
  vehicles := 3
  isStart := fun i => decide (i < 3)
  vehicleIndex := fun i => i
  endOf := fun v => 10 + (v : Int)
  maxActiveVehicles := 2

def s1Filter : MAVFilter where
  is_active := fun v => decide (v < 2)
  active_vehicles := 2

def s1Delta : List IntVarElement :=
  [⟨0, 5, 5⟩, ⟨1, 6, 6⟩, ⟨2, 7, 7⟩]

/-- Witness for `maxActiveVehicles_accept_iff`: in scenario S1 the proposed
active count is 3 > 2, so the filter rejects. -/
theorem maxActiveVehicles_accept_iff_witness :
    MAVaccept s1Model s1Filter s1Delta = false := by
  rw [maxActiveVehicles_accept_iff s1Model s1Filter s1Delta (by decide)
    (by decide) (by decide) (by decide)]
  decide

/-! ### AdjustableKAryHeap (adjustable_k_ary_heap.h)

`Aggregate` is a (priority, index) pair with the comparison used by the
tests (`PriorityAggregate`): compare by priority, breaking ties by index.
Priorities are modelled as `Int`.  `kNonExistent = -1`. -/

structure Aggregate where
  priority : Int
  index : Nat
deriving DecidableEq

/-- `Aggregate::operator<`. -/
def aggLt (a b : Aggregate) : Bool :=
  if b.priority ≠ a.priority then decide (a.priority < b.priority)
  else decide (a.index < b.index)

structure KAryHeap where
  data : List Aggregate
  heap_positions : List Int
  heap_size : Nat
deriving DecidableEq

def defaultAgg : Aggregate := ⟨0, 0⟩

/-- `Parent`: `(index - 1) / Arity` (equal to the C++ value for all
non-negative heap indices, including `Parent(0) = 0`). -/
def heapParent (arity index : Nat) : Nat := (index - 1) / arity

/-- `HasPriority(i, j)`: position `i` has priority over position `j`. -/
def HasPriority (isMax : Bool) (h : KAryHeap) (i j : Nat) : Bool :=
  if isMax then aggLt (h.data.getD j defaultAgg) (h.data.getD i defaultAgg)
  else aggLt (h.data.getD i defaultAgg) (h.data.getD j defaultAgg)

/-- `PerformSwap(i, j)`: swaps `data_[i]` and `data_[j]`, then swaps
`heap_positions_[index(i)]` and `heap_positions_[index(j)]`, where the
indices are read from the already-swapped data. -/
def PerformSwap (h : KAryHeap) (i j : Nat) : KAryHeap :=
  let di := h.data.getD i defaultAgg
  let dj := h.data.getD j defaultAgg
  let data' := (h.data.set i dj).set j di
  let ii := (data'.getD i defaultAgg).index
  let ij := (data'.getD j defaultAgg).index
  let posi := h.heap_positions.getD ii (-1)
  let posj := h.heap_positions.getD ij (-1)
  { h with data := data',
           heap_positions := (h.heap_positions.set ii posj).set ij posi }

/-- The `SiftUp` while-loop with explicit fuel.  The loop strictly
decreases `index` (the parent position is smaller), so `index` units of
fuel always suffice and the fueled function equals the loop. -/
def SiftUpGo (isMax : Bool) (arity : Nat) :
    Nat → KAryHeap → Nat → KAryHeap
  | 0, h, _ => h
  | fuel + 1, h, index =>
    if 0 < index ∧ HasPriority isMax h index (heapParent arity index) = true
    then SiftUpGo isMax arity fuel
      (PerformSwap h index (heapParent arity index)) (heapParent arity index)
    else h

/-- `SiftUp`. -/
def SiftUp (isMax : Bool) (arity : Nat) (h : KAryHeap) (index : Nat) :
    KAryHeap :=
  SiftUpGo isMax arity (index + 1) h index

/-- `GetHighestPriorityChild`. -/
def GetHighestPriorityChild (isMax : Bool) (arity : Nat) (h : KAryHeap)
    (index : Nat) : Nat :=
  let right_bound := min (arity * (index + 1) + 1) h.heap_size
  (List.range' (arity * index + 1)
    (right_bound - (arity * index + 1))).foldl
    (fun best i => if HasPriority isMax h i best then i else best) index

/-- The `SiftDown` while-loop with explicit fuel.  For the template's
instantiations (`Arity ≥ 2`) the loop strictly increases `index` while
keeping it below `heap_size`, so `heap_size + 1` units of fuel always
suffice and the fueled function equals the loop. -/
def SiftDownGo (isMax : Bool) (arity : Nat) :
    Nat → KAryHeap → Nat → KAryHeap
  | 0, h, _ => h
  | fuel + 1, h, index =>
    let child := GetHighestPriorityChild isMax arity h index
    if child = index then h
    else SiftDownGo isMax arity fuel (PerformSwap h index child) child

/-- `SiftDown`. -/
def SiftDown (isMax : Bool) (arity : Nat) (h : KAryHeap) (index : Nat) :
    KAryHeap :=
  SiftDownGo isMax arity (h.heap_size + 1) h index

/-- `Update`. -/
def HeapUpdate (isMax : Bool) (arity : Nat) (h : KAryHeap) (e : Aggregate) :
    KAryHeap :=
  let heap_position := (h.heap_positions.getD e.index (-1)).toNat
  let h1 := { h with data := h.data.set heap_position e }
  if HasPriority isMax h1 heap_position (heapParent arity heap_position) then
    SiftUp isMax arity h1 heap_position
  else SiftDown isMax arity h1 heap_position

/-- `Insert`. -/
def HeapInsert (isMax : Bool) (arity : Nat) (h : KAryHeap) (e : Aggregate) :
    KAryHeap :=
  let h0 :=
    if h.heap_positions.length ≤ e.index then
      { h with heap_positions := h.heap_positions ++
          List.replicate (e.index + 1 - h.heap_positions.length) (-1) }
    else h
  let h1 :=
    if h0.heap_positions.getD e.index (-1) = -1 then
      { h0 with
          heap_positions := h0.heap_positions.set e.index (h0.data.length : Int),
          data := h0.data ++ [e],
          heap_size := h0.heap_size + 1 }
    else h0
  HeapUpdate isMax arity h1 e

/-- `RemoveAtHeapPosition`.  Returns the C++ boolean result and the new
heap. -/
def RemoveAtHeapPosition (isMax : Bool) (arity : Nat) (h : KAryHeap)
    (heap_index : Nat) : Bool × KAryHeap :=
  if h.heap_size ≤ heap_index then (false, h)
  else
    let h1 := PerformSwap h heap_index (h.heap_size - 1)
    let h2 := { h1 with heap_size := h1.heap_size - 1 }
    if HasPriority isMax h2 heap_index (heapParent arity heap_index) then
      (true, SiftUp isMax arity h2 heap_index)
    else (true, SiftDown isMax arity h2 heap_index)

/-- `Pop`: returns the top element and the heap after removal. -/
def HeapPop (isMax : Bool) (arity : Nat) (h : KAryHeap) :
    Aggregate × KAryHeap :=
  (h.data.getD 0 defaultAgg, (RemoveAtHeapPosition isMax arity h 0).2)

/-- `BuildHeap`: sift down from `Parent(heap_size)` down to 0. -/
def BuildHeap (isMax : Bool) (arity : Nat) (h : KAryHeap) : KAryHeap :=
  (List.range (heapParent arity h.heap_size + 1)).reverse.foldl
    (fun acc i => SiftDown isMax arity acc i) h

/-- `Load`. -/
def HeapLoad (isMax : Bool) (arity : Nat) (elements : List Aggregate)
    (universe_size : Nat) : KAryHeap :=
  let positions0 : List Int := List.replicate universe_size (-1)
  let positions := (List.range elements.length).foldl
    (fun acc i => acc.set ((elements.getD i defaultAgg).index) (i : Int))
    positions0
  BuildHeap isMax arity
    { data := elements, heap_positions := positions,
      heap_size := elements.length }

/-- The heap-order part of the claimed invariant: for every heap position
`i` with `1 ≤ i < heap_size`, the parent position has priority over `i`. -/
def heapOrderOK (isMax : Bool) (arity : Nat) (h : KAryHeap) : Bool :=
  (List.range h.heap_size).all
    (fun i => i = 0 || HasPriority isMax h (heapParent arity i) i)

/-! The failing input for claim C10: a binary min-heap loaded with
elements `(priority 1, index 0)` and `(priority 2, index 1)`, then
`Pop` (returns `(1,0)`), then `Insert (priority 3, index 2)`.  `Insert`
records the new element at position `data_.size() = 2`, outside the live
region `[0, heap_size) = [0, 2)`, and resurrects the already-popped
element `(1,0)` into the live region, violating the heap order. -/

def bugHeap0 : KAryHeap :=
  HeapLoad false 2 [⟨1, 0⟩, ⟨2, 1⟩] 2

def bugHeap1 : KAryHeap := (HeapPop false 2 bugHeap0).2

def bugHeap2 : KAryHeap := HeapInsert false 2 bugHeap1 ⟨3, 2⟩

/-- Claim C10 (code bug): after `Load [(1,0),(2,1)]; Pop; Insert (3,2)` on a
binary min-heap, the heap-order invariant is violated (position 1 holds a
higher-priority element than the root), and the two subsequent `Pop`s
return `(2,1)` and then the already-popped element `(1,0)` — the inserted
element `(3,2)` is lost. -/
theorem adjustableKAryHeap_insert_after_pop_breaks_invariant :
    heapOrderOK false 2 bugHeap2 = false ∧
    bugHeap2.heap_size = 2 ∧
    (HeapPop false 2 bugHeap2).1 = ⟨2, 1⟩ ∧
    (HeapPop false 2 (HeapPop false 2 bugHeap2).2).1 = ⟨1, 0⟩ := by
  decide

/-! ### BasePathFilter::Accept (routing filters source, lines 491-558)

The synchronized per-node data the skeleton reads during `Accept`:
`node_path_starts_` (`-1` = `kUnassigned`), `ranks_`, and the
`PathsMetadata` start/end predicates. -/

structure BPFState where
  node_path_starts : Nat → Int
  ranks : Nat → Int
  isStart : Nat → Bool
  isEnd : Nat → Bool

/-- The per-`Accept` scratch state: the touched-path set (`SparseBitset`,
modelled from the spec as the list of positions in first-set order), the
chain windows, and `new_nexts_`. -/
structure BPFScratch where
  touched_paths : List Nat
  chain_start_ends : Nat → Int × Int
  new_nexts : Nat → Int

/-- The `update_touched_path_chain_start_end` lambda: marks the node's
path as touched and extends the path's chain window with `index`
(minimum-rank node or the path start for the window start, maximum-rank
node or the path end for the window end). -/
def updateTouched (s : BPFState) (sc : BPFScratch) (index : Nat) :
    BPFScratch :=
  if s.node_path_starts index = -1 then sc
  else
    let p := (s.node_path_starts index).toNat
    let tp' := if p ∈ sc.touched_paths then sc.touched_paths
               else sc.touched_paths ++ [p]
    let cs := (sc.chain_start_ends p).1
    let ce := (sc.chain_start_ends p).2
    let cs' : Int :=
      if cs = -1 ∨ s.isStart index ∨ s.ranks index < s.ranks cs.toNat
      then (index : Int) else cs
    let ce' : Int :=
      if ce = -1 ∨ s.isEnd index ∨ s.ranks ce.toNat < s.ranks index
      then (index : Int) else ce
    { touched_paths := tp',
      chain_start_ends := fun q => if q = p then (cs', ce')
        else sc.chain_start_ends q,
      new_nexts := sc.new_nexts }

/-- The delta loop of `BasePathFilter::Accept`: `none` models the early
`return true` on an unbound element (LNS). -/
def bpfProcessElements (s : BPFState) :
    List IntVarElement → BPFScratch → Option BPFScratch
  | [], sc => some sc
  | e :: rest, sc =>
    if e.emin = e.emax then
      bpfProcessElements s rest
        (updateTouched s
          (updateTouched s
            { sc with new_nexts := fun i =>
                if i = e.index then e.emin else sc.new_nexts i }
            e.index)
          e.emin.toNat)
    else none

def bpfInitScratch : BPFScratch :=
  ⟨[], fun _ => (-1, -1), fun _ => -1⟩

/-- `BasePathFilter::Accept`, parameterized by the virtual callbacks
`InitializeAcceptPath`, `AcceptPath` and `FinalizeAcceptPath`. -/
def bpfAccept (s : BPFState) (disabled : Bool) (delta : List IntVarElement)
    (initializeAcceptPath : Bool) (acceptPath : Nat → Int → Int → Bool)
    (finalizeAcceptPath : Bool) : Bool :=
  if disabled then true
  else
    match bpfProcessElements s delta bpfInitScratch with
    | none => true
    | some sc =>
      if ¬ initializeAcceptPath then false
      else if ¬ sc.touched_paths.all (fun p =>
          acceptPath p (sc.chain_start_ends p).1 (sc.chain_start_ends p).2)
        then false
      else finalizeAcceptPath

/-- All nodes touched by a delta: each element's own index and the node
its new next value points to. -/
def touchedNodes (delta : List IntVarElement) : List Nat :=
  delta.flatMap (fun e => [e.index, e.emin.toNat])

/-- Well-formedness of the synchronized rank data, as guaranteed by
synchronization: a start node on a path is that path's start, a start has
strictly minimal rank on its path, an end strictly maximal. -/
structure BPFWellFormed (s : BPFState) : Prop where
  nps_nonneg : ∀ x, s.node_path_starts x ≠ -1 → 0 ≤ s.node_path_starts x
  start_eq : ∀ x, s.node_path_starts x ≠ -1 → s.isStart x →
    (x : Int) = s.node_path_starts x
  start_rank : ∀ x y, s.isStart x → s.node_path_starts x ≠ -1 →
    s.node_path_starts y = s.node_path_starts x → y ≠ x →
    s.ranks x < s.ranks y
  end_rank : ∀ x y, s.isEnd x → s.node_path_starts x ≠ -1 →
    s.node_path_starts y = s.node_path_starts x → y ≠ x →
    s.ranks y < s.ranks x

/-- Invariant of the chain-window computation after processing the nodes
in `processed`. -/
structure ChainWindowInv (s : BPFState) (processed : List Nat)
    (sc : BPFScratch) : Prop where
  untouched : ∀ p, p ∉ sc.touched_paths → sc.chain_start_ends p = (-1, -1)
  covered : ∀ t ∈ processed, s.node_path_starts t ≠ -1 →
    (s.node_path_starts t).toNat ∈ sc.touched_paths
  cs_nonneg : ∀ p ∈ sc.touched_paths, 0 ≤ (sc.chain_start_ends p).1
  ce_nonneg : ∀ p ∈ sc.touched_paths, 0 ≤ (sc.chain_start_ends p).2
  cs_mem : ∀ p ∈ sc.touched_paths,
    ((sc.chain_start_ends p).1).toNat ∈ processed
  ce_mem : ∀ p ∈ sc.touched_paths,
    ((sc.chain_start_ends p).2).toNat ∈ processed
  cs_path : ∀ p ∈ sc.touched_paths,
    s.node_path_starts ((sc.chain_start_ends p).1).toNat = (p : Int)
  ce_path : ∀ p ∈ sc.touched_paths,
    s.node_path_starts ((sc.chain_start_ends p).2).toNat = (p : Int)
  rank_lb : ∀ p ∈ sc.touched_paths, ∀ t ∈ processed,
    s.node_path_starts t = (p : Int) →
    s.ranks ((sc.chain_start_ends p).1).toNat ≤ s.ranks t
  rank_ub : ∀ p ∈ sc.touched_paths, ∀ t ∈ processed,
    s.node_path_starts t = (p : Int) →
    s.ranks t ≤ s.ranks ((sc.chain_start_ends p).2).toNat
  start_fix : ∀ p ∈ sc.touched_paths, ∀ t ∈ processed,
    s.node_path_starts t = (p : Int) → s.isStart t →
    (sc.chain_start_ends p).1 = (t : Int)
  end_fix : ∀ p ∈ sc.touched_paths, ∀ t ∈ processed,
    s.node_path_starts t = (p : Int) → s.isEnd t →
    (sc.chain_start_ends p).2 = (t : Int)

theorem chainWindowInv_init (s : BPFState) :
    ChainWindowInv s [] bpfInitScratch := by
  constructor <;> simp [bpfInitScratch]

theorem natCast_ne_negOne (p : Nat) : ((p : Int)) ≠ -1 := by omega

/-- One call of `update_touched_path_chain_start_end` preserves the
chain-window invariant, extending the processed node set with `i`. -/
theorem chainWindowInv_update (s : BPFState) (hwf : BPFWellFormed s)
    (processed : List Nat) (sc : BPFScratch) (i : Nat)
    (h : ChainWindowInv s processed sc) :
    ChainWindowInv s (processed ++ [i]) (updateTouched s sc i) := by
  have hmem_app : ∀ (t : Nat), t ∈ processed ++ [i] ↔ t ∈ processed ∨ t = i := by
    intro t; simp
  by_cases hnps : s.node_path_starts i = -1
  · unfold updateTouched
    rw [if_pos hnps]
    have hnotp : ∀ (p : Nat), s.node_path_starts i ≠ (p : Int) := by
      intro p hc; exact natCast_ne_negOne p (hc ▸ hnps)
    refine ⟨h.untouched, ?_, h.cs_nonneg, h.ce_nonneg,
      ?_, ?_, h.cs_path, h.ce_path, ?_, ?_, ?_, ?_⟩
    · intro t ht hne
      rcases (hmem_app t).mp ht with ht | ht
      · exact h.covered t ht hne
      · subst ht; exact absurd hnps hne
    · intro p hp
      exact (hmem_app _).mpr (Or.inl (h.cs_mem p hp))
    · intro p hp
      exact (hmem_app _).mpr (Or.inl (h.ce_mem p hp))
    · intro p hp t ht hpt
      rcases (hmem_app t).mp ht with ht | ht
      · exact h.rank_lb p hp t ht hpt
      · subst ht; exact absurd hpt (hnotp p)
    · intro p hp t ht hpt
      rcases (hmem_app t).mp ht with ht | ht
      · exact h.rank_ub p hp t ht hpt
      · subst ht; exact absurd hpt (hnotp p)
    · intro p hp t ht hpt hst
      rcases (hmem_app t).mp ht with ht | ht
      · exact h.start_fix p hp t ht hpt hst
      · subst ht; exact absurd hpt (hnotp p)
    · intro p hp t ht hpt het
      rcases (hmem_app t).mp ht with ht | ht
      · exact h.end_fix p hp t ht hpt het
      · subst ht; exact absurd hpt (hnotp p)
  · have hpv0 : 0 ≤ s.node_path_starts i := hwf.nps_nonneg i hnps
    set pv := s.node_path_starts i with hpv
    set p := pv.toNat with hpdef
    have hcast : ((p : Int)) = pv := Int.toNat_of_nonneg hpv0
    have hinps : s.node_path_starts i = (p : Int) := by rw [hcast]
    -- characterize the updated scratch
    have hq_ne : ∀ (q : Nat), q ≠ p → s.node_path_starts i ≠ (q : Int) := by
      intro q hq hc
      exact hq (by
        have : (q : Int) = pv := by rw [← hc]
        omega)
    unfold updateTouched
    rw [if_neg hnps]
    simp only [← hpv, ← hpdef]
    by_cases hptp : p ∈ sc.touched_paths
    · rw [if_pos hptp]
      have hcs0 := h.cs_nonneg p hptp
      have hce0 := h.ce_nonneg p hptp
      have hcsne : ¬ (sc.chain_start_ends p).1 = -1 := by omega
      have hcene : ¬ (sc.chain_start_ends p).2 = -1 := by omega
      -- the five chain-start facts for the updated window
      have HCS :
          0 ≤ (if (sc.chain_start_ends p).1 = -1 ∨ s.isStart i ∨
              s.ranks i < s.ranks ((sc.chain_start_ends p).1).toNat
            then (i : Int) else (sc.chain_start_ends p).1) ∧
          ((if (sc.chain_start_ends p).1 = -1 ∨ s.isStart i ∨
              s.ranks i < s.ranks ((sc.chain_start_ends p).1).toNat
            then (i : Int) else (sc.chain_start_ends p).1)).toNat ∈
              processed ++ [i] ∧
          s.node_path_starts ((if (sc.chain_start_ends p).1 = -1 ∨
              s.isStart i ∨
              s.ranks i < s.ranks ((sc.chain_start_ends p).1).toNat
            then (i : Int) else (sc.chain_start_ends p).1)).toNat = (p : Int) ∧
          (∀ t ∈ processed ++ [i], s.node_path_starts t = (p : Int) →
            s.ranks ((if (sc.chain_start_ends p).1 = -1 ∨ s.isStart i ∨
                s.ranks i < s.ranks ((sc.chain_start_ends p).1).toNat
              then (i : Int) else (sc.chain_start_ends p).1)).toNat ≤
              s.ranks t) ∧
          (∀ t ∈ processed ++ [i], s.node_path_starts t = (p : Int) →
            s.isStart t →
            (if (sc.chain_start_ends p).1 = -1 ∨ s.isStart i ∨
                s.ranks i < s.ranks ((sc.chain_start_ends p).1).toNat
              then (i : Int) else (sc.chain_start_ends p).1) = (t : Int)) := by
        by_cases hsi : s.isStart i = true
        · rw [if_pos (Or.inr (Or.inl hsi))]
          refine ⟨by positivity, (hmem_app _).mpr (Or.inr (by simp)), by
            simpa using hinps, ?_, ?_⟩
          · intro t ht hpt
            rcases (hmem_app t).mp ht with ht | ht
            · by_cases hti : t = i
              · subst hti; simp
              · simp only [Int.toNat_natCast]
                exact le_of_lt (hwf.start_rank i t hsi hnps
                  (by rw [hpt, hinps]) hti)
            · subst ht; simp
          · intro t ht hpt hst
            have htne : s.node_path_starts t ≠ -1 := by
              rw [hpt]; exact natCast_ne_negOne p
            have h1 : (t : Int) = s.node_path_starts t := hwf.start_eq t htne hst
            have h2 : (i : Int) = s.node_path_starts i := hwf.start_eq i hnps hsi
            rw [h1, hpt, ← hinps, ← h2]
        · by_cases hri : s.ranks i < s.ranks ((sc.chain_start_ends p).1).toNat
          · rw [if_pos (Or.inr (Or.inr hri))]
            refine ⟨by positivity, (hmem_app _).mpr (Or.inr (by simp)), by
              simpa using hinps, ?_, ?_⟩
            · intro t ht hpt
              rcases (hmem_app t).mp ht with ht | ht
              · simp only [Int.toNat_natCast]
                exact le_of_lt (lt_of_lt_of_le hri (h.rank_lb p hptp t ht hpt))
              · subst ht; simp
            · intro t ht hpt hst
              rcases (hmem_app t).mp ht with ht | ht
              · exfalso
                have hfix := h.start_fix p hptp t ht hpt hst
                have htoNat : ((sc.chain_start_ends p).1).toNat = t := by
                  rw [hfix]; simp
                rw [htoNat] at hri
                have hti : t ≠ i := by
                  intro he; rw [he] at hst; exact hsi hst
                have htne : s.node_path_starts t ≠ -1 := by
                  rw [hpt]; exact natCast_ne_negOne p
                have := hwf.start_rank t i hst htne
                  (by rw [hinps, hpt]) (fun he => hti he.symm)
                omega
              · subst ht; exact absurd hst hsi
          · rw [if_neg (by push_neg; exact ⟨hcsne, fun hc => absurd hc hsi, le_of_not_lt hri⟩)]
            refine ⟨hcs0, (hmem_app _).mpr (Or.inl (h.cs_mem p hptp)),
              h.cs_path p hptp, ?_, ?_⟩
            · intro t ht hpt
              rcases (hmem_app t).mp ht with ht | ht
              · exact h.rank_lb p hptp t ht hpt
              · subst ht; exact le_of_not_lt hri
            · intro t ht hpt hst
              rcases (hmem_app t).mp ht with ht | ht
              · exact h.start_fix p hptp t ht hpt hst
              · subst ht; exact absurd hst hsi
      have HCE :
          0 ≤ (if (sc.chain_start_ends p).2 = -1 ∨ s.isEnd i ∨
              s.ranks ((sc.chain_start_ends p).2).toNat < s.ranks i
            then (i : Int) else (sc.chain_start_ends p).2) ∧
          ((if (sc.chain_start_ends p).2 = -1 ∨ s.isEnd i ∨
              s.ranks ((sc.chain_start_ends p).2).toNat < s.ranks i
            then (i : Int) else (sc.chain_start_ends p).2)).toNat ∈
              processed ++ [i] ∧
          s.node_path_starts ((if (sc.chain_start_ends p).2 = -1 ∨
              s.isEnd i ∨
              s.ranks ((sc.chain_start_ends p).2).toNat < s.ranks i
            then (i : Int) else (sc.chain_start_ends p).2)).toNat = (p : Int) ∧
          (∀ t ∈ processed ++ [i], s.node_path_starts t = (p : Int) →
            s.ranks t ≤
            s.ranks ((if (sc.chain_start_ends p).2 = -1 ∨ s.isEnd i ∨
                s.ranks ((sc.chain_start_ends p).2).toNat < s.ranks i
              then (i : Int) else (sc.chain_start_ends p).2)).toNat) ∧
          (∀ t ∈ processed ++ [i], s.node_path_starts t = (p : Int) →
            s.isEnd t →
            (if (sc.chain_start_ends p).2 = -1 ∨ s.isEnd i ∨
                s.ranks ((sc.chain_start_ends p).2).toNat < s.ranks i
              then (i : Int) else (sc.chain_start_ends p).2) = (t : Int)) := by
        by_cases hei : s.isEnd i = true
        · rw [if_pos (Or.inr (Or.inl hei))]
          refine ⟨by positivity, (hmem_app _).mpr (Or.inr (by simp)), by
            simpa using hinps, ?_, ?_⟩
          · intro t ht hpt
            rcases (hmem_app t).mp ht with ht | ht
            · by_cases hti : t = i
              · subst hti; simp
              · simp only [Int.toNat_natCast]
                exact le_of_lt (hwf.end_rank i t hei hnps
                  (by rw [hpt, hinps]) hti)
            · subst ht; simp
          · intro t ht hpt het
            have htne : s.node_path_starts t ≠ -1 := by
              rw [hpt]; exact natCast_ne_negOne p
            by_cases hti : t = i
            · subst hti; rfl
            · exfalso
              have h1 := hwf.end_rank t i het htne (by rw [hinps, hpt])
                (fun he => hti he.symm)
              have h2 := hwf.end_rank i t hei hnps (by rw [hpt, hinps]) hti
              omega
        · by_cases hre : s.ranks ((sc.chain_start_ends p).2).toNat < s.ranks i
          · rw [if_pos (Or.inr (Or.inr hre))]
            refine ⟨by positivity, (hmem_app _).mpr (Or.inr (by simp)), by
              simpa using hinps, ?_, ?_⟩
            · intro t ht hpt
              rcases (hmem_app t).mp ht with ht | ht
              · simp only [Int.toNat_natCast]
                exact le_of_lt (lt_of_le_of_lt (h.rank_ub p hptp t ht hpt) hre)
              · subst ht; simp
            · intro t ht hpt het
              rcases (hmem_app t).mp ht with ht | ht
              · exfalso
                have hfix := h.end_fix p hptp t ht hpt het
                have htoNat : ((sc.chain_start_ends p).2).toNat = t := by
                  rw [hfix]; simp
                rw [htoNat] at hre
                have hti : t ≠ i := by
                  intro he; rw [he] at het; exact hei het
                have htne : s.node_path_starts t ≠ -1 := by
                  rw [hpt]; exact natCast_ne_negOne p
                have := hwf.end_rank t i het htne
                  (by rw [hinps, hpt]) (fun he => hti he.symm)
                omega
              · subst ht; exact absurd het hei
          · rw [if_neg (by push_neg; exact ⟨hcene, fun hc => absurd hc hei, le_of_not_lt hre⟩)]
            refine ⟨hce0, (hmem_app _).mpr (Or.inl (h.ce_mem p hptp)),
              h.ce_path p hptp, ?_, ?_⟩
            · intro t ht hpt
              rcases (hmem_app t).mp ht with ht | ht
              · exact h.rank_ub p hptp t ht hpt
              · subst ht; exact le_of_not_lt hre
            · intro t ht hpt het
              rcases (hmem_app t).mp ht with ht | ht
              · exact h.end_fix p hptp t ht hpt het
              · subst ht; exact absurd het hei
      obtain ⟨hcs'0, hcs'mem, hcs'path, hcs'lb, hcs'fix⟩ := HCS
      obtain ⟨hce'0, hce'mem, hce'path, hce'ub, hce'fix⟩ := HCE
      refine ⟨?_, ?_, ?_, ?_, ?_, ?_, ?_, ?_, ?_, ?_, ?_, ?_⟩
      · intro q hq
        simp only
        rw [if_neg (fun he => hq (by rw [he]; exact hptp))]
        exact h.untouched q hq
      · intro t ht hne
        rcases (hmem_app t).mp ht with ht | ht
        · exact h.covered t ht hne
        · subst ht; exact hptp
      · intro q hq
        simp only
        by_cases hqp : q = p
        · subst hqp; rw [if_pos rfl]; exact hcs'0
        · rw [if_neg hqp]; exact h.cs_nonneg q hq
      · intro q hq
        simp only
        by_cases hqp : q = p
        · subst hqp; rw [if_pos rfl]; exact hce'0
        · rw [if_neg hqp]; exact h.ce_nonneg q hq
      · intro q hq
        simp only
        by_cases hqp : q = p
        · subst hqp; rw [if_pos rfl]; exact hcs'mem
        · rw [if_neg hqp]
          exact (hmem_app _).mpr (Or.inl (h.cs_mem q hq))
      · intro q hq
        simp only
        by_cases hqp : q = p
        · subst hqp; rw [if_pos rfl]; exact hce'mem
        · rw [if_neg hqp]
          exact (hmem_app _).mpr (Or.inl (h.ce_mem q hq))
      · intro q hq
        simp only
        by_cases hqp : q = p
        · subst hqp; rw [if_pos rfl]; exact hcs'path
        · rw [if_neg hqp]; exact h.cs_path q hq
      · intro q hq
        simp only
        by_cases hqp : q = p
        · subst hqp; rw [if_pos rfl]; exact hce'path
        · rw [if_neg hqp]; exact h.ce_path q hq
      · intro q hq t ht hpt
        simp only
        by_cases hqp : q = p
        · subst hqp; rw [if_pos rfl]; exact hcs'lb t ht hpt
        · rw [if_neg hqp]
          rcases (hmem_app t).mp ht with ht | ht
          · exact h.rank_lb q hq t ht hpt
          · subst ht; exact absurd hpt (hq_ne q hqp)
      · intro q hq t ht hpt
        simp only
        by_cases hqp : q = p
        · subst hqp; rw [if_pos rfl]; exact hce'ub t ht hpt
        · rw [if_neg hqp]
          rcases (hmem_app t).mp ht with ht | ht
          · exact h.rank_ub q hq t ht hpt
          · subst ht; exact absurd hpt (hq_ne q hqp)
      · intro q hq t ht hpt hst
        simp only
        by_cases hqp : q = p
        · subst hqp; rw [if_pos rfl]; exact hcs'fix t ht hpt hst
        · rw [if_neg hqp]
          rcases (hmem_app t).mp ht with ht | ht
          · exact h.start_fix q hq t ht hpt hst
          · subst ht; exact absurd hpt (hq_ne q hqp)
      · intro q hq t ht hpt het
        simp only
        by_cases hqp : q = p
        · subst hqp; rw [if_pos rfl]; exact hce'fix t ht hpt het
        · rw [if_neg hqp]
          rcases (hmem_app t).mp ht with ht | ht
          · exact h.end_fix q hq t ht hpt het
          · subst ht; exact absurd hpt (hq_ne q hqp)
    · rw [if_neg hptp]
      have hold : sc.chain_start_ends p = (-1, -1) := h.untouched p hptp
      have hfresh : ∀ t ∈ processed, s.node_path_starts t ≠ (p : Int) := by
        intro t ht hc
        have hne : s.node_path_starts t ≠ -1 := by
          rw [hc]; exact natCast_ne_negOne p
        have := h.covered t ht hne
        rw [hc] at this
        simp only [Int.toNat_natCast] at this
        exact hptp this
      have hmem_tp : ∀ (q : Nat), q ∈ sc.touched_paths ++ [p] ↔
          q ∈ sc.touched_paths ∨ q = p := by intro q; simp
      have hcs' : (if (sc.chain_start_ends p).1 = -1 ∨ s.isStart i ∨
          s.ranks i < s.ranks ((sc.chain_start_ends p).1).toNat
          then (i : Int) else (sc.chain_start_ends p).1) = (i : Int) := by
        rw [if_pos (Or.inl (by rw [hold]))]
      have hce' : (if (sc.chain_start_ends p).2 = -1 ∨ s.isEnd i ∨
          s.ranks ((sc.chain_start_ends p).2).toNat < s.ranks i
          then (i : Int) else (sc.chain_start_ends p).2) = (i : Int) := by
        rw [if_pos (Or.inl (by rw [hold]))]
      refine ⟨?_, ?_, ?_, ?_, ?_, ?_, ?_, ?_, ?_, ?_, ?_, ?_⟩
      · intro q hq
        rw [hmem_tp] at hq
        push_neg at hq
        simp only
        rw [if_neg hq.2]
        exact h.untouched q hq.1
      · intro t ht hne
        rcases (hmem_app t).mp ht with ht | ht
        · exact (hmem_tp _).mpr (Or.inl (h.covered t ht hne))
        · subst ht; exact (hmem_tp _).mpr (Or.inr rfl)
      · intro q hq
        simp only
        by_cases hqp : q = p
        · subst hqp; rw [if_pos rfl, hcs']; positivity
        · rw [if_neg hqp]
          exact h.cs_nonneg q (((hmem_tp q).mp hq).resolve_right hqp)
      · intro q hq
        simp only
        by_cases hqp : q = p
        · subst hqp; rw [if_pos rfl, hce']; positivity
        · rw [if_neg hqp]
          exact h.ce_nonneg q (((hmem_tp q).mp hq).resolve_right hqp)
      · intro q hq
        simp only
        by_cases hqp : q = p
        · subst hqp; rw [if_pos rfl, hcs']
          exact (hmem_app _).mpr (Or.inr (by simp))
        · rw [if_neg hqp]
          exact (hmem_app _).mpr (Or.inl
            (h.cs_mem q (((hmem_tp q).mp hq).resolve_right hqp)))
      · intro q hq
        simp only
        by_cases hqp : q = p
        · subst hqp; rw [if_pos rfl, hce']
          exact (hmem_app _).mpr (Or.inr (by simp))
        · rw [if_neg hqp]
          exact (hmem_app _).mpr (Or.inl
            (h.ce_mem q (((hmem_tp q).mp hq).resolve_right hqp)))
      · intro q hq
        simp only
        by_cases hqp : q = p
        · subst hqp; rw [if_pos rfl, hcs']; simpa using hinps
        · rw [if_neg hqp]
          exact h.cs_path q (((hmem_tp q).mp hq).resolve_right hqp)
      · intro q hq
        simp only
        by_cases hqp : q = p
        · subst hqp; rw [if_pos rfl, hce']; simpa using hinps
        · rw [if_neg hqp]
          exact h.ce_path q (((hmem_tp q).mp hq).resolve_right hqp)
      · intro q hq t ht hpt
        simp only
        by_cases hqp : q = p
        · subst hqp; rw [if_pos rfl, hcs']
          rcases (hmem_app t).mp ht with ht | ht
          · exact absurd hpt (hfresh t ht)
          · subst ht; simp
        · rw [if_neg hqp]
          rcases (hmem_app t).mp ht with ht | ht
          · exact h.rank_lb q (((hmem_tp q).mp hq).resolve_right hqp) t ht hpt
          · subst ht; exact absurd hpt (hq_ne q hqp)
      · intro q hq t ht hpt
        simp only
        by_cases hqp : q = p
        · subst hqp; rw [if_pos rfl, hce']
          rcases (hmem_app t).mp ht with ht | ht
          · exact absurd hpt (hfresh t ht)
          · subst ht; simp
        · rw [if_neg hqp]
          rcases (hmem_app t).mp ht with ht | ht
          · exact h.rank_ub q (((hmem_tp q).mp hq).resolve_right hqp) t ht hpt
          · subst ht; exact absurd hpt (hq_ne q hqp)
      · intro q hq t ht hpt hst
        simp only
        by_cases hqp : q = p
        · subst hqp; rw [if_pos rfl, hcs']
          rcases (hmem_app t).mp ht with ht | ht
          · exact absurd hpt (hfresh t ht)
          · subst ht; rfl
        · rw [if_neg hqp]
          rcases (hmem_app t).mp ht with ht | ht
          · exact h.start_fix q (((hmem_tp q).mp hq).resolve_right hqp)
              t ht hpt hst
          · subst ht; exact absurd hpt (hq_ne q hqp)
      · intro q hq t ht hpt het
        simp only
        by_cases hqp : q = p
        · subst hqp; rw [if_pos rfl, hce']
          rcases (hmem_app t).mp ht with ht | ht
          · exact absurd hpt (hfresh t ht)
          · subst ht; rfl
        · rw [if_neg hqp]
          rcases (hmem_app t).mp ht with ht | ht
          · exact h.end_fix q (((hmem_tp q).mp hq).resolve_right hqp)
              t ht hpt het
          · subst ht; exact absurd hpt (hq_ne q hqp)

theorem chainWindowInv_newNexts (s : BPFState) (processed : List Nat)
    (sc : BPFScratch) (f : Nat → Int)
    (h : ChainWindowInv s processed sc) :
    ChainWindowInv s processed { sc with new_nexts := f } := by
  obtain ⟨h1, h2, h3, h4, h5, h6, h7, h8, h9, h10, h11, h12⟩ := h
  exact ⟨h1, h2, h3, h4, h5, h6, h7, h8, h9, h10, h11, h12⟩

theorem chainWindowInv_processElements (s : BPFState) (hwf : BPFWellFormed s) :
    ∀ (delta : List IntVarElement) (sc sc' : BPFScratch)
      (processed : List Nat),
    ChainWindowInv s processed sc →
    bpfProcessElements s delta sc = some sc' →
    ChainWindowInv s (processed ++ touchedNodes delta) sc' := by
  intro delta
  induction delta with
  | nil =>
    intro sc sc' processed hinv hres
    simp only [bpfProcessElements, Option.some.injEq] at hres
    subst hres
    simpa [touchedNodes] using hinv
  | cons e rest ih =>
    intro sc sc' processed hinv hres
    unfold bpfProcessElements at hres
    by_cases hb : e.emin = e.emax
    · rw [if_pos hb] at hres
      have hinv1 := chainWindowInv_newNexts s processed sc
        (fun i => if i = e.index then e.emin else sc.new_nexts i) hinv
      have hinv2 := chainWindowInv_update s hwf processed _ e.index hinv1
      have hinv3 := chainWindowInv_update s hwf (processed ++ [e.index]) _
        e.emin.toNat hinv2
      have hfin := ih _ sc' (processed ++ [e.index] ++ [e.emin.toNat])
        hinv3 hres
      have hlists : processed ++ [e.index] ++ [e.emin.toNat] ++
          touchedNodes rest = processed ++ touchedNodes (e :: rest) := by
        simp [touchedNodes]
      rwa [hlists] at hfin
    · rw [if_neg hb] at hres
      cases hres

/-- Claim C2: in every `BasePathFilter::Accept` call in which all delta
variables are bound, the chain window `(chain_start, chain_end)` recorded
for each touched path consists of two nodes on that path in the committed
assignment, whose ranks bound the ranks of all touched nodes of the path;
`chain_start` is the path's start whenever the start is touched, and
`chain_end` is the path's end whenever the end is touched. -/
theorem basePathFilter_chain_window (s : BPFState)
    (delta : List IntVarElement) (sc : BPFScratch)
    (hwf : BPFWellFormed s)
    (hres : bpfProcessElements s delta bpfInitScratch = some sc) :
    ∀ p ∈ sc.touched_paths,
      0 ≤ (sc.chain_start_ends p).1 ∧ 0 ≤ (sc.chain_start_ends p).2 ∧
      s.node_path_starts ((sc.chain_start_ends p).1).toNat = (p : Int) ∧
      s.node_path_starts ((sc.chain_start_ends p).2).toNat = (p : Int) ∧
      (∀ t ∈ touchedNodes delta, s.node_path_starts t = (p : Int) →
        s.ranks ((sc.chain_start_ends p).1).toNat ≤ s.ranks t ∧
        s.ranks t ≤ s.ranks ((sc.chain_start_ends p).2).toNat) ∧
      (∀ t ∈ touchedNodes delta, s.node_path_starts t = (p : Int) →
        s.isStart t → (sc.chain_start_ends p).1 = (t : Int)) ∧
      (∀ t ∈ touchedNodes delta, s.node_path_starts t = (p : Int) →
        s.isEnd t → (sc.chain_start_ends p).2 = (t : Int)) := by
  have hinv := chainWindowInv_processElements s hwf delta bpfInitScratch sc
    [] (chainWindowInv_init s) hres
  rw [List.nil_append] at hinv
  intro p hp
  exact ⟨hinv.cs_nonneg p hp, hinv.ce_nonneg p hp, hinv.cs_path p hp,
    hinv.ce_path p hp,
    fun t ht hpt => ⟨hinv.rank_lb p hp t ht hpt, hinv.rank_ub p hp t ht hpt⟩,
    fun t ht hpt hst => hinv.start_fix p hp t ht hpt hst,
    fun t ht hpt het => hinv.end_fix p hp t ht hpt het⟩

/-! A concrete instance for the chain-window witness: one path
`0 → 1 → 2` with ranks 0, 1, 2; node 0 is the path start and node 2 its
end.  The delta sets `next[1] = 2`. -/

def cwState : BPFState where
  node_path_starts := fun n => if n ≤ 2 then 0 else -1
  ranks := fun n => (n : Int)
  isStart := fun n => decide (n = 0)
  isEnd := fun n => decide (n = 2)

def cwDelta : List IntVarElement := [⟨1, 2, 2⟩]

/-- Witness for `basePathFilter_chain_window` at a concrete input: the
delta touches nodes 1 and 2 of path 0, and the recorded window is
`(1, 2)`; in particular the window bounds the touched ranks. -/
theorem basePathFilter_chain_window_witness :
    ∃ sc, bpfProcessElements cwState cwDelta bpfInitScratch = some sc ∧
      0 ∈ sc.touched_paths ∧
      (sc.chain_start_ends 0).1 = 1 ∧ (sc.chain_start_ends 0).2 = 2 ∧
      (∀ t ∈ touchedNodes cwDelta,
        cwState.node_path_starts t = ((0 : Nat) : Int) →
        cwState.ranks ((sc.chain_start_ends 0).1).toNat ≤ cwState.ranks t ∧
        cwState.ranks t ≤ cwState.ranks ((sc.chain_start_ends 0).2).toNat) := by
  refine ⟨updateTouched cwState (updateTouched cwState
    { bpfInitScratch with new_nexts := fun i =>
        if i = 1 then 2 else bpfInitScratch.new_nexts i } 1) 2, ?_, ?_, ?_, ?_, ?_⟩
  · rfl
  · decide
  · decide
  · decide
  · have hwf : BPFWellFormed cwState := by
      constructor
      · intro x; unfold cwState; simp only
        by_cases hx : x ≤ 2 <;> simp [hx]
      · intro x hx hs
        unfold cwState at hs hx ⊢
        simp only at hs hx ⊢
        have : x = 0 := by simpa using hs
        subst this; simp
      · intro x y hs hne hxy hyx
        unfold cwState at hs hne hxy ⊢
        simp only at hs hne hxy ⊢
        have hx0 : x = 0 := by simpa using hs
        subst hx0
        by_cases hy : y ≤ 2
        · simp at hxy ⊢; omega
        · simp [hy] at hxy
      · intro x y hs hne hxy hyx
        unfold cwState at hs hne hxy ⊢
        simp only at hs hne hxy ⊢
        have hx2 : x = 2 := by simpa using hs
        subst hx2
        by_cases hy : y ≤ 2
        · simp at hxy ⊢; omega
        · simp [hy] at hxy
    have h := basePathFilter_chain_window cwState cwDelta _ hwf rfl 0
      (by decide)
    exact h.2.2.2.2.1

/-! ### NodeDisjunctionFilter (routing filters source, lines 321-466)

`count_per_disjunction_` is a `CommittableVector<ActivityCount>`;
modelled from the spec (its code is not in this source file) as the
committed value function plus the current value function and the list of
changed indices in first-set order. -/

structure DisjunctionData where
  nodes : List Nat
  max_cardinality : Int
  penalty : Int
  penalize_once : Bool
deriving DecidableEq

instance : Inhabited DisjunctionData := ⟨⟨[], 0, 0, false⟩⟩

structure ActivityCount where
  active : Int
  inactive : Int
deriving DecidableEq

structure NDFModel where
  disjunctions : List DisjunctionData
  disjunctions_of_node : Nat → List Nat

structure NDFState where
  committed_count : Nat → ActivityCount
  is_var_synced : Nat → Bool
  value : Nat → Int
  synchronized_objective_value : Int
  accepted_objective_value : Int
  filter_cost : Bool
  has_mandatory_disjunctions : Bool

/-- Processing of one delta element in `NodeDisjunctionFilter::Accept`:
update the LNS flag, compute the activity-contribution delta of the node,
and add it to the counts of all disjunctions containing the node. -/
def ndfApplyElement (m : NDFModel) (st : NDFState)
    (acc : (Nat → ActivityCount) × List Nat × Bool) (e : IntVarElement) :
    (Nat → ActivityCount) × List Nat × Bool :=
  let lns' := acc.2.2 || decide (e.emin ≠ e.emax)
  let wasActive := st.is_var_synced e.index &&
    decide (st.value e.index ≠ (e.index : Int))
  let isActive := decide ((e.index : Int) < e.emin ∨ e.emax < (e.index : Int))
  let dActive : Int := (if isActive then 1 else 0) -
    (if st.is_var_synced e.index then (if wasActive then 1 else 0) else 0)
  let dInactive : Int := (if isActive then 0 else 1) -
    (if st.is_var_synced e.index then (if wasActive then 0 else 1) else 0)
  let folded :=
    if dActive = 0 ∧ dInactive = 0 then (acc.1, acc.2.1)
    else (m.disjunctions_of_node e.index).foldl
      (fun (cpair : (Nat → ActivityCount) × List Nat) d =>
        (fun j => if j = d then
            ⟨(cpair.1 d).active + dActive, (cpair.1 d).inactive + dInactive⟩
          else cpair.1 j,
         if d ∈ cpair.2 then cpair.2 else cpair.2 ++ [d]))
      (acc.1, acc.2.1)
  (folded.1, folded.2, lns')

/-- The penalty-cost loop of `NodeDisjunctionFilter::Accept` over the
changed disjunctions; `none` models the `return false` for a violated
mandatory disjunction. -/
def ndfCostLoop (m : NDFModel) (st : NDFState)
    (counts : Nat → ActivityCount) : List Nat → Int → Option Int
  | [], acc => some acc
  | d :: rest, acc =>
    let old_inactives := (st.committed_count d).inactive
    let new_inactives := (counts d).inactive
    if old_inactives = new_inactives then ndfCostLoop m st counts rest acc
    else
      let dd := m.disjunctions.getD d default
      if dd.penalty = 0 then ndfCostLoop m st counts rest acc
      else
        let max_inactives := (dd.nodes.length : Int) - dd.max_cardinality
        let new_violation := max 0 (new_inactives - max_inactives)
        let old_violation := max 0 (old_inactives - max_inactives)
        if dd.penalty < 0 ∧ 0 < new_violation then none
        else
          ndfCostLoop m st counts rest
            (CapAdd (CapProd dd.penalty
              ((if dd.penalize_once then min 1 new_violation
                else new_violation) -
               (if dd.penalize_once then min 1 old_violation
                else old_violation))) acc)

/-- `NodeDisjunctionFilter::Accept`: returns the boolean result together
with the value of `accepted_objective_value_` after the call. -/
def NDFaccept (m : NDFModel) (st : NDFState) (delta : List IntVarElement)
    (objective_max : Int) : Bool × Int :=
  let folded := delta.foldl (ndfApplyElement m st)
    (st.committed_count, [], false)
  if ¬ folded.2.1.all (fun d => (folded.1 d).active ≤
      (m.disjunctions.getD d default).max_cardinality) then
    (false, st.accepted_objective_value)
  else if folded.2.2 ∨ (¬ st.filter_cost ∧ ¬ st.has_mandatory_disjunctions)
  then (true, 0)
  else
    match ndfCostLoop m st folded.1 folded.2.1
      st.synchronized_objective_value with
    | none => (false, st.accepted_objective_value)
    | some acc => (decide (acc ≤ objective_max), acc)

theorem bpfProcessElements_none_of_unbound (s : BPFState) :
    ∀ (delta : List IntVarElement) (sc : BPFScratch),
    (∃ e ∈ delta, e.emin ≠ e.emax) →
    bpfProcessElements s delta sc = none := by
  intro delta
  induction delta with
  | nil => intro sc h; simp at h
  | cons e rest ih =>
    intro sc h
    unfold bpfProcessElements
    by_cases hb : e.emin = e.emax
    · rw [if_pos hb]
      apply ih
      rcases h with ⟨e', he', hne⟩
      rcases List.mem_cons.mp he' with he | he
      · subst he; exact absurd hb hne
      · exact ⟨e', he, hne⟩
    · rw [if_neg hb]

theorem ndfApplyElement_lns (m : NDFModel) (st : NDFState)
    (acc : (Nat → ActivityCount) × List Nat × Bool) (e : IntVarElement) :
    (ndfApplyElement m st acc e).2.2 =
      (acc.2.2 || decide (e.emin ≠ e.emax)) := rfl

theorem ndfFold_lns (m : NDFModel) (st : NDFState) :
    ∀ (delta : List IntVarElement) (acc : (Nat → ActivityCount) × List Nat × Bool),
    (delta.foldl (ndfApplyElement m st) acc).2.2 =
      (acc.2.2 || delta.any (fun e => decide (e.emin ≠ e.emax))) := by
  intro delta
  induction delta with
  | nil => intro acc; simp
  | cons e rest ih =>
    intro acc
    rw [List.foldl_cons, ih (ndfApplyElement m st acc e),
      ndfApplyElement_lns, List.any_cons, Bool.or_assoc]

/-! The counterexample instance for claim C3: one disjunction over node 5
with max-cardinality 0 and soft penalty 7; node 5 is committed inactive,
and the delta contains the unbound element `next[5] ∈ [0, 3]` (whose
domain excludes 5, so the node becomes active). -/

def c3Model : NDFModel where
  disjunctions := [⟨[5], 0, 7, false⟩]
  disjunctions_of_node := fun n => if n = 5 then [0] else []

def c3State : NDFState where
  committed_count := fun d => if d = 0 then ⟨0, 1⟩ else ⟨0, 0⟩
  is_var_synced := fun _ => true
  value := fun n => (n : Int)
  synchronized_objective_value := 0
  accepted_objective_value := 0
  filter_cost := true
  has_mandatory_disjunctions := false

def c3Delta : List IntVarElement := [⟨5, 0, 3⟩]

/-- Counterexample to claim C3: the delta contains an element that is not
bound, yet `NodeDisjunctionFilter::Accept` returns `false` (the unbound
domain `[0,3]` excludes node 5, making the node active and exceeding the
disjunction's max cardinality, which is checked before the LNS early
return). -/
theorem nodeDisjunction_lns_counterexample :
    (∃ e ∈ c3Delta, e.emin ≠ e.emax) ∧
    (NDFaccept c3Model c3State c3Delta 1000000).1 = false := by
  constructor
  · exact ⟨⟨5, 0, 3⟩, by decide, by decide⟩
  · decide

/-- Claim C3 as amended: if a delta element for one of the filter's
variables is unbound, `BasePathFilter::Accept` returns true before
invoking any of `InitializeAcceptPath` / `AcceptPath` /
`FinalizeAcceptPath` (the result is `true` for every choice of those
callbacks); and `NodeDisjunctionFilter::Accept` returns true with
accepted objective value 0 provided no changed disjunction's active count
exceeds its max cardinality — otherwise it returns false. -/
theorem lns_accept_amended :
    (∀ (s : BPFState) (disabled : Bool) (delta : List IntVarElement)
       (initAP : Bool) (acceptPath : Nat → Int → Int → Bool)
       (finalizeAP : Bool),
      (∃ e ∈ delta, e.emin ≠ e.emax) →
      bpfAccept s disabled delta initAP acceptPath finalizeAP = true) ∧
    (∀ (m : NDFModel) (st : NDFState) (delta : List IntVarElement)
       (objective_max : Int),
      (∃ e ∈ delta, e.emin ≠ e.emax) →
      ((delta.foldl (ndfApplyElement m st)
          (st.committed_count, [], false)).2.1.all (fun d =>
        ((delta.foldl (ndfApplyElement m st)
          (st.committed_count, [], false)).1 d).active ≤
          (m.disjunctions.getD d default).max_cardinality)) = true →
      NDFaccept m st delta objective_max = (true, 0)) := by
  constructor
  · intro s disabled delta initAP acceptPath finalizeAP h
    unfold bpfAccept
    by_cases hd : disabled
    · rw [if_pos hd]
    · rw [if_neg hd, bpfProcessElements_none_of_unbound s delta _ h]
  · intro m st delta objective_max h hcard
    have hlns : (delta.foldl (ndfApplyElement m st)
        (st.committed_count, [], false)).2.2 = true := by
      rw [ndfFold_lns]
      rcases h with ⟨e, he, hne⟩
      simp only [Bool.false_or]
      exact List.any_eq_true.mpr ⟨e, he, by simpa using hne⟩
    unfold NDFaccept
    rw [if_neg (by rw [hcard]; simp), if_pos (Or.inl hlns)]

/-- Witness for `lns_accept_amended` at concrete inputs: an unbound
element makes the path skeleton accept for arbitrary callbacks, and makes
the disjunction filter accept with objective 0 when no cardinality bound
is exceeded. -/
theorem lns_accept_amended_witness :
    bpfAccept cwState false [⟨1, 0, 3⟩] false (fun _ _ _ => false) false =
      true ∧
    NDFaccept c3Model c3State [⟨6, 0, 3⟩] 0 = (true, 0) := by
  constructor
  · exact lns_accept_amended.1 cwState false [⟨1, 0, 3⟩] false _ false
      ⟨⟨1, 0, 3⟩, by decide, by decide⟩
  · exact lns_accept_amended.2 c3Model c3State [⟨6, 0, 3⟩] 0
      ⟨⟨6, 0, 3⟩, by decide, by decide⟩ (by decide)

/-! ### NodeDisjunctionFilter penalty cost (claim C8) -/

/-- The per-disjunction cost term of `NodeDisjunctionFilter::OnSynchronize`:
`penalty * violation` when `violation > 0` and `penalty > 0`, with the
violation clamped to `min(1, violation)` under `PENALIZE_ONCE`. -/
def disjunctionViolationCost (dd : DisjunctionData) (inactive : Int) : Int :=
  let violation := inactive - ((dd.nodes.length : Int) - dd.max_cardinality)
  if 0 < violation ∧ 0 < dd.penalty then
    CapProd dd.penalty
      (if dd.penalize_once then min 1 violation else violation)
  else 0

/-- The objective value `OnSynchronize` computes from per-disjunction
inactive counts. -/
def ndfSyncObjectiveOf (m : NDFModel) (counts : Nat → ActivityCount) : Int :=
  (List.range m.disjunctions.length).foldl
    (fun acc d => CapAdd (disjunctionViolationCost
      (m.disjunctions.getD d default) ((counts d).inactive)) acc) 0

/-- Exact (unsaturated) version of the per-disjunction cost term. -/
def dvCostExact (dd : DisjunctionData) (inactive : Int) : Int :=
  let violation := inactive - ((dd.nodes.length : Int) - dd.max_cardinality)
  if 0 < violation ∧ 0 < dd.penalty then
    dd.penalty * (if dd.penalize_once then min 1 violation else violation)
  else 0

def B16 : Int := 65536

/-- Size bounds under which the disjunction-cost arithmetic never
saturates. -/
structure NDFBounded (m : NDFModel) (st : NDFState)
    (counts : Nat → ActivityCount) : Prop where
  num_small : ((m.disjunctions.length : Int)) ≤ B16
  penalty_nonneg : ∀ d < m.disjunctions.length,
    0 ≤ (m.disjunctions.getD d default).penalty
  penalty_small : ∀ d < m.disjunctions.length,
    (m.disjunctions.getD d default).penalty ≤ B16
  size_small : ∀ d < m.disjunctions.length,
    (((m.disjunctions.getD d default).nodes.length : Int)) ≤ B16
  card_nonneg : ∀ d < m.disjunctions.length,
    0 ≤ (m.disjunctions.getD d default).max_cardinality
  card_le_size : ∀ d < m.disjunctions.length,
    (m.disjunctions.getD d default).max_cardinality ≤
      ((m.disjunctions.getD d default).nodes.length : Int)
  old_small : ∀ d < m.disjunctions.length,
    -B16 ≤ (st.committed_count d).inactive ∧
      (st.committed_count d).inactive ≤ B16
  new_small : ∀ d < m.disjunctions.length,
    -B16 ≤ (counts d).inactive ∧ (counts d).inactive ≤ B16

theorem dvCostExact_nonneg (dd : DisjunctionData) (x : Int)
    (hpen : 0 ≤ dd.penalty) : 0 ≤ dvCostExact dd x := by
  simp only [dvCostExact]
  split_ifs with h1 h2
  · exact mul_nonneg hpen (le_min (by omega) (le_of_lt h1.1))
  · exact mul_nonneg hpen (le_of_lt h1.1)
  · exact le_refl 0

theorem dvCostExact_le (dd : DisjunctionData) (x : Int)
    (hpenn : 0 ≤ dd.penalty) (hpen : dd.penalty ≤ B16)
    (hcard : 0 ≤ dd.max_cardinality)
    (hcs : dd.max_cardinality ≤ ((dd.nodes.length : Int)))
    (hx : x ≤ B16) :
    dvCostExact dd x ≤ B16 * B16 := by
  have hB : (0:Int) ≤ B16 := by unfold B16; omega
  simp only [dvCostExact]
  split_ifs with h1 h2
  · have h3 : min 1 (x - ((dd.nodes.length : Int) - dd.max_cardinality)) ≤
        B16 := by
      have : (1:Int) ≤ B16 := by unfold B16; omega
      omega
    exact mul_le_mul hpen h3 (le_min (by omega) (le_of_lt h1.1)) hB
  · exact mul_le_mul hpen (by omega) (le_of_lt h1.1) hB
  · positivity

/-- Under the size bounds, the saturated per-disjunction cost equals the
exact one. -/
theorem disjunctionViolationCost_eq_exact (dd : DisjunctionData) (x : Int)
    (hpenn : 0 ≤ dd.penalty) (hpen : dd.penalty ≤ B16)
    (hcard : 0 ≤ dd.max_cardinality)
    (hcs : dd.max_cardinality ≤ ((dd.nodes.length : Int)))
    (hxl : -B16 ≤ x) (hx : x ≤ B16) :
    disjunctionViolationCost dd x = dvCostExact dd x := by
  simp only [disjunctionViolationCost, dvCostExact]
  split_ifs with h1 h2
  · apply CapProd_eq
    · have h3 : (0:Int) ≤ dd.penalty *
          min 1 (x - ((dd.nodes.length : Int) - dd.max_cardinality)) :=
        mul_nonneg hpenn (le_min (by omega) (le_of_lt h1.1))
      unfold kint64min
      omega
    · have h3 : dd.penalty *
          min 1 (x - ((dd.nodes.length : Int) - dd.max_cardinality)) ≤
          B16 * B16 := by
        have h4 : min 1 (x - ((dd.nodes.length : Int) - dd.max_cardinality)) ≤
            B16 := by
          have : (1:Int) ≤ B16 := by unfold B16; omega
          omega
        exact mul_le_mul hpen h4 (le_min (by omega) (le_of_lt h1.1))
          (by unfold B16; omega)
      unfold kint64max B16 at *
      omega
  · apply CapProd_eq
    · have h3 : (0:Int) ≤ dd.penalty *
          (x - ((dd.nodes.length : Int) - dd.max_cardinality)) :=
        mul_nonneg hpenn (le_of_lt h1.1)
      unfold kint64min
      omega
    · have h3 : dd.penalty *
          (x - ((dd.nodes.length : Int) - dd.max_cardinality)) ≤
          B16 * B16 :=
        mul_le_mul hpen (by omega) (le_of_lt h1.1) (by unfold B16; omega)
      unfold kint64max B16 at *
      omega
  · rfl

/-- A left fold of saturating additions of non-negative bounded terms is
the exact sum. -/
theorem foldl_capAdd_eq (f : Nat → Int) (K : Int) :
    ∀ (l : List Nat) (init : Int),
    (∀ d ∈ l, 0 ≤ f d ∧ f d ≤ K) →
    0 ≤ init → init + K * l.length ≤ kint64max →
    l.foldl (fun acc d => CapAdd (f d) acc) init =
      init + (l.map f).sum ∧
    0 ≤ (l.map f).sum ∧ (l.map f).sum ≤ K * l.length := by
  intro l
  induction l with
  | nil => intro init h h0 hb; simp
  | cons d rest ih =>
    intro init hf h0 hb
    have hfd := hf d (List.mem_cons_self d rest)
    have hK : 0 ≤ K := le_trans hfd.1 hfd.2
    have hlen : (0:Int) ≤ K * rest.length := by positivity
    have hlencast : ((d :: rest).length : Int) = (rest.length : Int) + 1 := by
      push_cast [List.length_cons]; ring
    have hexp : K * ((rest.length : Int) + 1) = K * rest.length + K := by ring
    rw [hlencast, hexp] at hb
    have hstep : CapAdd (f d) init = f d + init := by
      apply CapAdd_eq
      · unfold kint64min; omega
      · omega
    rw [List.foldl_cons, hstep]
    have hrec := ih (f d + init)
      (fun x hx => hf x (List.mem_cons_of_mem d hx))
      (by omega) (by omega)
    refine ⟨?_, ?_, ?_⟩
    · rw [hrec.1, List.map_cons, List.sum_cons]; ring
    · have := hrec.2.1
      rw [List.map_cons, List.sum_cons]
      omega
    · have := hrec.2.2
      rw [List.map_cons, List.sum_cons, hlencast, hexp]
      omega

/-- `penalty · clamped-violation` equals the exact per-disjunction cost
term when the penalty is positive. -/
theorem clampTimes_eq_cost (dd : DisjunctionData) (x : Int)
    (hpenpos : 0 < dd.penalty) :
    dd.penalty * (if dd.penalize_once then
        min 1 (max 0 (x - ((dd.nodes.length : Int) - dd.max_cardinality)))
      else max 0 (x - ((dd.nodes.length : Int) - dd.max_cardinality))) =
      dvCostExact dd x := by
  simp only [dvCostExact]
  by_cases hv : 0 < x - ((dd.nodes.length : Int) - dd.max_cardinality)
  · rw [if_pos (And.intro hv hpenpos), max_eq_right (le_of_lt hv)]
  · have hrhsneg : ¬ (0 < x - ((dd.nodes.length : Int) - dd.max_cardinality) ∧
        0 < dd.penalty) := fun hc => hv hc.1
    rw [if_neg hrhsneg, max_eq_left (le_of_not_lt hv)]
    by_cases ho : dd.penalize_once = true
    · rw [if_pos ho]
      norm_num
    · rw [if_neg ho]
      ring

theorem dvCostExact_pen_zero (dd : DisjunctionData) (x : Int)
    (h : dd.penalty = 0) : dvCostExact dd x = 0 := by
  simp only [dvCostExact]
  rw [if_neg]
  intro hc
  rw [h] at hc
  exact lt_irrefl 0 hc.2

/-- The saturated product of a positive bounded penalty with the change of
clamped violations equals the exact cost difference. -/
theorem capterm_eq_costDiff (dd : DisjunctionData) (newi oldi : Int)
    (hpenpos : 0 < dd.penalty) (hpen : dd.penalty ≤ B16)
    (hcardn : 0 ≤ dd.max_cardinality)
    (hcards : dd.max_cardinality ≤ ((dd.nodes.length : Int)))
    (ho2 : oldi ≤ B16) (hn2 : newi ≤ B16) :
    CapProd dd.penalty
      ((if dd.penalize_once then
          min 1 (max 0 (newi - ((dd.nodes.length : Int) - dd.max_cardinality)))
        else max 0 (newi - ((dd.nodes.length : Int) - dd.max_cardinality))) -
       (if dd.penalize_once then
          min 1 (max 0 (oldi - ((dd.nodes.length : Int) - dd.max_cardinality)))
        else max 0 (oldi - ((dd.nodes.length : Int) - dd.max_cardinality)))) =
      dvCostExact dd newi - dvCostExact dd oldi := by
  have hmul : dd.penalty *
      ((if dd.penalize_once then
          min 1 (max 0 (newi - ((dd.nodes.length : Int) - dd.max_cardinality)))
        else max 0 (newi - ((dd.nodes.length : Int) - dd.max_cardinality))) -
       (if dd.penalize_once then
          min 1 (max 0 (oldi - ((dd.nodes.length : Int) - dd.max_cardinality)))
        else max 0 (oldi - ((dd.nodes.length : Int) - dd.max_cardinality)))) =
      dvCostExact dd newi - dvCostExact dd oldi := by
    rw [mul_sub, clampTimes_eq_cost dd newi hpenpos,
      clampTimes_eq_cost dd oldi hpenpos]
  have hpenn : 0 ≤ dd.penalty := le_of_lt hpenpos
  have hcb := dvCostExact_le dd newi hpenn hpen hcardn hcards hn2
  have hcbn := dvCostExact_nonneg dd newi hpenn
  have hob := dvCostExact_le dd oldi hpenn hpen hcardn hcards ho2
  have hobn := dvCostExact_nonneg dd oldi hpenn
  have hBB : B16 * B16 = (4294967296 : Int) := by unfold B16; norm_num
  rw [hBB] at hcb hob
  unfold CapProd
  rw [hmul]
  have h1 : kint64min ≤ dvCostExact dd newi - dvCostExact dd oldi := by
    unfold kint64min; omega
  have h2 : dvCostExact dd newi - dvCostExact dd oldi ≤ kint64max := by
    unfold kint64max; omega
  omega

/-- The changed-disjunction cost loop adds exactly the change of the exact
per-disjunction costs, provided nothing saturates and no penalty is
negative. -/
theorem ndfCostLoop_spec (m : NDFModel) (st : NDFState)
    (counts : Nat → ActivityCount) :
    ∀ (changed : List Nat) (A : Int),
    (∀ d ∈ changed,
      0 ≤ (m.disjunctions.getD d default).penalty ∧
      (m.disjunctions.getD d default).penalty ≤ B16 ∧
      0 ≤ (m.disjunctions.getD d default).max_cardinality ∧
      (m.disjunctions.getD d default).max_cardinality ≤
        (((m.disjunctions.getD d default).nodes.length : Int)) ∧
      -B16 ≤ (st.committed_count d).inactive ∧
      (st.committed_count d).inactive ≤ B16 ∧
      -B16 ≤ (counts d).inactive ∧ (counts d).inactive ≤ B16) →
    -(2^62) + 2^33 * changed.length ≤ A →
    A + 2^33 * changed.length ≤ 2^62 →
    ndfCostLoop m st counts changed A =
      some (A + (changed.map (fun d =>
        dvCostExact (m.disjunctions.getD d default) ((counts d).inactive) -
        dvCostExact (m.disjunctions.getD d default)
          ((st.committed_count d).inactive))).sum) := by
  intro changed
  induction changed with
  | nil => intro A _ _ _; simp [ndfCostLoop]
  | cons d rest ih =>
    intro A hb hA1 hA2
    obtain ⟨hpenn, hpen, hcardn, hcards, hol, hor, hnl, hnr⟩ :=
      hb d (List.mem_cons_self d rest)
    have hlencast : (((d :: rest).length : Int)) = ((rest.length : Int)) + 1 := by
      push_cast [List.length_cons]; ring
    have hexp : (2:Int)^33 * (((rest.length : Int)) + 1) =
        2^33 * ((rest.length : Int)) + 2^33 := by ring
    rw [hlencast, hexp] at hA1 hA2
    have hbrest := fun x hx => hb x (List.mem_cons_of_mem d hx)
    by_cases h1 : (st.committed_count d).inactive = (counts d).inactive
    · have hdiff0 : dvCostExact (m.disjunctions.getD d default)
          ((counts d).inactive) - dvCostExact (m.disjunctions.getD d default)
          ((st.committed_count d).inactive) = 0 := by rw [h1]; ring
      simp only [ndfCostLoop, if_pos h1]
      rw [ih A hbrest (by omega) (by omega), List.map_cons, List.sum_cons,
        hdiff0]
      norm_num
    · by_cases h2 : (m.disjunctions.getD d default).penalty = 0
      · have hdiff0 : dvCostExact (m.disjunctions.getD d default)
            ((counts d).inactive) - dvCostExact
            (m.disjunctions.getD d default)
            ((st.committed_count d).inactive) = 0 := by
          rw [dvCostExact_pen_zero _ _ h2, dvCostExact_pen_zero _ _ h2]
          ring
        simp only [ndfCostLoop, if_neg h1, if_pos h2]
        rw [ih A hbrest (by omega) (by omega), List.map_cons, List.sum_cons,
          hdiff0]
        norm_num
      · have hpenpos : 0 < (m.disjunctions.getD d default).penalty := by
          omega
        have hmand : ¬ ((m.disjunctions.getD d default).penalty < 0 ∧
            0 < max 0 ((counts d).inactive -
              ((((m.disjunctions.getD d default).nodes.length : Int)) -
                (m.disjunctions.getD d default).max_cardinality))) := by
          intro hc; omega
        simp only [ndfCostLoop, if_neg h1, if_neg h2, if_neg hmand]
        rw [capterm_eq_costDiff (m.disjunctions.getD d default)
          ((counts d).inactive) ((st.committed_count d).inactive)
          hpenpos hpen hcardn hcards hor hnr]
        have hcb := dvCostExact_le (m.disjunctions.getD d default)
          ((counts d).inactive) hpenn hpen hcardn hcards hnr
        have hcbn := dvCostExact_nonneg (m.disjunctions.getD d default)
          ((counts d).inactive) hpenn
        have hob := dvCostExact_le (m.disjunctions.getD d default)
          ((st.committed_count d).inactive) hpenn hpen hcardn hcards hor
        have hobn := dvCostExact_nonneg (m.disjunctions.getD d default)
          ((st.committed_count d).inactive) hpenn
        have hBB : B16 * B16 = (4294967296 : Int) := by unfold B16; norm_num
        rw [hBB] at hcb hob
        have hcap : CapAdd (dvCostExact (m.disjunctions.getD d default)
            ((counts d).inactive) - dvCostExact
            (m.disjunctions.getD d default)
            ((st.committed_count d).inactive)) A =
            (dvCostExact (m.disjunctions.getD d default)
              ((counts d).inactive) - dvCostExact
              (m.disjunctions.getD d default)
              ((st.committed_count d).inactive)) + A := by
          apply CapAdd_eq
          · unfold kint64min
            omega
          · unfold kint64max
            omega
        rw [hcap]
        rw [ih _ hbrest (by omega) (by omega), List.map_cons, List.sum_cons]
        congr 1
        ring

/-- Claim C8: starting from a synchronized objective equal to the
`OnSynchronize` objective of the committed counts, the `Accept` cost loop
produces exactly the `OnSynchronize` objective of the new counts: every
disjunction with positive penalty whose inactive count changed contributes
exactly `penalty * max(0, inactive - (size - max_cardinality))`, clamped
to `min(1, violation)` under `PENALIZE_ONCE` in both the synchronized and
the accepted computation. -/
theorem nodeDisjunction_cost_exact (m : NDFModel) (st : NDFState)
    (counts : Nat → ActivityCount) (changed : List Nat)
    (hB : NDFBounded m st counts)
    (hsync : st.synchronized_objective_value =
      ndfSyncObjectiveOf m st.committed_count)
    (hsub : ∀ d ∈ changed, d < m.disjunctions.length)
    (hnodup : changed.Nodup)
    (hsame : ∀ d, d < m.disjunctions.length → d ∉ changed →
      (counts d).inactive = (st.committed_count d).inactive) :
    ndfCostLoop m st counts changed st.synchronized_objective_value =
      some (ndfSyncObjectiveOf m counts) := by
  have hBpos : (0:Int) ≤ B16 := by unfold B16; omega
  have hKpos : (0:Int) ≤ B16 * B16 := by positivity
  have hlenrange : (((List.range m.disjunctions.length).length : Nat) : Int) =
      ((m.disjunctions.length : Int)) := by rw [List.length_range]
  have hKbound : (0:Int) + B16 * B16 *
      ((List.range m.disjunctions.length).length) ≤ kint64max := by
    rw [hlenrange]
    have h1 : B16 * B16 * ((m.disjunctions.length : Int)) ≤
        B16 * B16 * B16 :=
      mul_le_mul_of_nonneg_left hB.num_small hKpos
    unfold B16 at h1 ⊢
    unfold kint64max
    omega
  -- the committed-counts objective, saturated = exact
  have hOldPt : ∀ d ∈ List.range m.disjunctions.length,
      disjunctionViolationCost (m.disjunctions.getD d default)
        ((st.committed_count d).inactive) =
      dvCostExact (m.disjunctions.getD d default)
        ((st.committed_count d).inactive) := by
    intro d hd
    have hd' := List.mem_range.mp hd
    exact disjunctionViolationCost_eq_exact _ _ (hB.penalty_nonneg d hd')
      (hB.penalty_small d hd') (hB.card_nonneg d hd')
      (hB.card_le_size d hd') (hB.old_small d hd').1 (hB.old_small d hd').2
  have hNewPt : ∀ d ∈ List.range m.disjunctions.length,
      disjunctionViolationCost (m.disjunctions.getD d default)
        ((counts d).inactive) =
      dvCostExact (m.disjunctions.getD d default) ((counts d).inactive) := by
    intro d hd
    have hd' := List.mem_range.mp hd
    exact disjunctionViolationCost_eq_exact _ _ (hB.penalty_nonneg d hd')
      (hB.penalty_small d hd') (hB.card_nonneg d hd')
      (hB.card_le_size d hd') (hB.new_small d hd').1 (hB.new_small d hd').2
  have hOldArg : ∀ d ∈ List.range m.disjunctions.length,
      0 ≤ disjunctionViolationCost (m.disjunctions.getD d default)
        ((st.committed_count d).inactive) ∧
      disjunctionViolationCost (m.disjunctions.getD d default)
        ((st.committed_count d).inactive) ≤ B16 * B16 := by
    intro d hd
    have hd' := List.mem_range.mp hd
    rw [hOldPt d hd]
    exact ⟨dvCostExact_nonneg _ _ (hB.penalty_nonneg d hd'),
      dvCostExact_le _ _ (hB.penalty_nonneg d hd') (hB.penalty_small d hd')
        (hB.card_nonneg d hd') (hB.card_le_size d hd')
        (hB.old_small d hd').2⟩
  have hNewArg : ∀ d ∈ List.range m.disjunctions.length,
      0 ≤ disjunctionViolationCost (m.disjunctions.getD d default)
        ((counts d).inactive) ∧
      disjunctionViolationCost (m.disjunctions.getD d default)
        ((counts d).inactive) ≤ B16 * B16 := by
    intro d hd
    have hd' := List.mem_range.mp hd
    rw [hNewPt d hd]
    exact ⟨dvCostExact_nonneg _ _ (hB.penalty_nonneg d hd'),
      dvCostExact_le _ _ (hB.penalty_nonneg d hd') (hB.penalty_small d hd')
        (hB.card_nonneg d hd') (hB.card_le_size d hd')
        (hB.new_small d hd').2⟩
  have hOld := foldl_capAdd_eq
    (fun d => disjunctionViolationCost (m.disjunctions.getD d default)
      ((st.committed_count d).inactive)) (B16 * B16)
    (List.range m.disjunctions.length) 0 hOldArg (le_refl 0) hKbound
  have hNew := foldl_capAdd_eq
    (fun d => disjunctionViolationCost (m.disjunctions.getD d default)
      ((counts d).inactive)) (B16 * B16)
    (List.range m.disjunctions.length) 0 hNewArg (le_refl 0) hKbound
  have hOldMap : (List.range m.disjunctions.length).map
      (fun d => disjunctionViolationCost (m.disjunctions.getD d default)
        ((st.committed_count d).inactive)) =
      (List.range m.disjunctions.length).map
      (fun d => dvCostExact (m.disjunctions.getD d default)
        ((st.committed_count d).inactive)) :=
    List.map_congr_left hOldPt
  have hNewMap : (List.range m.disjunctions.length).map
      (fun d => disjunctionViolationCost (m.disjunctions.getD d default)
        ((counts d).inactive)) =
      (List.range m.disjunctions.length).map
      (fun d => dvCostExact (m.disjunctions.getD d default)
        ((counts d).inactive)) :=
    List.map_congr_left hNewPt
  have hOldEq : ndfSyncObjectiveOf m st.committed_count =
      ((List.range m.disjunctions.length).map
        (fun d => dvCostExact (m.disjunctions.getD d default)
          ((st.committed_count d).inactive))).sum := by
    unfold ndfSyncObjectiveOf
    rw [hOld.1, ← hOldMap]
    ring
  have hNewEq : ndfSyncObjectiveOf m counts =
      ((List.range m.disjunctions.length).map
        (fun d => dvCostExact (m.disjunctions.getD d default)
          ((counts d).inactive))).sum := by
    unfold ndfSyncObjectiveOf
    rw [hNew.1, ← hNewMap]
    ring
  -- bounds on the changed-list length
  have hsubF : changed.toFinset ⊆ Finset.range m.disjunctions.length := by
    intro x hx
    exact Finset.mem_range.mpr (hsub x (List.mem_toFinset.mp hx))
  have hclen : ((changed.length : Int)) ≤ B16 := by
    have h1 : changed.toFinset.card = changed.length :=
      List.toFinset_card_of_nodup hnodup
    have h2 : changed.toFinset.card ≤ m.disjunctions.length := by
      have := Finset.card_le_card hsubF
      rwa [Finset.card_range] at this
    have h3 : changed.length ≤ m.disjunctions.length := by omega
    have h4 : ((changed.length : Int)) ≤ ((m.disjunctions.length : Int)) := by
      exact_mod_cast h3
    exact le_trans h4 hB.num_small
  have hsumOld := hOld.2
  rw [hOldMap] at hsumOld
  have hsum48 : ((List.range m.disjunctions.length).map
      (fun d => dvCostExact (m.disjunctions.getD d default)
        ((st.committed_count d).inactive))).sum ≤ (2:Int)^48 := by
    have h1 : B16 * B16 * ((List.range m.disjunctions.length).length : Int) ≤
        B16 * B16 * B16 := by
      rw [hlenrange]
      exact mul_le_mul_of_nonneg_left hB.num_small hKpos
    have h2 := hsumOld.2
    have h3 : ((2:Int))^48 = 281474976710656 := by norm_num
    unfold B16 at h1 h2
    omega
  have hp33 : (2:Int)^33 * ((changed.length : Int)) ≤ 2^49 := by
    have h1 : (2:Int)^33 * ((changed.length : Int)) ≤ 2^33 * B16 :=
      mul_le_mul_of_nonneg_left hclen (by positivity)
    unfold B16 at h1
    omega
  have hbs : ∀ d ∈ changed,
      0 ≤ (m.disjunctions.getD d default).penalty ∧
      (m.disjunctions.getD d default).penalty ≤ B16 ∧
      0 ≤ (m.disjunctions.getD d default).max_cardinality ∧
      (m.disjunctions.getD d default).max_cardinality ≤
        (((m.disjunctions.getD d default).nodes.length : Int)) ∧
      -B16 ≤ (st.committed_count d).inactive ∧
      (st.committed_count d).inactive ≤ B16 ∧
      -B16 ≤ (counts d).inactive ∧ (counts d).inactive ≤ B16 := by
    intro d hd
    have hd' := hsub d hd
    exact ⟨hB.penalty_nonneg d hd', hB.penalty_small d hd',
      hB.card_nonneg d hd', hB.card_le_size d hd',
      (hB.old_small d hd').1, (hB.old_small d hd').2,
      (hB.new_small d hd').1, (hB.new_small d hd').2⟩
  have hA0 : 0 ≤ st.synchronized_objective_value := by
    rw [hsync, hOldEq]; exact hsumOld.1
  have hA48 : st.synchronized_objective_value ≤ (2:Int)^48 := by
    rw [hsync, hOldEq]; exact hsum48
  have hLoop := ndfCostLoop_spec m st counts changed
    st.synchronized_objective_value hbs (by omega) (by omega)
  rw [hLoop]
  congr 1
  -- sum over changed equals sum over all disjunctions of the differences
  have hdiff : (changed.map (fun d =>
      dvCostExact (m.disjunctions.getD d default) ((counts d).inactive) -
      dvCostExact (m.disjunctions.getD d default)
        ((st.committed_count d).inactive))).sum =
      ∑ d ∈ Finset.range m.disjunctions.length,
        (dvCostExact (m.disjunctions.getD d default) ((counts d).inactive) -
         dvCostExact (m.disjunctions.getD d default)
           ((st.committed_count d).inactive)) := by
    rw [← List.sum_toFinset _ hnodup]
    exact Finset.sum_subset hsubF (by
      intro x hx hnx
      have hxn := Finset.mem_range.mp hx
      have hnotin : x ∉ changed := fun hc => hnx (List.mem_toFinset.mpr hc)
      rw [hsame x hxn hnotin]
      ring)
  have hrangeF : (List.range m.disjunctions.length).toFinset =
      Finset.range m.disjunctions.length := by
    ext x
    simp
  have hranges : ∀ (g : Nat → Int),
      ((List.range m.disjunctions.length).map g).sum =
      ∑ d ∈ Finset.range m.disjunctions.length, g d := by
    intro g
    rw [← hrangeF, List.sum_toFinset _ (List.nodup_range _)]
  rw [hsync, hOldEq, hNewEq, hdiff, hranges, hranges,
    Finset.sum_sub_distrib]
  ring

/-! ### PickupDeliveryFilter (routing filters source, lines 2522-2702)

`AcceptPathOrdered<lifo>` walks the path with a deque of open pickups;
for LIFO, pickups are pushed at the back and deliveries match and pop the
back.  The deque is modelled as a list whose head is the deque's back. -/

structure PDModel where
  size : Nat
  pair_firsts : Nat → Int
  pair_seconds : Nat → Int
  pairs_pickups : Nat → List Nat
  pairs_deliveries : Nat → List Nat
  is_var_synced : Nat → Bool
  next : Nat → Int

/-- The loop over a delivery's pickup alternatives: `found_first` is true
when the deque is nonempty and its back is one of the alternatives,
`some_synced` records a synced alternative seen before any match. -/
def scanPickups (m : PDModel) (dq : List Nat) : List Nat → Bool × Bool
  | [] => (false, false)
  | first :: rest =>
    if ¬ dq.isEmpty ∧ dq.headD 0 = first then (true, false)
    else
      let r := scanPickups m dq rest
      (r.1, m.is_var_synced first || r.2)

/-- The trailing while-loop of `AcceptPathOrdered`: reject iff some open
pickup's pair has a synced delivery alternative. -/
def pdFinalCheck (m : PDModel) : List Nat → Bool
  | [] => true
  | node :: rest =>
    if (m.pairs_deliveries (m.pair_firsts node).toNat).any
        (fun second => m.is_var_synced second) then false
    else pdFinalCheck m rest

/-- One body iteration of `AcceptPathOrdered<lifo>` for an in-range node:
pushes a pickup, matches a delivery against the deque's back (`none`
rejects the path). -/
def pdStep (m : PDModel) (lifo : Bool) (node : Nat) (dq : List Nat) :
    Option (List Nat) :=
  let dq1 := if m.pair_firsts node ≠ -1 then
      (if lifo then node :: dq else dq ++ [node]) else dq
  if m.pair_seconds node ≠ -1 then
    if ¬ (scanPickups m dq1
        (m.pairs_pickups (m.pair_seconds node).toNat)).1 ∧
       (scanPickups m dq1
        (m.pairs_pickups (m.pair_seconds node).toNat)).2 = true then none
    else some (if dq1.isEmpty then dq1 else dq1.tail)
  else some dq1

/-- The main loop of `AcceptPathOrdered<lifo>` with fuel; `fuel = 0` with
the node still on the path corresponds to `path_length > Size()`
(sub-cycle detection).  The initial fuel is `Size()`. -/
def pdOrderedLoop (m : PDModel) (lifo : Bool) :
    Nat → Nat → List Nat → Bool
  | 0, node, dq => if m.size ≤ node then pdFinalCheck m dq else false
  | fuel + 1, node, dq =>
    if m.size ≤ node then pdFinalCheck m dq
    else
      match pdStep m lifo node dq with
      | none => false
      | some dq2 =>
        if m.next node = -1 then true
        else pdOrderedLoop m lifo fuel (m.next node).toNat dq2

/-- `PickupDeliveryFilter::AcceptPathOrdered<lifo>`. -/
def AcceptPathOrdered (m : PDModel) (lifo : Bool) (path_start : Nat) :
    Bool :=
  pdOrderedLoop m lifo m.size path_start []

/-- Modelled from the spec: the stack-discipline oracle of claim C7 —
scanning the path keeps a stack of open pickups; each delivery must find
one of its pickup alternatives on top of the stack and pops it; at the
end of the path no open pair may have a synced delivery. -/
def specLifoScan (m : PDModel) : List Nat → List Nat → Bool
  | [], stack => stack.all (fun p =>
      ! (m.pairs_deliveries (m.pair_firsts p).toNat).any
        (fun s => m.is_var_synced s))
  | node :: rest, stack =>
    let stack1 := if m.pair_firsts node ≠ -1 then node :: stack else stack
    if m.pair_seconds node ≠ -1 then
      match stack1 with
      | [] => false
      | top :: stack2 =>
        if top ∈ m.pairs_pickups (m.pair_seconds node).toNat then
          specLifoScan m rest stack2
        else false
    else specLifoScan m rest stack1

/-- The in-range node sequence visited by the `GetNext` walk from a node:
every listed node is in range and bound, and the walk exits the range
right after the last listed node. -/
def IsWalk (m : PDModel) : Nat → List Nat → Prop
  | node, [] => m.size ≤ node
  | node, n :: rest => node < m.size ∧ n = node ∧ 0 ≤ m.next node ∧
      IsWalk m (m.next node).toNat rest

theorem pdFinalCheck_eq_all (m : PDModel) :
    ∀ dq : List Nat, pdFinalCheck m dq = dq.all (fun p =>
      ! (m.pairs_deliveries (m.pair_firsts p).toNat).any
        (fun s => m.is_var_synced s)) := by
  intro dq
  induction dq with
  | nil => rfl
  | cons n rest ih =>
    simp only [pdFinalCheck, List.all_cons]
    by_cases h : (m.pairs_deliveries (m.pair_firsts n).toNat).any
        (fun s => m.is_var_synced s) = true
    · rw [if_pos h, h]
      simp
    · rw [if_neg h, ih]
      have hf : (m.pairs_deliveries (m.pair_firsts n).toNat).any
          (fun s => m.is_var_synced s) = false := by
        cases hx : (m.pairs_deliveries (m.pair_firsts n).toNat).any
            (fun s => m.is_var_synced s)
        · rfl
        · exact absurd hx h
      rw [hf]
      simp

theorem scanPickups_fst (m : PDModel) (dq : List Nat) :
    ∀ pickups : List Nat,
    (scanPickups m dq pickups).1 = true ↔
      (¬ dq.isEmpty = true) ∧ dq.headD 0 ∈ pickups := by
  intro pickups
  induction pickups with
  | nil => simp [scanPickups]
  | cons f rest ih =>
    simp only [scanPickups]
    by_cases h : (¬ dq.isEmpty = true) ∧ dq.headD 0 = f
    · rw [if_pos h]
      simp only [List.mem_cons]
      exact ⟨fun _ => ⟨h.1, Or.inl h.2⟩, fun _ => trivial⟩
    · rw [if_neg h]
      simp only [List.mem_cons]
      constructor
      · intro hx
        have := ih.mp hx
        exact ⟨this.1, Or.inr this.2⟩
      · intro hx
        rcases hx.2 with he | he
        · exact absurd ⟨hx.1, he⟩ h
        · exact ih.mpr ⟨hx.1, he⟩

theorem scanPickups_snd (m : PDModel)
    (hsync : ∀ x, m.is_var_synced x = true) (dq : List Nat) :
    ∀ pickups : List Nat, pickups ≠ [] →
    (scanPickups m dq pickups).1 = false →
    (scanPickups m dq pickups).2 = true := by
  intro pickups
  cases pickups with
  | nil => intro h; exact absurd rfl h
  | cons f rest =>
    intro _ hfst
    simp only [scanPickups] at hfst ⊢
    by_cases h : (¬ dq.isEmpty = true) ∧ dq.headD 0 = f
    · rw [if_pos h] at hfst
      cases hfst
    · rw [if_neg h] at hfst ⊢
      simp [hsync f]

/-- `pdStep` for the LIFO instantiation, with the deque update reduced. -/
theorem pdStep_true (m : PDModel) (node : Nat) (dq : List Nat) :
    pdStep m true node dq =
      (if m.pair_seconds node ≠ -1 then
        if ¬ (scanPickups m
            (if m.pair_firsts node ≠ -1 then node :: dq else dq)
            (m.pairs_pickups (m.pair_seconds node).toNat)).1 ∧
           (scanPickups m
            (if m.pair_firsts node ≠ -1 then node :: dq else dq)
            (m.pairs_pickups (m.pair_seconds node).toNat)).2 = true then none
        else some (if (if m.pair_firsts node ≠ -1 then node :: dq
            else dq).isEmpty then
            (if m.pair_firsts node ≠ -1 then node :: dq else dq)
          else (if m.pair_firsts node ≠ -1 then node :: dq else dq).tail)
      else some (if m.pair_firsts node ≠ -1 then node :: dq else dq)) := rfl

theorem pdOrderedLoop_eq_spec (m : PDModel)
    (hsync : ∀ x, m.is_var_synced x = true)
    (hpk : ∀ node, node < m.size → m.pair_seconds node ≠ -1 →
      m.pairs_pickups (m.pair_seconds node).toNat ≠ []) :
    ∀ (path : List Nat) (node : Nat) (dq : List Nat) (fuel : Nat),
    IsWalk m node path → path.length ≤ fuel →
    pdOrderedLoop m true fuel node dq = specLifoScan m path dq := by
  intro path
  induction path with
  | nil =>
    intro node dq fuel hw hlen
    have hge : m.size ≤ node := hw
    cases fuel with
    | zero =>
      simp only [pdOrderedLoop, if_pos hge, specLifoScan]
      exact pdFinalCheck_eq_all m dq
    | succ f =>
      simp only [pdOrderedLoop, if_pos hge, specLifoScan]
      exact pdFinalCheck_eq_all m dq
  | cons n rest ih =>
    intro node dq fuel hw hlen
    obtain ⟨hlt, hn, hnext0, hwrest⟩ := hw
    subst hn
    cases fuel with
    | zero => simp at hlen
    | succ f =>
      have hlenr : rest.length ≤ f := by
        simp only [List.length_cons] at hlen
        omega
      simp only [pdOrderedLoop, if_neg (not_le.mpr hlt), specLifoScan,
        pdStep_true]
      have hnextne : ¬ (m.next n = -1) := by omega
      by_cases hsec : m.pair_seconds n ≠ -1
      · rw [if_pos hsec, if_pos hsec]
        have hpcks := hpk n hlt hsec
        by_cases hfound :
            (scanPickups m (if m.pair_firsts n ≠ -1 then n :: dq else dq)
              (m.pairs_pickups (m.pair_seconds n).toNat)).1 = true
        · have hchar := (scanPickups_fst m _ _).mp hfound
          have hne : (if m.pair_firsts n ≠ -1 then n :: dq else dq) ≠ [] := by
            intro hc
            rw [hc] at hchar
            simp at hchar
          rw [if_neg (by
            intro hc
            rw [hfound] at hc
            simp at hc)]
          rw [if_neg (by
            intro hc
            rw [List.isEmpty_iff] at hc
            exact hne hc)]
          dsimp only
          rw [if_neg hnextne, ih _ _ f hwrest hlenr]
          cases hd : (if m.pair_firsts n ≠ -1 then n :: dq else dq) with
          | nil => exact absurd hd hne
          | cons top stack2 =>
            rw [hd] at hchar
            simp only [List.headD_cons] at hchar
            dsimp only
            rw [if_pos hchar.2, List.tail_cons]
        · have hfoundf :
              (scanPickups m (if m.pair_firsts n ≠ -1 then n :: dq else dq)
                (m.pairs_pickups (m.pair_seconds n).toNat)).1 = false := by
            cases hx : (scanPickups m
                (if m.pair_firsts n ≠ -1 then n :: dq else dq)
                (m.pairs_pickups (m.pair_seconds n).toNat)).1
            · rfl
            · exact absurd hx hfound
          have hsnd := scanPickups_snd m hsync _ _ hpcks hfoundf
          rw [if_pos (by
            refine ⟨?_, hsnd⟩
            intro hc
            exact hfound hc)]
          dsimp only
          cases hd : (if m.pair_firsts n ≠ -1 then n :: dq else dq) with
          | nil => rfl
          | cons top stack2 =>
            dsimp only
            rw [if_neg (by
              intro hc
              apply hfound
              rw [scanPickups_fst, hd]
              exact ⟨by simp, by simpa using hc⟩)]
      · rw [if_neg hsec, if_neg hsec]
        dsimp only
        rw [if_neg hnextne, ih _ _ f hwrest hlenr]

/-- Claim C7: under the `PICKUP_AND_DELIVERY_LIFO` policy, with all next
variables bound and synced, `AcceptPathOrdered<true>` accepts a path iff
the stack-discipline scan of the path accepts it: a stack of open pickups
is popped exactly on matched deliveries (each delivery finds one of its
pickup alternatives on top of the stack), and at the end of the path no
open pair with a synced delivery remains. -/
theorem pickupDelivery_lifo_iff_stack (m : PDModel) (path_start : Nat)
    (path : List Nat)
    (hsync : ∀ x, m.is_var_synced x = true)
    (hpk : ∀ node, node < m.size → m.pair_seconds node ≠ -1 →
      m.pairs_pickups (m.pair_seconds node).toNat ≠ [])
    (hwalk : IsWalk m path_start path)
    (hlen : path.length ≤ m.size) :
    AcceptPathOrdered m true path_start = specLifoScan m path [] := by
  unfold AcceptPathOrdered
  exact pdOrderedLoop_eq_spec m hsync hpk path path_start [] m.size hwalk hlen

/-! Scenario S4: pairs `(1 → 2)` and `(3 → 4)`; node 0 is the path start,
node 5 the path end (out of the next-variable range `[0, 5)`). -/

def s4ModelAccept : PDModel where
  size := 5
  pair_firsts := fun n => if n = 1 then 0 else if n = 3 then 1 else -1
  pair_seconds := fun n => if n = 2 then 0 else if n = 4 then 1 else -1
  pairs_pickups := fun i => if i = 0 then [1] else [3]
  pairs_deliveries := fun i => if i = 0 then [2] else [4]
  is_var_synced := fun _ => true
  next := fun n => if n = 0 then 1 else if n = 1 then 3 else
    if n = 3 then 4 else if n = 4 then 2 else if n = 2 then 5 else 0

def s4ModelReject : PDModel where
  size := 5
  pair_firsts := fun n => if n = 1 then 0 else if n = 3 then 1 else -1
  pair_seconds := fun n => if n = 2 then 0 else if n = 4 then 1 else -1
  pairs_pickups := fun i => if i = 0 then [1] else [3]
  pairs_deliveries := fun i => if i = 0 then [2] else [4]
  is_var_synced := fun _ => true
  next := fun n => if n = 0 then 1 else if n = 1 then 3 else
    if n = 3 then 2 else if n = 2 then 4 else if n = 4 then 5 else 0

/-- Witness for `pickupDelivery_lifo_iff_stack`: path `S,1,3,4,2,E` is
accepted and path `S,1,3,2,4,E` is rejected, matching scenario S4. -/
theorem pickupDelivery_lifo_iff_stack_witness :
    AcceptPathOrdered s4ModelAccept true 0 = true ∧
    AcceptPathOrdered s4ModelReject true 0 = false := by
  constructor
  · rw [pickupDelivery_lifo_iff_stack s4ModelAccept 0 [0, 1, 3, 4, 2]
      (fun _ => rfl) (by decide) (by simp only [IsWalk]; decide) (by decide)]
    decide
  · rw [pickupDelivery_lifo_iff_stack s4ModelReject 0 [0, 1, 3, 2, 4]
      (fun _ => rfl) (by decide) (by simp only [IsWalk]; decide) (by decide)]
    decide

/-! Concrete instance for the disjunction-cost witness: two disjunctions,
the first (size 2, max-cardinality 1, penalty 5) has its inactive count
changed from 1 to 2 by the delta, the second (size 2, max-cardinality 0,
penalty 3, `PENALIZE_ONCE`) is unchanged. -/

def c8Model : NDFModel where
  disjunctions := [⟨[1, 2], 1, 5, false⟩, ⟨[3, 4], 0, 3, true⟩]
  disjunctions_of_node := fun n =>
    if n = 1 ∨ n = 2 then [0] else if n = 3 ∨ n = 4 then [1] else []

def c8Counts : Nat → ActivityCount := fun d =>
  if d = 0 then ⟨0, 2⟩ else if d = 1 then ⟨1, 1⟩ else ⟨0, 0⟩

def c8State : NDFState where
  committed_count := fun d =>
    if d = 0 then ⟨1, 1⟩ else if d = 1 then ⟨1, 1⟩ else ⟨0, 0⟩
  is_var_synced := fun _ => true
  value := fun n => (n : Int)
  synchronized_objective_value := 0
  accepted_objective_value := 0
  filter_cost := true
  has_mandatory_disjunctions := false

/-- Witness for `nodeDisjunction_cost_exact`: with disjunction 0 changed
from 1 to 2 inactive nodes, the cost loop yields exactly the
`OnSynchronize` objective of the new counts (which is `5 · 1 = 5`). -/
theorem nodeDisjunction_cost_exact_witness :
    ndfCostLoop c8Model c8State c8Counts [0]
      c8State.synchronized_objective_value =
      some (ndfSyncObjectiveOf c8Model c8Counts) ∧
    ndfSyncObjectiveOf c8Model c8Counts = 5 := by
  constructor
  · exact nodeDisjunction_cost_exact c8Model c8State c8Counts [0]
      (by constructor <;> decide) (by decide) (by decide) (by decide)
      (by decide)
  · decide

/-! ### PathState (`src/unnamed/part_000`, lines 3524-3683)

`PathState` stores the committed paths as slices of `committed_nodes_`,
described by `chains_` entries, and tentative changes as extra chains
appended at the end of `chains_`.  Machine `int` values are modelled as
`Int` and vectors as `List Int` indexed by position; `-1` sentinels are
kept as in the source. -/

/-- Read a vector of ints at a natural position (out-of-bounds reads do not
occur in the executions covered by the theorems below). -/
def atI (l : List Int) (i : Nat) : Int := l.getD i (-1)

/-- The half-open slice `[b, e)` of a node vector, as read through
`committed_nodes_.data() + begin_index` / `+ end_index`. -/
def intSlice (nodes : List Int) (b e : Int) : List Int :=
  (nodes.take e.toNat).drop b.toNat

/-- `ChainBounds`: half-open range `[begin_index, end_index)` of positions
into `committed_nodes_`. -/
structure ChainBounds where
  begin_index : Int
  end_index : Int
deriving DecidableEq, Repr

/-- `PathBounds`: half-open range of positions into `chains_`. -/
structure PathBounds where
  begin_index : Int
  end_index : Int
deriving DecidableEq, Repr

/-- The fields of `PathState` (lines 3524-3562 and the class usage). -/
@[ext] structure PathState where
  num_nodes : Nat
  num_paths : Nat
  num_nodes_threshold : Nat
  path_start_end : List (Int × Int)
  committed_index : List Int
  committed_paths : List Int
  committed_nodes : List Int
  chains : List ChainBounds
  paths : List PathBounds
  changed_paths : List Int
  changed_loops : List Int
  is_invalid : Bool
deriving DecidableEq, Repr

/-- `PathState::PathState(num_nodes, path_start, path_end)`
(lines 3524-3563): all paths start committed as start-end only, the
remaining nodes are appended as loops. -/
def mkPathState (num_nodes : Nat) (path_start path_end : List Int) : PathState :=
  let num_paths := path_start.length
  let pse := List.zip path_start path_end
  let s0 : PathState := {
    num_nodes := num_nodes
    num_paths := num_paths
    num_nodes_threshold := max 16 (4 * num_nodes)
    path_start_end := pse
    committed_index := List.replicate num_nodes (-1)
    committed_paths := List.replicate num_nodes (-1)
    committed_nodes := List.replicate (2 * num_paths) (-1)
    chains := List.replicate (num_paths + 1) ⟨-1, -1⟩
    paths := List.replicate num_paths ⟨-1, -1⟩
    changed_paths := []
    changed_loops := []
    is_invalid := false }
  let s1 := (List.range num_paths).foldl (fun s (path : Nat) =>
    let index : Int := 2 * (path : Int)
    let se := pse.getD path (-1, -1)
    { s with
      committed_index :=
        (s.committed_index.set se.1.toNat index).set se.2.toNat (index + 1)
      committed_nodes :=
        (s.committed_nodes.set index.toNat se.1).set (index + 1).toNat se.2
      committed_paths :=
        (s.committed_paths.set se.1.toNat (path : Int)).set se.2.toNat (path : Int)
      chains := s.chains.set path ⟨index, index + 2⟩
      paths := s.paths.set path ⟨(path : Int), (path : Int) + 1⟩ }) s0
  let s2 := { s1 with chains := s1.chains.set num_paths ⟨0, 0⟩ }
  (List.range num_nodes).foldl (fun s node =>
    if atI s.committed_index node ≠ -1 then s
    else { s with
      committed_index := s.committed_index.set node (s.committed_nodes.length : Int)
      committed_nodes := s.committed_nodes ++ [(node : Int)] }) s2

/-- `PathState::Start(path)` : first component of `path_start_end_[path]`. -/
def PathState.Start (s : PathState) (path : Nat) : Int :=
  (s.path_start_end.getD path (-1, -1)).1

/-- `PathState::End(path)` : second component of `path_start_end_[path]`. -/
def PathState.End (s : PathState) (path : Nat) : Int :=
  (s.path_start_end.getD path (-1, -1)).2

/-- `PathState::Path(node)` : `committed_paths_[node]`.  Modelled from the
spec: the accessor is declared in the class header, which only exposes the
field `committed_paths_` read at `node`. -/
def PathState.Path (s : PathState) (node : Int) : Int :=
  atI s.committed_paths node.toNat

/-- `PathState::CommittedIndex(node)` : `committed_index_[node]`.  Modelled
from the spec: trivial accessor declared in the class header. -/
def PathState.CommittedIndex (s : PathState) (node : Int) : Int :=
  atI s.committed_index node.toNat

/-- `PathState::Chains(path)` (lines 3565-3570): the chains between the
bounds stored in `paths_[path]`. -/
def PathState.Chains (s : PathState) (path : Nat) : List ChainBounds :=
  let pb := s.paths.getD path ⟨-1, -1⟩
  (s.chains.take pb.end_index.toNat).drop pb.begin_index.toNat

/-- `PathState::Nodes(path)` (lines 3572-3577): all nodes of all chains of
the path, in order. -/
def PathState.Nodes (s : PathState) (path : Nat) : List Int :=
  (s.Chains path).foldr
    (fun cb acc => intSlice s.committed_nodes cb.begin_index cb.end_index ++ acc) []

/-- `PathState::SetInvalid()`.  Modelled from the spec: sets the sticky
invalid flag (cleared only by `Revert`, line 3605). -/
def PathState.SetInvalid (s : PathState) : PathState :=
  { s with is_invalid := true }

/-- `PathState::IsInvalid()`.  Modelled from the spec: trivial accessor of
the invalid flag. -/
def PathState.IsInvalid (s : PathState) : Bool := s.is_invalid

/-- `PathState::ChangePath(path, chains)` (lines 3579-3586): records the
path as changed, appends the new chains plus a sentinel `{0, 0}` to
`chains_`, and points `paths_[path]` at the new chains. -/
def PathState.ChangePath (s : PathState) (path : Nat) (newChains : List ChainBounds) :
    PathState :=
  let path_begin_index := s.chains.length
  let chains1 := s.chains ++ newChains
  let path_end_index := chains1.length
  { s with
    changed_paths := s.changed_paths ++ [(path : Int)]
    chains := chains1 ++ [⟨0, 0⟩]
    paths := s.paths.set path ⟨(path_begin_index : Int), (path_end_index : Int)⟩ }

/-- `PathState::ChangeLoops(new_loops)` (lines 3588-3593): records the
loops whose committed path is not `-1`. -/
def PathState.ChangeLoops (s : PathState) (new_loops : List Int) : PathState :=
  { s with changed_loops :=
      s.changed_loops ++ new_loops.filter (fun loop => !(s.Path loop == -1)) }

/-- `PathState::Revert()` (lines 3604-3612). -/
def PathState.Revert (s : PathState) : PathState :=
  { s with
    is_invalid := false
    chains := s.chains.take (s.num_paths + 1)
    paths := s.changed_paths.foldl (fun ps path => ps.set path.toNat ⟨path, path + 1⟩)
      s.paths
    changed_paths := []
    changed_loops := [] }

/-- One iteration of the chain loop of `CopyNewPathAtEndOfNodes`
(lines 3616-3627): append the chain's slice of `committed_nodes_`, and if
the committed path of the new back node differs from `path`, set
`committed_paths_` to `path` on every node of the chain. -/
def copyChainAtEnd (path : Int) (cn cp : List Int) (cb : ChainBounds) :
    List Int × List Int :=
  let cn' := cn ++ intSlice cn cb.begin_index cb.end_index
  let back := (cn'.getLast?).getD (-1)
  if atI cp back.toNat = path then (cn', cp)
  else (cn', (intSlice cn' cb.begin_index cb.end_index).foldl
      (fun cp node => cp.set node.toNat path) cp)

/-- `PathState::CopyNewPathAtEndOfNodes(path)` (lines 3613-3628). -/
def PathState.CopyNewPathAtEndOfNodes (s : PathState) (path : Int) : PathState :=
  let pb := s.paths.getD path.toNat ⟨-1, -1⟩
  let st := ((s.chains.take pb.end_index.toNat).drop pb.begin_index.toNat).foldl
    (fun st cb => copyChainAtEnd path st.1 st.2 cb) (s.committed_nodes, s.committed_paths)
  { s with committed_nodes := st.1, committed_paths := st.2 }

/-- `PathState::IncrementalCommit()` (lines 3632-3653). -/
def PathState.IncrementalCommit (s : PathState) : PathState :=
  let new_nodes_begin := s.committed_nodes.length
  let s1 := s.changed_paths.foldl (fun st path =>
    let chain_begin := st.committed_nodes.length
    let st2 := st.CopyNewPathAtEndOfNodes path
    let chain_end := st2.committed_nodes.length
    { st2 with chains := st2.chains.set path.toNat ⟨(chain_begin : Int), (chain_end : Int)⟩ })
    s
  let new_nodes_end := s1.committed_nodes.length
  let ci := (List.range' new_nodes_begin (new_nodes_end - new_nodes_begin)).foldl
    (fun ci i => ci.set (atI s1.committed_nodes i).toNat (i : Int)) s1.committed_index
  let cp := s1.changed_loops.foldl (fun cp loop => cp.set loop.toNat (-1)) s1.committed_paths
  PathState.Revert { s1 with committed_index := ci, committed_paths := cp }

/-- `PathState::FullCommit()` (lines 3655-3683). -/
def PathState.FullCommit (s : PathState) : PathState :=
  let old_num_nodes := s.committed_nodes.length
  let s1 := (List.range s.num_paths).foldl (fun st path =>
    let new_path_begin := st.committed_nodes.length - old_num_nodes
    let st2 := st.CopyNewPathAtEndOfNodes (path : Int)
    let new_path_end := st2.committed_nodes.length - old_num_nodes
    { st2 with
      chains := st2.chains.set path ⟨(new_path_begin : Int), (new_path_end : Int)⟩ }) s
  let nodes1 := s1.committed_nodes.drop old_num_nodes
  let ci1 := nodes1.foldl
    (fun (st : List Int × Nat) node => (st.1.set node.toNat (st.2 : Int), st.2 + 1))
    (List.replicate s.num_nodes (-1 : Int), (0 : Nat))
  let fin := (List.range s.num_nodes).foldl
    (fun (st : List Int × List Int × List Int × Nat) node =>
      if atI st.1 node ≠ -1 then st
      else (st.1.set node (st.2.2.2 : Int), st.2.1 ++ [(node : Int)],
            st.2.2.1.set node (-1), st.2.2.2 + 1))
    (ci1.1, nodes1, s1.committed_paths, ci1.2)
  PathState.Revert { s1 with
    committed_nodes := fin.2.1
    committed_index := fin.1
    committed_paths := fin.2.2.1 }

/-- `PathState::Commit()` (lines 3595-3602). -/
def PathState.Commit (s : PathState) : PathState :=
  if s.committed_nodes.length < s.num_nodes_threshold then s.IncrementalCommit
  else s.FullCommit

/-! ### Claim C5: Revert restores the committed state -/

/-- The tentative operations available on a `PathState` between commits. -/
inductive PSOp where
  | changePath (path : Nat) (newChains : List ChainBounds)
  | changeLoops (new_loops : List Int)
  | setInvalid
deriving Repr

def psApplyOp (s : PathState) : PSOp → PathState
  | .changePath p L => s.ChangePath p L
  | .changeLoops ls => s.ChangeLoops ls
  | .setInvalid => s.SetInvalid

def psApplyOps (s : PathState) (ops : List PSOp) : PathState :=
  ops.foldl psApplyOp s

/-- A `PathState` is in committed shape: one chain per path plus the
sentinel, `paths_[p] = {p, p+1}`, no pending changes, not invalid.  This
holds after construction and after every `Commit` (both branches end in
`Revert`). -/
def PSCommitted (s : PathState) : Prop :=
  s.chains.length = s.num_paths + 1 ∧
  s.paths.length = s.num_paths ∧
  (∀ p : Nat, p < s.num_paths → s.paths.getD p ⟨-1, -1⟩ = ⟨(p : Int), (p : Int) + 1⟩) ∧
  s.changed_paths = [] ∧
  s.changed_loops = [] ∧
  s.is_invalid = false

instance (s : PathState) : Decidable (PSCommitted s) := by
  unfold PSCommitted
  infer_instance

/-- `ChangePath` may only target an existing path. -/
def PSOpValid (np : Nat) : PSOp → Prop
  | .changePath p _ => p < np
  | .changeLoops _ => True
  | .setInvalid => True

instance (np : Nat) (op : PSOp) : Decidable (PSOpValid np op) := by
  cases op with
  | changePath p L => exact Nat.decLt p np
  | changeLoops ls => exact inferInstanceAs (Decidable True)
  | setInvalid => exact inferInstanceAs (Decidable True)

theorem list_getD_set_ne {α : Type} (l : List α) (i j : Nat) (v d : α) (h : i ≠ j) :
    (l.set i v).getD j d = l.getD j d := by
  induction l generalizing i j with
  | nil => rfl
  | cons a l ih =>
    cases i with
    | zero =>
      cases j with
      | zero => exact absurd rfl h
      | succ j => rfl
    | succ i =>
      cases j with
      | zero => rfl
      | succ j =>
        simp only [List.set, List.getD_cons_succ]
        exact ih i j (by omega)

theorem list_getD_set_self {α : Type} (l : List α) (i : Nat) (v d : α) (h : i < l.length) :
    (l.set i v).getD i d = v := by
  induction l generalizing i with
  | nil => simp at h
  | cons a l ih =>
    cases i with
    | zero => rfl
    | succ i => exact ih i (by simpa using h)

/-- The `Revert` loop over `changed_paths_` rewrites every recorded path's
bounds to the canonical `{p, p+1}`; if the target list already has this
shape and the source agrees with it away from the recorded paths, the
result is the target. -/
theorem revert_paths_eq (np : Nat) (L : List Int) (target : List PathBounds) :
    ∀ ps : List PathBounds,
    ps.length = target.length →
    (∀ x ∈ L, 0 ≤ x ∧ x.toNat < np) →
    np ≤ target.length →
    (∀ p : Nat, p < np → target.getD p ⟨-1, -1⟩ = ⟨(p : Int), (p : Int) + 1⟩) →
    (∀ p : Nat, p < ps.length → (p : Int) ∉ L →
      ps.getD p ⟨-1, -1⟩ = target.getD p ⟨-1, -1⟩) →
    L.foldl (fun ps path => ps.set path.toNat ⟨path, path + 1⟩) ps = target := by
  induction L with
  | nil =>
    intro ps hlen _ _ _ hrest
    apply List.ext_getElem hlen
    intro i h1 h2
    have h := hrest i h1 (by simp)
    rwa [List.getD_eq_getElem _ _ h1, List.getD_eq_getElem _ _ h2] at h
  | cons x L ih =>
    intro ps hlen hval hnp htgt hrest
    rw [List.foldl_cons]
    refine ih (ps.set x.toNat ⟨x, x + 1⟩) (by rw [List.length_set]; exact hlen)
      (fun y hy => hval y (List.mem_cons_of_mem x hy)) hnp htgt ?_
    intro p hp hpL
    rw [List.length_set] at hp
    by_cases hpx : p = x.toNat
    · subst hpx
      obtain ⟨hx0, hxnp⟩ := hval x (List.mem_cons_self x L)
      rw [list_getD_set_self _ _ _ _ hp, htgt x.toNat hxnp]
      have hxx : ((x.toNat : Nat) : Int) = x := Int.toNat_of_nonneg hx0
      rw [hxx]
    · rw [list_getD_set_ne _ _ _ _ _ (fun hh => hpx hh.symm)]
      refine hrest p hp ?_
      intro hmem
      rcases List.mem_cons.mp hmem with he | hm
      · exact hpx (by omega)
      · exact hpL hm

/-- What the tentative operations preserve: the committed data is
untouched, the first `num_paths + 1` chains are the committed ones, path
bounds are unchanged away from the recorded changed paths, and every
recorded changed path is a valid path id. -/
def PSPending (s t : PathState) : Prop :=
  t.num_nodes = s.num_nodes ∧
  t.num_paths = s.num_paths ∧
  t.num_nodes_threshold = s.num_nodes_threshold ∧
  t.path_start_end = s.path_start_end ∧
  t.committed_index = s.committed_index ∧
  t.committed_paths = s.committed_paths ∧
  t.committed_nodes = s.committed_nodes ∧
  s.num_paths + 1 ≤ t.chains.length ∧
  t.chains.take (s.num_paths + 1) = s.chains ∧
  t.paths.length = s.paths.length ∧
  (∀ p : Nat, p < s.paths.length → (p : Int) ∉ t.changed_paths →
    t.paths.getD p ⟨-1, -1⟩ = s.paths.getD p ⟨-1, -1⟩) ∧
  (∀ x ∈ t.changed_paths, 0 ≤ x ∧ x.toNat < s.num_paths)

theorem psPending_refl (s : PathState) (hs : PSCommitted s) : PSPending s s := by
  obtain ⟨hc1, hc2, hc3, hc4, hc5, hc6⟩ := hs
  refine ⟨rfl, rfl, rfl, rfl, rfl, rfl, rfl, by omega, ?_, rfl,
    fun p hp _ => rfl, ?_⟩
  · rw [← hc1]
    exact List.take_length s.chains
  · intro x hx
    rw [hc4] at hx
    simp at hx

theorem psPending_apply (s t : PathState) (op : PSOp) (hop : PSOpValid s.num_paths op)
    (h : PSPending s t) : PSPending s (psApplyOp t op) := by
  obtain ⟨h1, h2, h3, h4, h5, h6, h7, h8, h9, h10, h11, h12⟩ := h
  cases op with
  | changePath pc L =>
    have hpc : pc < s.num_paths := hop
    refine ⟨h1, h2, h3, h4, h5, h6, h7, ?_, ?_, ?_, ?_, ?_⟩
    · show s.num_paths + 1 ≤ ((t.chains ++ L) ++ [ChainBounds.mk 0 0]).length
      simp only [List.length_append]
      omega
    · show ((t.chains ++ L) ++ [ChainBounds.mk 0 0]).take (s.num_paths + 1) = s.chains
      rw [List.append_assoc, List.take_append_eq_append_take,
        Nat.sub_eq_zero_of_le h8, List.take_zero, List.append_nil]
      exact h9
    · show (t.paths.set pc _).length = s.paths.length
      rw [List.length_set]
      exact h10
    · intro p hp hpmem
      show (t.paths.set pc _).getD p ⟨-1, -1⟩ = s.paths.getD p ⟨-1, -1⟩
      have hpmem' : (p : Int) ∉ t.changed_paths ++ [(pc : Int)] := hpmem
      have hppc : pc ≠ p := by
        intro hcontra
        subst hcontra
        exact hpmem' (List.mem_append_right _ (List.mem_singleton_self _))
      rw [list_getD_set_ne _ _ _ _ _ hppc]
      exact h11 p hp (fun hl => hpmem' (List.mem_append_left _ hl))
    · intro x hx
      have hx' : x ∈ t.changed_paths ++ [(pc : Int)] := hx
      rcases List.mem_append.mp hx' with hl | hr
      · exact h12 x hl
      · rw [List.mem_singleton.mp hr]
        constructor
        · exact Int.natCast_nonneg pc
        · simpa using hpc
  | changeLoops ls =>
    exact ⟨h1, h2, h3, h4, h5, h6, h7, h8, h9, h10, h11, h12⟩
  | setInvalid =>
    exact ⟨h1, h2, h3, h4, h5, h6, h7, h8, h9, h10, h11, h12⟩

theorem psPending_apply_ops (s : PathState) (ops : List PSOp)
    (hops : ∀ op ∈ ops, PSOpValid s.num_paths op) (t : PathState) (h : PSPending s t) :
    PSPending s (psApplyOps t ops) := by
  induction ops generalizing t with
  | nil => exact h
  | cons op ops ih =>
    exact ih (fun o ho => hops o (List.mem_cons_of_mem op ho)) _
      (psPending_apply s t op (hops op (List.mem_cons_self op ops)) h)

theorem psRevert_of_pending (s t : PathState) (hs : PSCommitted s) (h : PSPending s t) :
    t.Revert = s := by
  obtain ⟨h1, h2, h3, h4, h5, h6, h7, h8, h9, h10, h11, h12⟩ := h
  obtain ⟨hc1, hc2, hc3, hc4, hc5, hc6⟩ := hs
  refine PathState.ext h1 h2 h3 h4 h5 h6 h7 ?_ ?_ hc4.symm hc5.symm hc6.symm
  · show t.chains.take (t.num_paths + 1) = s.chains
    rw [h2]
    exact h9
  · show t.changed_paths.foldl (fun ps path => ps.set path.toNat ⟨path, path + 1⟩) t.paths
      = s.paths
    exact revert_paths_eq s.num_paths t.changed_paths s.paths t.paths h10 h12
      (by omega) hc3 (fun p hp hmem => h11 p (h10 ▸ hp) hmem)

/-- **C5**: after any sequence of `ChangePath`, `ChangeLoops` and
`SetInvalid` calls on a committed `PathState`, `Revert()` restores the
state exactly, so every read-only query (`Chains`, `Nodes`,
`CommittedIndex`, `Path`, `ChangedPaths`, `ChangedLoops`, `IsInvalid`)
returns the value it had immediately after the last commit or the
construction: the tentative tail of `chains_` is dropped, each changed
path points back to its committed chain, both change lists are empty and
the invalid flag is cleared. -/
theorem pathState_revert_restores (s : PathState) (ops : List PSOp)
    (hs : PSCommitted s) (hops : ∀ op ∈ ops, PSOpValid s.num_paths op) :
    (psApplyOps s ops).Revert = s ∧
    (∀ p, ((psApplyOps s ops).Revert).Nodes p = s.Nodes p) ∧
    (∀ p, ((psApplyOps s ops).Revert).Chains p = s.Chains p) ∧
    (∀ node, ((psApplyOps s ops).Revert).CommittedIndex node = s.CommittedIndex node) ∧
    (∀ node, ((psApplyOps s ops).Revert).Path node = s.Path node) ∧
    ((psApplyOps s ops).Revert).changed_paths = [] ∧
    ((psApplyOps s ops).Revert).changed_loops = [] ∧
    ((psApplyOps s ops).Revert).IsInvalid = false := by
  have heq : (psApplyOps s ops).Revert = s :=
    psRevert_of_pending s _ hs (psPending_apply_ops s ops hops s (psPending_refl s hs))
  refine ⟨heq, fun p => by rw [heq], fun p => by rw [heq], fun node => by rw [heq],
    fun node => by rw [heq], rfl, rfl, rfl⟩

def c5State : PathState := mkPathState 4 [0] [1]

def c5Ops : List PSOp :=
  [.changePath 0 [⟨0, 1⟩, ⟨2, 3⟩, ⟨1, 2⟩], .changeLoops [3], .setInvalid]

/-- Witness for `pathState_revert_restores`: a freshly constructed
4-node, 1-path state, a path change, a loop change and `SetInvalid`,
then `Revert` gives back the constructed state. -/
theorem pathState_revert_restores_witness :
    PSCommitted c5State ∧ (psApplyOps c5State c5Ops).Revert = c5State :=
  ⟨by decide, (pathState_revert_restores c5State c5Ops (by decide) (by decide)).1⟩

/-! ### Claim C4: Commit postcondition

Generic list helpers used to characterise the two commit branches. -/

theorem list_getD_append_left {α : Type} (l r : List α) (i : Nat) (d : α)
    (h : i < l.length) : (l ++ r).getD i d = l.getD i d := by
  induction l generalizing i with
  | nil => simp at h
  | cons a l ih =>
    cases i with
    | zero => rfl
    | succ i => exact ih i (by simpa using h)

theorem list_getD_snoc_self {α : Type} (l : List α) (x : α) (d : α) :
    (l ++ [x]).getD l.length d = x := by
  induction l with
  | nil => rfl
  | cons a l ih =>
    show (l ++ [x]).getD l.length d = x
    exact ih

theorem list_getD_take {α : Type} (l : List α) (m i : Nat) (d : α) (h : i < m) :
    (l.take m).getD i d = l.getD i d := by
  induction l generalizing m i with
  | nil => simp
  | cons a l ih =>
    cases m with
    | zero => omega
    | succ m =>
      cases i with
      | zero => rfl
      | succ i => exact ih m i (by omega)

theorem list_take_drop_singleton {α : Type} (l : List α) (i : Nat) (d : α)
    (h : i < l.length) : (l.take (i + 1)).drop i = [l.getD i d] := by
  induction l generalizing i with
  | nil => simp at h
  | cons a l ih =>
    cases i with
    | zero => rfl
    | succ i => exact ih i (by simpa using h)

theorem list_set_append_left {α : Type} (l r : List α) (i : Nat) (v : α)
    (h : i < l.length) : (l ++ r).set i v = l.set i v ++ r := by
  induction l generalizing i with
  | nil => simp at h
  | cons a l ih =>
    cases i with
    | zero => rfl
    | succ i =>
      show a :: (l ++ r).set i v = a :: (l.set i v ++ r)
      rw [ih i (by simpa using h)]

theorem list_take_append_left {α : Type} (l r : List α) (n : Nat) (h : n ≤ l.length) :
    (l ++ r).take n = l.take n := by
  rw [List.take_append_eq_append_take, Nat.sub_eq_zero_of_le h, List.take_zero,
    List.append_nil]

theorem intSlice_append_of_le (l r : List Int) (b e : Int)
    (h : e.toNat ≤ l.length) : intSlice (l ++ r) b e = intSlice l b e := by
  unfold intSlice
  rw [list_take_append_left l r e.toNat h]

/-- The middle block of a three-block concatenation, as an `intSlice`. -/
theorem intSlice_middle (A B C : List Int) :
    intSlice (A ++ B ++ C) (A.length : Int) ((A.length + B.length : Nat) : Int) = B := by
  unfold intSlice
  have h1 : (((A.length + B.length : Nat) : Int)).toNat = A.length + B.length := rfl
  have h2 : ((A.length : Int)).toNat = A.length := rfl
  rw [h1, h2, list_take_append_left (A ++ B) C (A.length + B.length) (by simp),
    ← List.length_append A B, List.take_length, List.drop_left]

/-- The concatenation of the node slices described by a chain list, read
from a fixed base vector.  `CopyNewPathAtEndOfNodes` appends exactly this
list when every chain lies inside the base. -/
def chainsConcat (base : List Int) : List ChainBounds → List Int
  | [] => []
  | cb :: L => intSlice base cb.begin_index cb.end_index ++ chainsConcat base L

theorem foldr_eq_chainsConcat (base : List Int) (L : List ChainBounds) :
    L.foldr (fun cb acc => intSlice base cb.begin_index cb.end_index ++ acc) [] =
      chainsConcat base L := by
  induction L with
  | nil => rfl
  | cons cb L ih => simp only [chainsConcat, List.foldr_cons, ih]

theorem copyChainAtEnd_fst (path : Int) (cn cp : List Int) (cb : ChainBounds) :
    (copyChainAtEnd path cn cp cb).1 = cn ++ intSlice cn cb.begin_index cb.end_index := by
  simp only [copyChainAtEnd]
  split <;> rfl

/-- The chain-copy loop only appends slices of the stable prefix `cn₀`:
its node component is the prefix plus the concatenation of the slices. -/
theorem copyFold_nodes (path : Int) (cn₀ : List Int) (L : List ChainBounds) :
    ∀ (st : List Int × List Int) (X : List Int),
    st.1 = cn₀ ++ X →
    (∀ cb ∈ L, cb.end_index.toNat ≤ cn₀.length) →
    (L.foldl (fun st cb => copyChainAtEnd path st.1 st.2 cb) st).1 =
      cn₀ ++ (X ++ chainsConcat cn₀ L) := by
  induction L with
  | nil =>
    intro st X h1 _
    simpa [chainsConcat] using h1
  | cons cb L ih =>
    intro st X h1 hv
    rw [List.foldl_cons]
    have hstep : (copyChainAtEnd path st.1 st.2 cb).1 =
        cn₀ ++ (X ++ intSlice cn₀ cb.begin_index cb.end_index) := by
      rw [copyChainAtEnd_fst, h1,
        intSlice_append_of_le cn₀ X cb.begin_index cb.end_index
          (hv cb (List.mem_cons_self _ _)), List.append_assoc]
    rw [ih (copyChainAtEnd path st.1 st.2 cb)
      (X ++ intSlice cn₀ cb.begin_index cb.end_index) hstep
      (fun c hc => hv c (List.mem_cons_of_mem cb hc))]
    simp only [chainsConcat, List.append_assoc]

theorem mem_intSlice (base : List Int) (b e : Int) (x : Int)
    (h : x ∈ intSlice base b e) : x ∈ base := by
  unfold intSlice at h
  exact List.mem_of_mem_take (List.mem_of_mem_drop h)

theorem mem_chainsConcat (base : List Int) (L : List ChainBounds) (x : Int)
    (h : x ∈ chainsConcat base L) : x ∈ base := by
  induction L with
  | nil => simp [chainsConcat] at h
  | cons cb L ih =>
    simp only [chainsConcat] at h
    rcases List.mem_append.mp h with h1 | h2
    · exact mem_intSlice base _ _ x h1
    · exact ih h2

theorem take_drop_eq_of_getD_eq {α : Type} (l₁ l₂ : List α) (k m : Nat) (d : α)
    (hm1 : m ≤ l₁.length) (hm2 : m ≤ l₂.length)
    (h : ∀ i : Nat, k ≤ i → i < m → l₁.getD i d = l₂.getD i d) :
    (l₁.take m).drop k = (l₂.take m).drop k := by
  apply List.ext_getElem
  · simp only [List.length_drop, List.length_take]
    omega
  · intro i h1 h2
    simp only [List.length_drop, List.length_take] at h1
    rw [List.getElem_drop, List.getElem_drop, List.getElem_take, List.getElem_take]
    have hki : k + i < m := by omega
    have hki1 : k + i < l₁.length := by omega
    have hki2 : k + i < l₂.length := by omega
    have := h (k + i) (by omega) hki
    rwa [List.getD_eq_getElem _ _ hki1, List.getD_eq_getElem _ _ hki2] at this

/-- The committed-index invariant that actually holds after a commit:
every node's committed index points at an occurrence of that node in
`committed_nodes_` (which makes the index injective on nodes); after an
incremental commit it is not a bijection onto `[0, |committed_nodes_|)`
because stale copies remain in the prefix. -/
def PSIndexInv (s : PathState) : Prop :=
  ∀ node : Nat, node < s.num_nodes →
    0 ≤ atI s.committed_index node ∧
    (atI s.committed_index node).toNat < s.committed_nodes.length ∧
    atI s.committed_nodes (atI s.committed_index node).toNat = (node : Int)

instance (s : PathState) : Decidable (PSIndexInv s) := by
  unfold PSIndexInv
  infer_instance

/-- Size and range facts maintained by `PathState` between commits. -/
def PSWellFormed (s : PathState) : Prop :=
  s.committed_index.length = s.num_nodes ∧
  (∀ x ∈ s.committed_nodes, 0 ≤ x ∧ x.toNat < s.num_nodes) ∧
  (∀ q : Nat, q < s.num_paths →
    0 ≤ (s.chains.getD q ⟨-1, -1⟩).begin_index ∧
    (s.chains.getD q ⟨-1, -1⟩).begin_index ≤ (s.chains.getD q ⟨-1, -1⟩).end_index ∧
    (s.chains.getD q ⟨-1, -1⟩).end_index ≤ (s.committed_nodes.length : Int)) ∧
  PSIndexInv s

instance (s : PathState) : Decidable (PSWellFormed s) := by
  unfold PSWellFormed
  infer_instance

theorem list_getD_replicate {α : Type} (n i : Nat) (x d : α) (h : i < n) :
    (List.replicate n x).getD i d = x := by
  induction n generalizing i with
  | zero => omega
  | succ n ih =>
    cases i with
    | zero => rfl
    | succ i => exact ih i (by omega)

/-- The re-indexing loop of `IncrementalCommit` preserves the pointing
invariant: it only writes `committed_index_[cn'[i]] := i` at positions
`i` that lie inside `cn'`. -/
theorem reindexFold_inv (cn' : List Int) (nn : Nat)
    (hn : ∀ x ∈ cn', 0 ≤ x ∧ x.toNat < nn) (R : List Nat) :
    ∀ ci : List Int,
    ci.length = nn →
    (∀ i ∈ R, i < cn'.length) →
    (∀ j : Nat, j < nn → 0 ≤ atI ci j ∧ (atI ci j).toNat < cn'.length ∧
      atI cn' (atI ci j).toNat = (j : Int)) →
    ∀ ci' : List Int,
    R.foldl (fun ci i => ci.set (atI cn' i).toNat (i : Int)) ci = ci' →
    (ci'.length = nn ∧
     (∀ j : Nat, j < nn → 0 ≤ atI ci' j ∧ (atI ci' j).toNat < cn'.length ∧
       atI cn' (atI ci' j).toNat = (j : Int))) := by
  induction R with
  | nil =>
    intro ci h1 _ h3 ci' hci'
    rw [List.foldl_nil] at hci'
    subst hci'
    exact ⟨h1, h3⟩
  | cons i R ih =>
    intro ci h1 h2 h3 ci' hci'
    rw [List.foldl_cons] at hci'
    refine ih (ci.set (atI cn' i).toNat (i : Int)) ?_ ?_ ?_ ci' hci'
    · rw [List.length_set]
      exact h1
    · exact fun i' hi' => h2 i' (List.mem_cons_of_mem i hi')
    · intro j hj
      have hi : i < cn'.length := h2 i (List.mem_cons_self i R)
      have hx : atI cn' i ∈ cn' := by
        unfold atI
        rw [List.getD_eq_getElem _ _ hi]
        exact List.getElem_mem _
      obtain ⟨hx0, hxnn⟩ := hn _ hx
      by_cases hji : j = (atI cn' i).toNat
      · subst hji
        have hset : atI (ci.set (atI cn' i).toNat (i : Int)) (atI cn' i).toNat = (i : Int) := by
          unfold atI
          exact list_getD_set_self _ _ _ _ (by rw [h1]; exact hxnn)
        rw [hset]
        refine ⟨Int.natCast_nonneg i, by simpa using hi, ?_⟩
        have hii : ((i : Int)).toNat = i := rfl
        rw [hii, Int.toNat_of_nonneg hx0]
      · have hset : atI (ci.set (atI cn' i).toNat (i : Int)) j = atI ci j := by
          unfold atI
          exact list_getD_set_ne _ _ _ _ _ (fun hh => hji hh.symm)
        rw [hset]
        exact h3 j hj

theorem intSlice_suffix (A B : List Int) :
    intSlice (A ++ B) (A.length : Int) ((A.length + B.length : Nat) : Int) = B := by
  have h := intSlice_middle A B []
  rwa [List.append_nil] at h

/-- Conclusions of both commit branches, stated over the state passed to
the final `Revert`: if the committed nodes are `CN ++ cc`, the single
changed path is `p`, and `chains_[p]` points at the `cc` block, then after
`Revert` the path's nodes are `cc`, the index invariant holds, and the
change lists are empty. -/
theorem revert_conclusions (R : PathState) (p : Nat) (CN cc : List Int)
    (hRcn : R.committed_nodes = CN ++ cc)
    (hRcp : R.changed_paths = [(p : Int)])
    (hplen : p < R.paths.length)
    (hRchains : R.chains.getD p ⟨-1, -1⟩ =
      ⟨(CN.length : Int), ((CN.length + cc.length : Nat) : Int)⟩)
    (hchlen : p < R.chains.length)
    (hpnp : p < R.num_paths)
    (hidxR : ∀ j : Nat, j < R.num_nodes →
      0 ≤ atI R.committed_index j ∧
      (atI R.committed_index j).toNat < (CN ++ cc).length ∧
      atI (CN ++ cc) (atI R.committed_index j).toNat = (j : Int)) :
    (PathState.Revert R).committed_nodes = CN ++ cc ∧
    (PathState.Revert R).Nodes p = cc ∧
    PSIndexInv (PathState.Revert R) ∧
    (PathState.Revert R).changed_paths = [] ∧
    (PathState.Revert R).changed_loops = [] := by
  have hpaths : (PathState.Revert R).paths.getD p ⟨-1, -1⟩ =
      ⟨(p : Int), (p : Int) + 1⟩ := by
    show (R.changed_paths.foldl (fun ps path => ps.set path.toNat ⟨path, path + 1⟩)
      R.paths).getD p ⟨-1, -1⟩ = _
    rw [hRcp, List.foldl_cons, List.foldl_nil]
    have htn : (((p : Nat) : Int)).toNat = p := rfl
    rw [htn]
    exact list_getD_set_self _ _ _ _ hplen
  have hchains : (PathState.Revert R).chains.getD p ⟨-1, -1⟩ =
      ⟨(CN.length : Int), ((CN.length + cc.length : Nat) : Int)⟩ := by
    show (R.chains.take (R.num_paths + 1)).getD p ⟨-1, -1⟩ = _
    rw [list_getD_take _ _ _ _ (by omega)]
    exact hRchains
  have hchlen2 : p < (PathState.Revert R).chains.length := by
    show p < (R.chains.take (R.num_paths + 1)).length
    rw [List.length_take]
    omega
  refine ⟨hRcn, ?_, ?_, rfl, rfl⟩
  · simp only [PathState.Nodes, PathState.Chains]
    rw [hpaths]
    have ht1 : (((p : Int)) + 1).toNat = p + 1 := by omega
    have ht2 : (((p : Nat) : Int)).toNat = p := rfl
    rw [ht1, ht2, list_take_drop_singleton _ _ ⟨-1, -1⟩ hchlen2, hchains]
    simp only [List.foldr_cons, List.foldr_nil, List.append_nil]
    have hcn2 : (PathState.Revert R).committed_nodes = CN ++ cc := hRcn
    rw [hcn2]
    exact intSlice_suffix CN cc
  · intro j hj
    have hj' : j < R.num_nodes := hj
    obtain ⟨a1, a2, a3⟩ := hidxR j hj'
    have hci : (PathState.Revert R).committed_index = R.committed_index := rfl
    have hcn2 : (PathState.Revert R).committed_nodes = CN ++ cc := hRcn
    rw [hci, hcn2]
    exact ⟨a1, a2, a3⟩

/-- Characterisation of `IncrementalCommit` on a state with exactly one
changed path whose tentative chains all point inside the committed node
vector: the new nodes are appended, the path's committed chain becomes the
appended block, and the committed index keeps pointing at an occurrence of
each node. -/
theorem incCommit_amended_general (u : PathState) (p cb0 : Nat) (L : List ChainBounds)
    (hcp : u.changed_paths = [(p : Int)])
    (hcl : u.changed_loops = [])
    (hplen : p < u.paths.length)
    (hchlen : p < u.chains.length)
    (hpnp : p < u.num_paths)
    (hpb : u.paths.getD p ⟨-1, -1⟩ = ⟨(cb0 : Int), ((cb0 + L.length : Nat) : Int)⟩)
    (hch : (u.chains.take (cb0 + L.length)).drop cb0 = L)
    (hLv : ∀ cb ∈ L, cb.end_index.toNat ≤ u.committed_nodes.length)
    (hcilen : u.committed_index.length = u.num_nodes)
    (hcn : ∀ x ∈ u.committed_nodes, 0 ≤ x ∧ x.toNat < u.num_nodes)
    (hidx : PSIndexInv u) :
    u.IncrementalCommit.num_nodes = u.num_nodes ∧
    u.IncrementalCommit.committed_nodes =
      u.committed_nodes ++ chainsConcat u.committed_nodes L ∧
    u.IncrementalCommit.Nodes p = chainsConcat u.committed_nodes L ∧
    PSIndexInv u.IncrementalCommit ∧
    u.IncrementalCommit.changed_paths = [] ∧
    u.IncrementalCommit.changed_loops = [] := by
  have hnodes2 : (u.CopyNewPathAtEndOfNodes (p : Int)).committed_nodes =
      u.committed_nodes ++ chainsConcat u.committed_nodes L := by
    simp only [PathState.CopyNewPathAtEndOfNodes]
    have htn : (((p : Nat) : Int)).toNat = p := rfl
    rw [htn, hpb]
    have htn2 : (((cb0 + L.length : Nat) : Int)).toNat = cb0 + L.length := rfl
    have htn3 : (((cb0 : Nat) : Int)).toNat = cb0 := rfl
    show ((((u.chains.take (((cb0 + L.length : Nat) : Int)).toNat)).drop
        (((cb0 : Nat) : Int)).toNat).foldl
        (fun st cb => copyChainAtEnd (p : Int) st.1 st.2 cb)
        (u.committed_nodes, u.committed_paths)).1 =
      u.committed_nodes ++ chainsConcat u.committed_nodes L
    rw [htn2, htn3, hch,
      copyFold_nodes (p : Int) u.committed_nodes L
        (u.committed_nodes, u.committed_paths) [] (List.append_nil _).symm hLv,
      List.nil_append]
  have hcl2 : (u.CopyNewPathAtEndOfNodes (p : Int)).changed_loops = [] := hcl
  have hcp2 : (u.CopyNewPathAtEndOfNodes (p : Int)).changed_paths = [(p : Int)] := hcp
  have h0 : u.IncrementalCommit = PathState.Revert
      { u with
        changed_loops := ([] : List Int),
        committed_nodes := (u.CopyNewPathAtEndOfNodes (p : Int)).committed_nodes,
        committed_paths := (u.CopyNewPathAtEndOfNodes (p : Int)).committed_paths,
        chains := u.chains.set p ⟨(u.committed_nodes.length : Int),
          (((u.CopyNewPathAtEndOfNodes (p : Int)).committed_nodes.length : Nat) : Int)⟩,
        committed_index := (List.range' u.committed_nodes.length
            ((u.CopyNewPathAtEndOfNodes (p : Int)).committed_nodes.length
              - u.committed_nodes.length)).foldl
          (fun ci i => ci.set
            (atI (u.CopyNewPathAtEndOfNodes (p : Int)).committed_nodes i).toNat (i : Int))
          u.committed_index } := by
    simp only [PathState.IncrementalCommit, hcp, hcl2, hcp2, List.foldl_cons,
      List.foldl_nil]
    rfl
  rw [hnodes2, List.length_append, Nat.add_sub_cancel_left] at h0
  have hallmem : ∀ x ∈ u.committed_nodes ++ chainsConcat u.committed_nodes L,
      0 ≤ x ∧ x.toNat < u.num_nodes := by
    intro x hx
    rcases List.mem_append.mp hx with h | h
    · exact hcn x h
    · exact hcn x (mem_chainsConcat _ _ _ h)
  have hRmem : ∀ i ∈ List.range' u.committed_nodes.length
      (chainsConcat u.committed_nodes L).length,
      i < (u.committed_nodes ++ chainsConcat u.committed_nodes L).length := by
    intro i hi
    rw [List.mem_range'_1] at hi
    rw [List.length_append]
    omega
  have hidx' : ∀ j : Nat, j < u.num_nodes →
      0 ≤ atI u.committed_index j ∧
      (atI u.committed_index j).toNat <
        (u.committed_nodes ++ chainsConcat u.committed_nodes L).length ∧
      atI (u.committed_nodes ++ chainsConcat u.committed_nodes L)
        (atI u.committed_index j).toNat = (j : Int) := by
    intro j hj
    obtain ⟨a1, a2, a3⟩ := hidx j hj
    refine ⟨a1, ?_, ?_⟩
    · rw [List.length_append]
      omega
    · show (u.committed_nodes ++ chainsConcat u.committed_nodes L).getD _ (-1) = (j : Int)
      rw [list_getD_append_left _ _ _ _ a2]
      exact a3
  obtain ⟨hfl, hfinv⟩ := reindexFold_inv
    (u.committed_nodes ++ chainsConcat u.committed_nodes L) u.num_nodes hallmem
    (List.range' u.committed_nodes.length (chainsConcat u.committed_nodes L).length)
    u.committed_index hcilen hRmem hidx' _ rfl
  rw [h0]
  exact ⟨rfl, revert_conclusions _ p u.committed_nodes (chainsConcat u.committed_nodes L)
    rfl hcp hplen (list_getD_set_self _ _ _ _ hchlen)
    (by rw [List.length_set]; exact hchlen) hpnp hfinv⟩

/-! Scaffolding for the `FullCommit` branch: the nodes copied for path `q`
and the concatenation over the first `q` paths. -/

/-- Nodes copied for path `q` by `FullCommit` when the single changed path
is `p` with tentative chains `L`: the new chains for `p`, the committed
chain for any other path. -/
def ccOfPath (u : PathState) (p : Nat) (L : List ChainBounds) (q : Nat) : List Int :=
  if q = p then chainsConcat u.committed_nodes L
  else chainsConcat u.committed_nodes [u.chains.getD q ⟨-1, -1⟩]

/-- Concatenation of the copied nodes of paths `0, …, q-1`. -/
def dkOfPath (u : PathState) (p : Nat) (L : List ChainBounds) : Nat → List Int
  | 0 => []
  | q + 1 => dkOfPath u p L q ++ ccOfPath u p L q

theorem mem_dkOfPath (u : PathState) (p : Nat) (L : List ChainBounds) (k : Nat) (x : Int)
    (h : x ∈ dkOfPath u p L k) : x ∈ u.committed_nodes := by
  induction k with
  | zero => simp [dkOfPath] at h
  | succ k ih =>
    simp only [dkOfPath] at h
    rcases List.mem_append.mp h with h1 | h2
    · exact ih h1
    · unfold ccOfPath at h2
      split at h2
      · exact mem_chainsConcat _ _ _ h2
      · exact mem_chainsConcat _ _ _ h2

theorem dkOfPath_mono (u : PathState) (p : Nat) (L : List ChainBounds) (a b : Nat)
    (h : a ≤ b) : ∃ rest : List Int, dkOfPath u p L b = dkOfPath u p L a ++ rest := by
  induction b with
  | zero =>
    have : a = 0 := by omega
    subst this
    exact ⟨[], (List.append_nil _).symm⟩
  | succ b ih =>
    by_cases hab : a = b + 1
    · subst hab
      exact ⟨[], (List.append_nil _).symm⟩
    · obtain ⟨rest, hrest⟩ := ih (by omega)
      refine ⟨rest ++ ccOfPath u p L b, ?_⟩
      show dkOfPath u p L b ++ ccOfPath u p L b = _
      rw [hrest, List.append_assoc]

/-- Invariant of the path-copy loop of `FullCommit` after the first `q`
paths have been processed. -/
def FCInv (u : PathState) (p : Nat) (L : List ChainBounds) (q : Nat) (st : PathState) :
    Prop :=
  st.committed_nodes = u.committed_nodes ++ dkOfPath u p L q ∧
  st.chains.length = u.chains.length ∧
  (∀ j : Nat, q ≤ j → st.chains.getD j ⟨-1, -1⟩ = u.chains.getD j ⟨-1, -1⟩) ∧
  (∀ j : Nat, j < q → st.chains.getD j ⟨-1, -1⟩ =
    ⟨((dkOfPath u p L j).length : Int), ((dkOfPath u p L (j + 1)).length : Int)⟩) ∧
  st.paths = u.paths ∧
  st.changed_paths = u.changed_paths ∧
  st.num_paths = u.num_paths ∧
  st.num_nodes = u.num_nodes

theorem fcStep (u : PathState) (p cb0 : Nat) (L : List ChainBounds)
    (hpb : u.paths.getD p ⟨-1, -1⟩ = ⟨(cb0 : Int), ((cb0 + L.length : Nat) : Int)⟩)
    (hch : (u.chains.take (cb0 + L.length)).drop cb0 = L)
    (hLv : ∀ cb ∈ L, cb.end_index.toNat ≤ u.committed_nodes.length)
    (hcb0 : u.num_paths ≤ cb0)
    (hculen : cb0 + L.length ≤ u.chains.length)
    (hq_paths : ∀ q : Nat, q < u.num_paths → q ≠ p →
      u.paths.getD q ⟨-1, -1⟩ = ⟨(q : Int), (q : Int) + 1⟩)
    (hq_bounds : ∀ q : Nat, q < u.num_paths → q ≠ p →
      (u.chains.getD q ⟨-1, -1⟩).end_index.toNat ≤ u.committed_nodes.length)
    (q : Nat) (hq : q < u.num_paths) (st : PathState)
    (hinv : FCInv u p L q st) :
    FCInv u p L (q + 1)
      { st.CopyNewPathAtEndOfNodes (q : Int) with
        chains := (st.CopyNewPathAtEndOfNodes (q : Int)).chains.set q
          ⟨((st.committed_nodes.length - u.committed_nodes.length : Nat) : Int),
           (((st.CopyNewPathAtEndOfNodes (q : Int)).committed_nodes.length
             - u.committed_nodes.length : Nat) : Int)⟩ } := by
  obtain ⟨h1, h2, h3, h4, h5, h6, h7, h8⟩ := hinv
  have hqch : q < u.chains.length := by omega
  have hstch : st.chains.length = u.chains.length := h2
  -- the nodes appended for path q
  have hnodes : (st.CopyNewPathAtEndOfNodes (q : Int)).committed_nodes =
      u.committed_nodes ++ dkOfPath u p L (q + 1) := by
    simp only [PathState.CopyNewPathAtEndOfNodes]
    have htq : (((q : Nat) : Int)).toNat = q := rfl
    rw [htq, h5]
    by_cases hqp : q = p
    · have hpb' : u.paths.getD q ⟨-1, -1⟩ =
          ⟨(cb0 : Int), ((cb0 + L.length : Nat) : Int)⟩ := by
        rw [hqp]
        exact hpb
      rw [hpb']
      have htn2 : (((cb0 + L.length : Nat) : Int)).toNat = cb0 + L.length := rfl
      have htn3 : (((cb0 : Nat) : Int)).toNat = cb0 := rfl
      show ((((st.chains.take (((cb0 + L.length : Nat) : Int)).toNat)).drop
          (((cb0 : Nat) : Int)).toNat).foldl
          (fun s cb => copyChainAtEnd (q : Int) s.1 s.2 cb)
          (st.committed_nodes, st.committed_paths)).1 = _
      rw [htn2, htn3]
      have hsl : (st.chains.take (cb0 + L.length)).drop cb0 = L := by
        rw [take_drop_eq_of_getD_eq st.chains u.chains cb0 (cb0 + L.length) ⟨-1, -1⟩
          (by omega) hculen (fun i hi1 _ => h3 i (by omega))]
        exact hch
      rw [hsl, copyFold_nodes (q : Int) u.committed_nodes L
        (st.committed_nodes, st.committed_paths) (dkOfPath u p L q) h1 hLv]
      show _ = u.committed_nodes ++ (dkOfPath u p L q ++ ccOfPath u p L q)
      simp only [ccOfPath]
      rw [if_pos hqp]
    · rw [hq_paths q hq hqp]
      have htq1 : (((q : Nat) : Int)).toNat = q := rfl
      have htq2 : ((((q : Nat) : Int)) + 1).toNat = q + 1 := by omega
      show ((((st.chains.take (((q : Int)) + 1).toNat)).drop
          (((q : Nat) : Int)).toNat).foldl
          (fun s cb => copyChainAtEnd (q : Int) s.1 s.2 cb)
          (st.committed_nodes, st.committed_paths)).1 = _
      rw [htq1, htq2,
        list_take_drop_singleton st.chains q ⟨-1, -1⟩ (by omega), h3 q (le_refl q),
        copyFold_nodes (q : Int) u.committed_nodes [u.chains.getD q ⟨-1, -1⟩]
          (st.committed_nodes, st.committed_paths) (dkOfPath u p L q) h1
          (by
            intro cb hcb
            rw [List.mem_singleton.mp hcb]
            exact hq_bounds q hq hqp)]
      show _ = u.committed_nodes ++ (dkOfPath u p L q ++ ccOfPath u p L q)
      simp only [ccOfPath]
      rw [if_neg hqp]
  have hlen_q : st.committed_nodes.length - u.committed_nodes.length =
      (dkOfPath u p L q).length := by
    rw [h1, List.length_append]
    omega
  have hlen_q1 : (st.CopyNewPathAtEndOfNodes (q : Int)).committed_nodes.length
      - u.committed_nodes.length = (dkOfPath u p L (q + 1)).length := by
    rw [hnodes, List.length_append]
    omega
  have hchains_eq : (st.CopyNewPathAtEndOfNodes (q : Int)).chains = st.chains := rfl
  refine ⟨hnodes, ?_, ?_, ?_, h5, h6, h7, h8⟩
  · show ((st.CopyNewPathAtEndOfNodes (q : Int)).chains.set q _).length = u.chains.length
    rw [List.length_set, hchains_eq]
    exact h2
  · intro j hj
    show ((st.CopyNewPathAtEndOfNodes (q : Int)).chains.set q _).getD j ⟨-1, -1⟩ = _
    rw [hchains_eq, list_getD_set_ne _ _ _ _ _ (by omega)]
    exact h3 j (by omega)
  · intro j hj
    show ((st.CopyNewPathAtEndOfNodes (q : Int)).chains.set q _).getD j ⟨-1, -1⟩ = _
    rw [hchains_eq]
    by_cases hjq : j = q
    · subst hjq
      rw [list_getD_set_self _ _ _ _ (by omega), hlen_q, hlen_q1]
    · rw [list_getD_set_ne _ _ _ _ _ (fun hh => hjq hh.symm)]
      exact h4 j (by omega)

theorem fcFold_inv (u : PathState) (p cb0 : Nat) (L : List ChainBounds)
    (hpb : u.paths.getD p ⟨-1, -1⟩ = ⟨(cb0 : Int), ((cb0 + L.length : Nat) : Int)⟩)
    (hch : (u.chains.take (cb0 + L.length)).drop cb0 = L)
    (hLv : ∀ cb ∈ L, cb.end_index.toNat ≤ u.committed_nodes.length)
    (hcb0 : u.num_paths ≤ cb0)
    (hculen : cb0 + L.length ≤ u.chains.length)
    (hq_paths : ∀ q : Nat, q < u.num_paths → q ≠ p →
      u.paths.getD q ⟨-1, -1⟩ = ⟨(q : Int), (q : Int) + 1⟩)
    (hq_bounds : ∀ q : Nat, q < u.num_paths → q ≠ p →
      (u.chains.getD q ⟨-1, -1⟩).end_index.toNat ≤ u.committed_nodes.length) :
    ∀ (k q : Nat) (st : PathState), q + k ≤ u.num_paths → FCInv u p L q st →
    FCInv u p L (q + k) ((List.range' q k).foldl
      (fun st (path : Nat) =>
        { st.CopyNewPathAtEndOfNodes (path : Int) with
          chains := (st.CopyNewPathAtEndOfNodes (path : Int)).chains.set path
            ⟨((st.committed_nodes.length - u.committed_nodes.length : Nat) : Int),
             (((st.CopyNewPathAtEndOfNodes (path : Int)).committed_nodes.length
               - u.committed_nodes.length : Nat) : Int)⟩ }) st) := by
  intro k
  induction k with
  | zero =>
    intro q st _ hinv
    exact hinv
  | succ k ih =>
    intro q st hle hinv
    have hstep := fcStep u p cb0 L hpb hch hLv hcb0 hculen hq_paths hq_bounds q
      (by omega) st hinv
    have hrec := ih (q + 1) _ (by omega) hstep
    have heq : q + (k + 1) = (q + 1) + k := by omega
    rw [heq]
    exact hrec

/-- The first re-indexing loop of `FullCommit`: scanning the copied nodes
with a running counter leaves every non-`-1` index entry pointing at an
occurrence of its node among the scanned nodes. -/
theorem fullReindex1_inv (nn : Nat) (M : List Int) :
    ∀ (ci prev : List Int),
    ci.length = nn →
    (∀ x ∈ M, 0 ≤ x ∧ x.toNat < nn) →
    (∀ j : Nat, j < nn → atI ci j = -1 ∨
      (0 ≤ atI ci j ∧ (atI ci j).toNat < prev.length ∧
        atI prev (atI ci j).toNat = (j : Int))) →
    ∀ r : List Int × Nat,
    M.foldl (fun (st : List Int × Nat) node => (st.1.set node.toNat (st.2 : Int), st.2 + 1))
      (ci, prev.length) = r →
    (r.1.length = nn ∧ r.2 = prev.length + M.length ∧
     (∀ j : Nat, j < nn → atI r.1 j = -1 ∨
       (0 ≤ atI r.1 j ∧ (atI r.1 j).toNat < prev.length + M.length ∧
         atI (prev ++ M) (atI r.1 j).toNat = (j : Int)))) := by
  induction M with
  | nil =>
    intro ci prev h1 _ h3 r hr
    rw [List.foldl_nil] at hr
    subst hr
    refine ⟨h1, by simp, ?_⟩
    intro j hj
    rcases h3 j hj with h | ⟨a1, a2, a3⟩
    · exact Or.inl h
    · refine Or.inr ⟨a1, ?_, ?_⟩
      · show (atI ci j).toNat < prev.length + ([] : List Int).length
        simp only [List.length_nil]
        omega
      · show atI (prev ++ []) (atI ci j).toNat = (j : Int)
        rw [List.append_nil]
        exact a3
  | cons x M ih =>
    intro ci prev h1 hM h3 r hr
    rw [List.foldl_cons] at hr
    obtain ⟨hx0, hxnn⟩ := hM x (List.mem_cons_self x M)
    have hinv' : ∀ j : Nat, j < nn →
        atI (ci.set x.toNat (prev.length : Int)) j = -1 ∨
        (0 ≤ atI (ci.set x.toNat (prev.length : Int)) j ∧
          (atI (ci.set x.toNat (prev.length : Int)) j).toNat < (prev ++ [x]).length ∧
          atI (prev ++ [x]) (atI (ci.set x.toNat (prev.length : Int)) j).toNat
            = (j : Int)) := by
      intro j hj
      by_cases hjx : j = x.toNat
      · subst hjx
        have hset : atI (ci.set x.toNat (prev.length : Int)) x.toNat
            = (prev.length : Int) := by
          unfold atI
          exact list_getD_set_self _ _ _ _ (by omega)
        rw [hset]
        refine Or.inr ⟨Int.natCast_nonneg _, ?_, ?_⟩
        · simp only [List.length_append, List.length_singleton]
          omega
        · have hpl : (((prev.length : Nat) : Int)).toNat = prev.length := rfl
          rw [hpl]
          show (prev ++ [x]).getD prev.length (-1) = ((x.toNat : Nat) : Int)
          rw [list_getD_snoc_self, Int.toNat_of_nonneg hx0]
      · have hset : atI (ci.set x.toNat (prev.length : Int)) j = atI ci j := by
          unfold atI
          exact list_getD_set_ne _ _ _ _ _ (fun hh => hjx hh.symm)
        rw [hset]
        rcases h3 j hj with h | ⟨a1, a2, a3⟩
        · exact Or.inl h
        · refine Or.inr ⟨a1, ?_, ?_⟩
          · simp only [List.length_append, List.length_singleton]
            omega
          · show (prev ++ [x]).getD (atI ci j).toNat (-1) = (j : Int)
            rw [list_getD_append_left _ _ _ _ a2]
            exact a3
    have hr' : M.foldl
        (fun (st : List Int × Nat) node => (st.1.set node.toNat (st.2 : Int), st.2 + 1))
        (ci.set x.toNat (prev.length : Int), (prev ++ [x]).length) = r := by
      have hl : (prev ++ [x]).length = prev.length + 1 := by
        simp [List.length_append]
      rw [hl]
      exact hr
    obtain ⟨c1, c2, c3⟩ := ih (ci.set x.toNat (prev.length : Int)) (prev ++ [x])
      (by rw [List.length_set]; exact h1)
      (fun y hy => hM y (List.mem_cons_of_mem x hy)) hinv' r hr'
    refine ⟨c1, ?_, ?_⟩
    · simp only [List.length_append, List.length_cons, List.length_nil] at c2 ⊢
      omega
    · intro j hj
      rcases c3 j hj with h | ⟨a1, a2, a3⟩
      · exact Or.inl h
      · refine Or.inr ⟨a1, ?_, ?_⟩
        · simp only [List.length_append, List.length_cons, List.length_nil] at a2 ⊢
          omega
        · rw [List.append_assoc, List.singleton_append] at a3
          exact a3

/-- In the loop re-indexing fold of `FullCommit`, an index entry that is
already set is never reset. -/
theorem fullLoop_preserved (K : List Nat) :
    ∀ (st : List Int × List Int × List Int × Nat) (j : Nat),
    atI st.1 j ≠ -1 →
    atI (K.foldl (fun (st : List Int × List Int × List Int × Nat) node =>
      if atI st.1 node ≠ -1 then st
      else (st.1.set node (st.2.2.2 : Int), st.2.1 ++ [(node : Int)],
            st.2.2.1.set node (-1), st.2.2.2 + 1)) st).1 j ≠ -1 := by
  induction K with
  | nil =>
    intro st j h
    exact h
  | cons k K ih =>
    intro st j h
    rw [List.foldl_cons]
    apply ih
    by_cases hk : atI st.1 k ≠ -1
    · rw [if_pos hk]
      exact h
    · rw [if_neg hk]
      show atI (st.1.set k (st.2.2.2 : Int)) j ≠ -1
      by_cases hkj : k = j
      · subst hkj
        exact absurd (not_not.mp hk) h
      · have hset : atI (st.1.set k (st.2.2.2 : Int)) j = atI st.1 j := by
          unfold atI
          exact list_getD_set_ne _ _ _ _ _ hkj
        rw [hset]
        exact h

/-- The loop re-indexing fold of `FullCommit`: it preserves the occurrence
invariant, only appends to the node vector, and leaves every processed
node with a set index entry. -/
theorem fullLoop_fold_inv (nn : Nat) :
    ∀ (K : List Nat), (∀ x ∈ K, x < nn) →
    ∀ (ci nodes cp DD : List Int),
    ci.length = nn →
    (∃ extra : List Int, nodes = DD ++ extra) →
    (∀ j : Nat, j < nn → atI ci j = -1 ∨
      (0 ≤ atI ci j ∧ (atI ci j).toNat < nodes.length ∧
        atI nodes (atI ci j).toNat = (j : Int))) →
    ∀ r : List Int × List Int × List Int × Nat,
    K.foldl (fun (st : List Int × List Int × List Int × Nat) node =>
      if atI st.1 node ≠ -1 then st
      else (st.1.set node (st.2.2.2 : Int), st.2.1 ++ [(node : Int)],
            st.2.2.1.set node (-1), st.2.2.2 + 1)) (ci, nodes, cp, nodes.length) = r →
    (r.1.length = nn ∧
     (∃ extra : List Int, r.2.1 = DD ++ extra) ∧
     (∀ j : Nat, j < nn → atI r.1 j = -1 ∨
       (0 ≤ atI r.1 j ∧ (atI r.1 j).toNat < r.2.1.length ∧
         atI r.2.1 (atI r.1 j).toNat = (j : Int))) ∧
     (∀ j ∈ K, atI r.1 j ≠ -1)) := by
  intro K
  induction K with
  | nil =>
    intro _ ci nodes cp DD h1 h2 h3 r hr
    rw [List.foldl_nil] at hr
    subst hr
    refine ⟨h1, h2, h3, ?_⟩
    intro j hj
    simp at hj
  | cons k K ih =>
    intro hKnn ci nodes cp DD h1 h2 h3 r hr
    have hknn : k < nn := hKnn k (List.mem_cons_self k K)
    rw [List.foldl_cons] at hr
    by_cases hk : atI ci k ≠ -1
    · rw [if_pos hk] at hr
      obtain ⟨c1, c2, c3, c4⟩ := ih (fun y hy => hKnn y (List.mem_cons_of_mem k hy))
        ci nodes cp DD h1 h2 h3 r hr
      refine ⟨c1, c2, c3, ?_⟩
      intro j hj
      rcases List.mem_cons.mp hj with hjk | hjK
      · subst hjk
        have := fullLoop_preserved K (ci, nodes, cp, nodes.length) j hk
        rwa [hr] at this
      · exact c4 j hjK
    · rw [if_neg hk] at hr
      have hk' : atI ci k = -1 := not_not.mp hk
      have hinv' : ∀ j : Nat, j < nn →
          atI (ci.set k (nodes.length : Int)) j = -1 ∨
          (0 ≤ atI (ci.set k (nodes.length : Int)) j ∧
            (atI (ci.set k (nodes.length : Int)) j).toNat
              < (nodes ++ [(k : Int)]).length ∧
            atI (nodes ++ [(k : Int)])
              (atI (ci.set k (nodes.length : Int)) j).toNat = (j : Int)) := by
        intro j hj
        by_cases hjk : j = k
        · subst hjk
          have hset : atI (ci.set j (nodes.length : Int)) j = (nodes.length : Int) := by
            unfold atI
            exact list_getD_set_self _ _ _ _ (by omega)
          rw [hset]
          refine Or.inr ⟨Int.natCast_nonneg _, ?_, ?_⟩
          · simp only [List.length_append, List.length_singleton]
            omega
          · have hpl : (((nodes.length : Nat) : Int)).toNat = nodes.length := rfl
            rw [hpl]
            show (nodes ++ [(j : Int)]).getD nodes.length (-1) = (j : Int)
            rw [list_getD_snoc_self]
        · have hset : atI (ci.set k (nodes.length : Int)) j = atI ci j := by
            unfold atI
            exact list_getD_set_ne _ _ _ _ _ (fun hh => hjk hh.symm)
          rw [hset]
          rcases h3 j hj with h | ⟨a1, a2, a3⟩
          · exact Or.inl h
          · refine Or.inr ⟨a1, ?_, ?_⟩
            · simp only [List.length_append, List.length_singleton]
              omega
            · show (nodes ++ [(k : Int)]).getD (atI ci j).toNat (-1) = (j : Int)
              rw [list_getD_append_left _ _ _ _ a2]
              exact a3
      obtain ⟨extra, hextra⟩ := h2
      have hr' : K.foldl (fun (st : List Int × List Int × List Int × Nat) node =>
          if atI st.1 node ≠ -1 then st
          else (st.1.set node (st.2.2.2 : Int), st.2.1 ++ [(node : Int)],
                st.2.2.1.set node (-1), st.2.2.2 + 1))
          (ci.set k (nodes.length : Int), nodes ++ [(k : Int)], cp.set k (-1),
            (nodes ++ [(k : Int)]).length) = r := by
        have hl : (nodes ++ [(k : Int)]).length = nodes.length + 1 := by
          simp [List.length_append]
        rw [hl]
        exact hr
      obtain ⟨c1, c2, c3, c4⟩ := ih (fun y hy => hKnn y (List.mem_cons_of_mem k hy))
        (ci.set k (nodes.length : Int)) (nodes ++ [(k : Int)]) (cp.set k (-1)) DD
        (by rw [List.length_set]; exact h1)
        ⟨extra ++ [(k : Int)], by rw [hextra, List.append_assoc]⟩
        hinv' r hr'
      refine ⟨c1, c2, c3, ?_⟩
      intro j hj
      rcases List.mem_cons.mp hj with hjk | hjK
      · subst hjk
        have hne : atI (ci.set j (nodes.length : Int)) j ≠ -1 := by
          have hset : atI (ci.set j (nodes.length : Int)) j = (nodes.length : Int) := by
            unfold atI
            exact list_getD_set_self _ _ _ _ (by omega)
          rw [hset]
          omega
        have := fullLoop_preserved K
          (ci.set j (nodes.length : Int), nodes ++ [(j : Int)], cp.set j (-1),
            (nodes ++ [(j : Int)]).length) j hne
        have hl : (nodes ++ [(j : Int)]).length = nodes.length + 1 := by
          simp [List.length_append]
        rw [hl, hr] at this
        exact this
      · exact c4 j hjK

/-- Same as `revert_conclusions`, for the full-commit branch where the
committed nodes contain the path's block in the middle. -/
theorem revert_conclusions3 (R : PathState) (p : Nat) (CN cc REST : List Int)
    (hRcn : R.committed_nodes = CN ++ cc ++ REST)
    (hRcp : R.changed_paths = [(p : Int)])
    (hplen : p < R.paths.length)
    (hRchains : R.chains.getD p ⟨-1, -1⟩ =
      ⟨(CN.length : Int), ((CN.length + cc.length : Nat) : Int)⟩)
    (hchlen : p < R.chains.length)
    (hpnp : p < R.num_paths)
    (hidxR : ∀ j : Nat, j < R.num_nodes →
      0 ≤ atI R.committed_index j ∧
      (atI R.committed_index j).toNat < R.committed_nodes.length ∧
      atI R.committed_nodes (atI R.committed_index j).toNat = (j : Int)) :
    (PathState.Revert R).Nodes p = cc ∧
    PSIndexInv (PathState.Revert R) ∧
    (PathState.Revert R).changed_paths = [] ∧
    (PathState.Revert R).changed_loops = [] := by
  have hpaths : (PathState.Revert R).paths.getD p ⟨-1, -1⟩ =
      ⟨(p : Int), (p : Int) + 1⟩ := by
    show (R.changed_paths.foldl (fun ps path => ps.set path.toNat ⟨path, path + 1⟩)
      R.paths).getD p ⟨-1, -1⟩ = _
    rw [hRcp, List.foldl_cons, List.foldl_nil]
    have htn : (((p : Nat) : Int)).toNat = p := rfl
    rw [htn]
    exact list_getD_set_self _ _ _ _ hplen
  have hchains : (PathState.Revert R).chains.getD p ⟨-1, -1⟩ =
      ⟨(CN.length : Int), ((CN.length + cc.length : Nat) : Int)⟩ := by
    show (R.chains.take (R.num_paths + 1)).getD p ⟨-1, -1⟩ = _
    rw [list_getD_take _ _ _ _ (by omega)]
    exact hRchains
  have hchlen2 : p < (PathState.Revert R).chains.length := by
    show p < (R.chains.take (R.num_paths + 1)).length
    rw [List.length_take]
    omega
  refine ⟨?_, ?_, rfl, rfl⟩
  · simp only [PathState.Nodes, PathState.Chains]
    rw [hpaths]
    have ht1 : (((p : Int)) + 1).toNat = p + 1 := by omega
    have ht2 : (((p : Nat) : Int)).toNat = p := rfl
    rw [ht1, ht2, list_take_drop_singleton _ _ ⟨-1, -1⟩ hchlen2, hchains]
    simp only [List.foldr_cons, List.foldr_nil, List.append_nil]
    have hcn2 : (PathState.Revert R).committed_nodes = CN ++ cc ++ REST := hRcn
    rw [hcn2]
    exact intSlice_middle CN cc REST
  · intro j hj
    have hj' : j < R.num_nodes := hj
    obtain ⟨a1, a2, a3⟩ := hidxR j hj'
    have hci : (PathState.Revert R).committed_index = R.committed_index := rfl
    have hcn2 : (PathState.Revert R).committed_nodes = R.committed_nodes := rfl
    rw [hci, hcn2]
    exact ⟨a1, a2, a3⟩

/-- Decomposition of `PathState.FullCommit`: the state after the path-copy
loop. -/
def fcCopied (u : PathState) : PathState :=
  (List.range u.num_paths).foldl (fun st (path : Nat) =>
    { st.CopyNewPathAtEndOfNodes (path : Int) with
      chains := (st.CopyNewPathAtEndOfNodes (path : Int)).chains.set path
        ⟨((st.committed_nodes.length - u.committed_nodes.length : Nat) : Int),
         (((st.CopyNewPathAtEndOfNodes (path : Int)).committed_nodes.length
           - u.committed_nodes.length : Nat) : Int)⟩ }) u

/-- Decomposition of `PathState.FullCommit`: the copied nodes. -/
def fcNodes1 (u : PathState) : List Int :=
  (fcCopied u).committed_nodes.drop u.committed_nodes.length

/-- Decomposition of `PathState.FullCommit`: the first re-index pass. -/
def fcCi1 (u : PathState) : List Int × Nat :=
  (fcNodes1 u).foldl
    (fun (st : List Int × Nat) node => (st.1.set node.toNat (st.2 : Int), st.2 + 1))
    (List.replicate u.num_nodes (-1 : Int), (0 : Nat))

/-- Decomposition of `PathState.FullCommit`: the loop re-index pass. -/
def fcFin (u : PathState) : List Int × List Int × List Int × Nat :=
  (List.range u.num_nodes).foldl
    (fun (st : List Int × List Int × List Int × Nat) node =>
      if atI st.1 node ≠ -1 then st
      else (st.1.set node (st.2.2.2 : Int), st.2.1 ++ [(node : Int)],
            st.2.2.1.set node (-1), st.2.2.2 + 1))
    ((fcCi1 u).1, fcNodes1 u, (fcCopied u).committed_paths, (fcCi1 u).2)

theorem fullCommit_decomp (u : PathState) :
    u.FullCommit = PathState.Revert
      { fcCopied u with
        committed_nodes := (fcFin u).2.1,
        committed_index := (fcFin u).1,
        committed_paths := (fcFin u).2.2.1 } := rfl

/-- Characterisation of `FullCommit` on a state with exactly one changed
path. -/
theorem fullCommit_amended_general (u : PathState) (p cb0 : Nat) (L : List ChainBounds)
    (hcp : u.changed_paths = [(p : Int)])
    (hplen : p < u.paths.length)
    (hpnp : p < u.num_paths)
    (hpb : u.paths.getD p ⟨-1, -1⟩ = ⟨(cb0 : Int), ((cb0 + L.length : Nat) : Int)⟩)
    (hch : (u.chains.take (cb0 + L.length)).drop cb0 = L)
    (hLv : ∀ cb ∈ L, cb.end_index.toNat ≤ u.committed_nodes.length)
    (hcb0 : u.num_paths ≤ cb0)
    (hculen : cb0 + L.length ≤ u.chains.length)
    (hq_paths : ∀ q : Nat, q < u.num_paths → q ≠ p →
      u.paths.getD q ⟨-1, -1⟩ = ⟨(q : Int), (q : Int) + 1⟩)
    (hq_bounds : ∀ q : Nat, q < u.num_paths → q ≠ p →
      (u.chains.getD q ⟨-1, -1⟩).end_index.toNat ≤ u.committed_nodes.length)
    (hcn : ∀ x ∈ u.committed_nodes, 0 ≤ x ∧ x.toNat < u.num_nodes) :
    u.FullCommit.num_nodes = u.num_nodes ∧
    u.FullCommit.Nodes p = chainsConcat u.committed_nodes L ∧
    PSIndexInv u.FullCommit ∧
    u.FullCommit.changed_paths = [] ∧
    u.FullCommit.changed_loops = [] := by
  have hInv0 : FCInv u p L 0 u :=
    ⟨(List.append_nil _).symm, rfl, fun j _ => rfl,
     fun j hj => absurd hj (Nat.not_lt_zero j), rfl, rfl, rfl, rfl⟩
  have hcopied : FCInv u p L u.num_paths (fcCopied u) := by
    have h := fcFold_inv u p cb0 L hpb hch hLv hcb0 hculen hq_paths hq_bounds
      u.num_paths 0 u (by omega) hInv0
    rw [Nat.zero_add] at h
    rw [show List.range' 0 u.num_paths = List.range u.num_paths from
      (List.range_eq_range' _).symm] at h
    exact h
  obtain ⟨k1, k2, k3, k4, k5, k6, k7, k8⟩ := hcopied
  have hnodes1 : fcNodes1 u = dkOfPath u p L u.num_paths := by
    unfold fcNodes1
    rw [k1, List.drop_left]
  have hDDmem : ∀ x ∈ fcNodes1 u, 0 ≤ x ∧ x.toNat < u.num_nodes := by
    intro x hx
    rw [hnodes1] at hx
    exact hcn x (mem_dkOfPath u p L _ x hx)
  have hinit : ∀ j : Nat, j < u.num_nodes →
      atI (List.replicate u.num_nodes (-1 : Int)) j = -1 ∨
      (0 ≤ atI (List.replicate u.num_nodes (-1 : Int)) j ∧
        (atI (List.replicate u.num_nodes (-1 : Int)) j).toNat < ([] : List Int).length ∧
        atI ([] : List Int)
          (atI (List.replicate u.num_nodes (-1 : Int)) j).toNat = (j : Int)) := by
    intro j hj
    refine Or.inl ?_
    unfold atI
    exact list_getD_replicate _ _ _ _ hj
  obtain ⟨d1, d2, d3⟩ := fullReindex1_inv u.num_nodes (fcNodes1 u)
    (List.replicate u.num_nodes (-1 : Int)) []
    (List.length_replicate _ _) hDDmem hinit (fcCi1 u) rfl
  have d3' : ∀ j : Nat, j < u.num_nodes → atI (fcCi1 u).1 j = -1 ∨
      (0 ≤ atI (fcCi1 u).1 j ∧ (atI (fcCi1 u).1 j).toNat < (fcNodes1 u).length ∧
        atI (fcNodes1 u) (atI (fcCi1 u).1 j).toNat = (j : Int)) := by
    intro j hj
    rcases d3 j hj with h | ⟨a1, a2, a3⟩
    · exact Or.inl h
    · refine Or.inr ⟨a1, by simpa using a2, ?_⟩
      rw [List.nil_append] at a3
      exact a3
  have hfeq : (List.range u.num_nodes).foldl
      (fun (st : List Int × List Int × List Int × Nat) node =>
        if atI st.1 node ≠ -1 then st
        else (st.1.set node (st.2.2.2 : Int), st.2.1 ++ [(node : Int)],
              st.2.2.1.set node (-1), st.2.2.2 + 1))
      ((fcCi1 u).1, fcNodes1 u, (fcCopied u).committed_paths, (fcNodes1 u).length)
      = fcFin u := by
    have hlen2 : (fcCi1 u).2 = (fcNodes1 u).length := by
      rw [d2]
      simp
    rw [← hlen2]
    rfl
  obtain ⟨e1, e2, e3, e4⟩ := fullLoop_fold_inv u.num_nodes (List.range u.num_nodes)
    (fun x hx => List.mem_range.mp hx)
    (fcCi1 u).1 (fcNodes1 u) ((fcCopied u).committed_paths) (fcNodes1 u)
    d1 ⟨[], (List.append_nil _).symm⟩ d3' (fcFin u) hfeq
  have hocc : ∀ j : Nat, j < u.num_nodes →
      0 ≤ atI (fcFin u).1 j ∧ (atI (fcFin u).1 j).toNat < (fcFin u).2.1.length ∧
      atI (fcFin u).2.1 (atI (fcFin u).1 j).toNat = (j : Int) := by
    intro j hj
    rcases e3 j hj with h | hOcc
    · exact absurd h (e4 j (List.mem_range.mpr hj))
    · exact hOcc
  obtain ⟨rest, hrest⟩ := dkOfPath_mono u p L (p + 1) u.num_paths (by omega)
  have hccp : ccOfPath u p L p = chainsConcat u.committed_nodes L := by
    unfold ccOfPath
    rw [if_pos rfl]
  have hDD : dkOfPath u p L u.num_paths =
      dkOfPath u p L p ++ chainsConcat u.committed_nodes L ++ rest := by
    rw [hrest]
    show dkOfPath u p L p ++ ccOfPath u p L p ++ rest = _
    rw [hccp]
  obtain ⟨extra, hextra⟩ := e2
  have hlenp1 : (dkOfPath u p L (p + 1)).length =
      (dkOfPath u p L p).length + (chainsConcat u.committed_nodes L).length := by
    show (dkOfPath u p L p ++ ccOfPath u p L p).length = _
    rw [hccp, List.length_append]
  have hconc := revert_conclusions3
    { fcCopied u with
      committed_nodes := (fcFin u).2.1,
      committed_index := (fcFin u).1,
      committed_paths := (fcFin u).2.2.1 } p
    (dkOfPath u p L p) (chainsConcat u.committed_nodes L) (rest ++ extra)
    (by
      show (fcFin u).2.1 = _
      rw [hextra, hnodes1, hDD, List.append_assoc
        (dkOfPath u p L p ++ chainsConcat u.committed_nodes L) rest extra])
    (k6.trans hcp)
    (by
      show p < (fcCopied u).paths.length
      rw [k5]
      exact hplen)
    (by
      show (fcCopied u).chains.getD p ⟨-1, -1⟩ = _
      rw [k4 p hpnp, hlenp1])
    (by
      show p < (fcCopied u).chains.length
      rw [k2]
      omega)
    (by
      show p < (fcCopied u).num_paths
      rw [k7]
      exact hpnp)
    (by
      intro j hj
      have hj' : j < u.num_nodes := by
        have hnum : ({ fcCopied u with
          committed_nodes := (fcFin u).2.1,
          committed_index := (fcFin u).1,
          committed_paths := (fcFin u).2.2.1 } : PathState).num_nodes
            = u.num_nodes := k8
        rw [hnum] at hj
        exact hj
      exact hocc j hj')
  rw [fullCommit_decomp u]
  exact ⟨k8, hconc⟩

/-- **C4 (amended)**: for a committed, well-formed `PathState`, after
`ChangePath(p, L)` followed by `Commit()` — on both branches of `Commit`,
incremental and full — the query `Nodes(p)` enumerates exactly the
concatenation of the node slices described by `L`, `committed_index` maps
every node to an occurrence of that node in `committed_nodes` and is
therefore injective on nodes, and both change lists end up cleared.  The
original claim's stronger statement, that `committed_index` is a bijection
onto `[0, |committed_nodes|)`, is false on the incremental branch (see the
counterexample): stale copies stay in the prefix of `committed_nodes`. -/
theorem pathState_commit_amended (s : PathState) (p : Nat) (L : List ChainBounds)
    (hcom : PSCommitted s) (hwf : PSWellFormed s) (hp : p < s.num_paths)
    (hL : ∀ cb ∈ L, 0 ≤ cb.begin_index ∧ cb.begin_index ≤ cb.end_index ∧
      cb.end_index ≤ (s.committed_nodes.length : Int)) :
    ((s.ChangePath p L).Commit).Nodes p = chainsConcat s.committed_nodes L ∧
    PSIndexInv ((s.ChangePath p L).Commit) ∧
    ((s.ChangePath p L).Commit).num_nodes = s.num_nodes ∧
    (∀ a b : Nat, a < s.num_nodes → b < s.num_nodes →
      ((s.ChangePath p L).Commit).CommittedIndex (a : Int)
        = ((s.ChangePath p L).Commit).CommittedIndex (b : Int) → a = b) ∧
    ((s.ChangePath p L).Commit).changed_paths = [] ∧
    ((s.ChangePath p L).Commit).changed_loops = [] := by
  obtain ⟨hc1, hc2, hc3, hc4, hc5, hc6⟩ := hcom
  obtain ⟨hw1, hw2, hw3, hw4⟩ := hwf
  have hcp : (s.ChangePath p L).changed_paths = [(p : Int)] := by
    show s.changed_paths ++ [(p : Int)] = [(p : Int)]
    rw [hc4, List.nil_append]
  have hcl : (s.ChangePath p L).changed_loops = [] := hc5
  have hsplen : p < s.paths.length := by
    rw [hc2]
    exact hp
  have hplen : p < (s.ChangePath p L).paths.length := by
    show p < (s.paths.set p _).length
    rw [List.length_set]
    exact hsplen
  have hchlen : p < (s.ChangePath p L).chains.length := by
    show p < ((s.chains ++ L) ++ [ChainBounds.mk 0 0]).length
    simp only [List.length_append]
    omega
  have hpnp : p < (s.ChangePath p L).num_paths := hp
  have hpb : (s.ChangePath p L).paths.getD p ⟨-1, -1⟩ =
      ⟨(s.chains.length : Int), ((s.chains.length + L.length : Nat) : Int)⟩ := by
    show (s.paths.set p ⟨(s.chains.length : Int), ((s.chains ++ L).length : Int)⟩).getD
      p ⟨-1, -1⟩ = _
    rw [list_getD_set_self _ _ _ _ hsplen, List.length_append]
  have hch : (((s.ChangePath p L).chains.take (s.chains.length + L.length)).drop
      s.chains.length) = L := by
    show (((s.chains ++ L) ++ [ChainBounds.mk 0 0]).take
      (s.chains.length + L.length)).drop s.chains.length = L
    rw [← List.length_append s.chains L,
      list_take_append_left _ _ _ (le_refl _), List.take_length, List.drop_left]
  have hLv : ∀ cb ∈ L,
      cb.end_index.toNat ≤ (s.ChangePath p L).committed_nodes.length := by
    intro cb hcb
    obtain ⟨hb1, hb2, hb3⟩ := hL cb hcb
    show cb.end_index.toNat ≤ s.committed_nodes.length
    omega
  have hcilen : (s.ChangePath p L).committed_index.length =
      (s.ChangePath p L).num_nodes := hw1
  have hcn' : ∀ x ∈ (s.ChangePath p L).committed_nodes,
      0 ≤ x ∧ x.toNat < (s.ChangePath p L).num_nodes := hw2
  have hidx : PSIndexInv (s.ChangePath p L) := hw4
  have hmain : ∀ t : PathState,
      t.Nodes p = chainsConcat s.committed_nodes L →
      PSIndexInv t →
      t.changed_paths = [] →
      t.changed_loops = [] →
      t.num_nodes = s.num_nodes →
      (t.Nodes p = chainsConcat s.committed_nodes L ∧
       PSIndexInv t ∧
       t.num_nodes = s.num_nodes ∧
       (∀ a b : Nat, a < s.num_nodes → b < s.num_nodes →
         t.CommittedIndex (a : Int) = t.CommittedIndex (b : Int) → a = b) ∧
       t.changed_paths = [] ∧ t.changed_loops = []) := by
    intro t x1 x2 x3 x4 x5
    refine ⟨x1, x2, x5, ?_, x3, x4⟩
    intro a b ha hb hab
    obtain ⟨a1, a2, a3⟩ := x2 a (by rw [x5]; exact ha)
    obtain ⟨c1, c2, c3⟩ := x2 b (by rw [x5]; exact hb)
    have hab' : atI t.committed_index a = atI t.committed_index b := hab
    have hcast : (a : Int) = (b : Int) := by
      rw [← a3, ← c3, hab']
    omega
  have hcommit : (s.ChangePath p L).Commit =
      (if (s.ChangePath p L).committed_nodes.length
        < (s.ChangePath p L).num_nodes_threshold
       then (s.ChangePath p L).IncrementalCommit
       else (s.ChangePath p L).FullCommit) := rfl
  rw [hcommit]
  by_cases hbr : (s.ChangePath p L).committed_nodes.length
      < (s.ChangePath p L).num_nodes_threshold
  · rw [if_pos hbr]
    obtain ⟨b0, b1, b2, b3, b4, b5⟩ := incCommit_amended_general
      (s.ChangePath p L) p s.chains.length L hcp hcl hplen hchlen hpnp hpb hch hLv
      hcilen hcn' hidx
    exact hmain _ b2 b3 b4 b5 b0
  · rw [if_neg hbr]
    have hcb0 : (s.ChangePath p L).num_paths ≤ s.chains.length := by
      show s.num_paths ≤ s.chains.length
      omega
    have hculen : s.chains.length + L.length ≤ (s.ChangePath p L).chains.length := by
      show _ ≤ ((s.chains ++ L) ++ [ChainBounds.mk 0 0]).length
      simp only [List.length_append]
      omega
    have hq_paths : ∀ q : Nat, q < (s.ChangePath p L).num_paths → q ≠ p →
        (s.ChangePath p L).paths.getD q ⟨-1, -1⟩ = ⟨(q : Int), (q : Int) + 1⟩ := by
      intro q hq hqp
      show (s.paths.set p _).getD q ⟨-1, -1⟩ = _
      rw [list_getD_set_ne _ _ _ _ _ (fun hh => hqp hh.symm)]
      exact hc3 q hq
    have hq_bounds : ∀ q : Nat, q < (s.ChangePath p L).num_paths → q ≠ p →
        ((s.ChangePath p L).chains.getD q ⟨-1, -1⟩).end_index.toNat ≤
          (s.ChangePath p L).committed_nodes.length := by
      intro q hq hqp
      have hq' : q < s.num_paths := hq
      have hqs : q < s.chains.length := by omega
      have heq : ((s.chains ++ L) ++ [ChainBounds.mk 0 0]).getD q ⟨-1, -1⟩ =
          s.chains.getD q ⟨-1, -1⟩ := by
        rw [list_getD_append_left _ _ _ _ (by rw [List.length_append]; omega),
          list_getD_append_left _ _ _ _ hqs]
      show (((s.chains ++ L) ++ [ChainBounds.mk 0 0]).getD q ⟨-1, -1⟩).end_index.toNat ≤
        s.committed_nodes.length
      rw [heq]
      obtain ⟨hb1, hb2, hb3⟩ := hw3 q hq'
      omega
    obtain ⟨b0, b1, b2, b3, b4⟩ := fullCommit_amended_general
      (s.ChangePath p L) p s.chains.length L hcp hplen hpnp hpb hch hLv hcb0 hculen
      hq_paths hq_bounds hcn'
    exact hmain _ b1 b2 b3 b4 b0

/-- **C4 counterexample**: with four nodes and one path `0 → 1`, after
`ChangePath(0, [(0,1), (2,3), (1,2)]); Commit()` (incremental branch), the
committed node vector has length 7 while only 4 nodes exist, and no node's
committed index equals 0: `committed_index` is not a bijection onto
`[0, |committed_nodes|)` as the specification claims — the stale copies of
the nodes stay in the prefix of `committed_nodes`.  The per-path node
query is nevertheless correct (`Nodes 0 = [0, 2, 1]`). -/
theorem pathState_commit_not_bijective :
    ((((mkPathState 4 [0] [1]).ChangePath 0
        [⟨0, 1⟩, ⟨2, 3⟩, ⟨1, 2⟩]).Commit).committed_nodes.length = 7) ∧
    ((((mkPathState 4 [0] [1]).ChangePath 0
        [⟨0, 1⟩, ⟨2, 3⟩, ⟨1, 2⟩]).Commit).Nodes 0 = [0, 2, 1]) ∧
    ((List.range 4).all (fun node =>
      !((((mkPathState 4 [0] [1]).ChangePath 0
        [⟨0, 1⟩, ⟨2, 3⟩, ⟨1, 2⟩]).Commit).CommittedIndex (node : Int) == 0))) = true := by
  decide

def c4L : List ChainBounds := [⟨0, 1⟩, ⟨2, 3⟩, ⟨1, 2⟩]

def c4Base : PathState := mkPathState 4 [0] [1]

/-- Four change-commit cycles grow `committed_nodes_` from 4 to 16 entries,
reaching the `max 16 (4 * num_nodes)` threshold, so the next `Commit`
takes the full branch. -/
def c4Grown : PathState :=
  ((((((c4Base.ChangePath 0 c4L).Commit).ChangePath 0 c4L).Commit).ChangePath 0
    c4L).Commit).ChangePath 0 c4L |>.Commit

/-- Witness for `pathState_commit_amended`: one instance on the
incremental branch (fresh state, 4 committed nodes, below the threshold
16) and one on the full branch (grown state with 16 committed nodes). -/
theorem pathState_commit_amended_witness :
    (PSCommitted c4Base ∧ PSWellFormed c4Base ∧
      (c4Base.ChangePath 0 c4L).committed_nodes.length <
        (c4Base.ChangePath 0 c4L).num_nodes_threshold ∧
      ((c4Base.ChangePath 0 c4L).Commit).Nodes 0
        = chainsConcat c4Base.committed_nodes c4L) ∧
    (PSCommitted c4Grown ∧ PSWellFormed c4Grown ∧
      ¬ (c4Grown.ChangePath 0 c4L).committed_nodes.length <
        (c4Grown.ChangePath 0 c4L).num_nodes_threshold ∧
      ((c4Grown.ChangePath 0 c4L).Commit).Nodes 0
        = chainsConcat c4Grown.committed_nodes c4L) := by
  refine ⟨⟨by decide, by decide, by decide, ?_⟩, ⟨by decide, by decide, by decide, ?_⟩⟩
  · exact (pathState_commit_amended c4Base 0 c4L (by decide) (by decide) (by decide)
      (by decide)).1
  · exact (pathState_commit_amended c4Grown 0 c4L (by decide) (by decide) (by decide)
      (by decide)).1

/-! ### DimensionChecker (`src/unnamed/part_000`, lines 3964-4243) -/

/-- `DimensionChecker::Interval`. -/
structure Interval where
  min : Int
  max : Int
deriving DecidableEq, Repr

/-- `DimensionChecker::ExtendedInterval`. -/
structure EInterval where
  min : Int
  max : Int
  num_negative_infinity : Int
  num_positive_infinity : Int
deriving DecidableEq, Repr

/-- `operator&` on extended intervals (lines 3970-3978). -/
def einter (i1 i2 : EInterval) : EInterval :=
  { min := max (if i1.num_negative_infinity = 0 then i1.min else kint64min)
               (if i2.num_negative_infinity = 0 then i2.min else kint64min)
    max := min (if i1.num_positive_infinity = 0 then i1.max else kint64max)
               (if i2.num_positive_infinity = 0 then i2.max else kint64max)
    num_negative_infinity := min i1.num_negative_infinity i2.num_negative_infinity
    num_positive_infinity := min i1.num_positive_infinity i2.num_positive_infinity }

/-- `IsEmpty` (lines 3984-3990). -/
def eIsEmpty (i : EInterval) : Bool :=
  decide ((if i.num_negative_infinity = 0 then i.min else kint64min) >
          (if i.num_positive_infinity = 0 then i.max else kint64max))

/-- `operator+` (lines 3992-3997). -/
def eadd (i1 i2 : EInterval) : EInterval :=
  { min := CapAdd i1.min i2.min
    max := CapAdd i1.max i2.max
    num_negative_infinity := i1.num_negative_infinity + i2.num_negative_infinity
    num_positive_infinity := i1.num_positive_infinity + i2.num_positive_infinity }

/-- `operator-` (lines 4003-4008). -/
def esub (i1 i2 : EInterval) : EInterval :=
  { min := CapSub i1.min i2.max
    max := CapSub i1.max i2.min
    num_negative_infinity := i1.num_negative_infinity + i2.num_positive_infinity
    num_positive_infinity := i1.num_positive_infinity + i2.num_negative_infinity }

/-- `Delta(from, to)` (lines 4010-4016): the interval `delta` such that
`from + delta = to`. -/
def eDelta (frm tgt : EInterval) : EInterval :=
  { min := CapSub tgt.min frm.min
    max := CapSub tgt.max frm.max
    num_negative_infinity := tgt.num_negative_infinity - frm.num_negative_infinity
    num_positive_infinity := tgt.num_positive_infinity - frm.num_positive_infinity }

/-- `ToExtendedInterval` (lines 4018-4024). -/
def ToExtendedInterval (interval : Interval) : EInterval :=
  let is_neg_infinity := interval.min = kint64min
  let is_pos_infinity := interval.max = kint64max
  { min := if is_neg_infinity then 0 else interval.min
    max := if is_pos_infinity then 0 else interval.max
    num_negative_infinity := if is_neg_infinity then 1 else 0
    num_positive_infinity := if is_pos_infinity then 1 else 0 }

/-- `DimensionChecker::RIQNode`. -/
structure RIQNode where
  cumuls_to_fst : EInterval
  tightest_tsum : EInterval
  cumuls_to_lst : EInterval
  tsum_at_fst : EInterval
  tsum_at_lst : EInterval
deriving DecidableEq, Repr

/-- A value-initialised `RIQNode` (produced by `vector::resize`). -/
def defaultRIQ : RIQNode := ⟨⟨0, 0, 0, 0⟩, ⟨0, 0, 0, 0⟩, ⟨0, 0, 0, 0⟩,
  ⟨0, 0, 0, 0⟩, ⟨0, 0, 0, 0⟩⟩

/-- Fuel-based binary logarithm; the fuel only needs to exceed the
recursion depth `log2 n`, so `fuel = n` always suffices. -/
def msbPosGo : Nat → Nat → Nat
  | 0, _ => 0
  | fuel + 1, n => if n ≥ 2 then msbPosGo fuel (n / 2) + 1 else 0

/-- `MostSignificantBitPosition32(n)`: position of the most significant
set bit (0 for 0), i.e. the floor binary logarithm. -/
def msbPos (n : Nat) : Nat := msbPosGo n n

/-- The state of `DimensionChecker` (fields of the class, constructor
lines 4038-4060). -/
structure DimensionChecker where
  path_capacity : List EInterval
  path_class : List Int
  demand_per_path_class : List (Int → Int → Interval)
  node_capacity : List EInterval
  index : List Int
  maximum_riq_layer_size : Nat
  min_range_size_for_riq : Int
  cached_demand : List EInterval
  riq : List (List RIQNode)

/-- Fold state of `AppendPathDemandsToSums`. -/
structure APDState where
  demand_sum : EInterval
  prev : Int
  index : Nat
  cached_demand : List EInterval
  indexv : List Int
  riq0 : List RIQNode

/-- `AppendPathDemandsToSums(path)` (lines 4156-4182). -/
def appendPathDemandsToSums (dc : DimensionChecker) (ps : PathState) (path : Nat) :
    DimensionChecker :=
  let path_class := dc.path_class.getD path (-1)
  let st0 : APDState := ⟨⟨0, 0, 0, 0⟩, ps.Start path, (dc.riq.getD 0 []).length,
    dc.cached_demand, dc.index, dc.riq.getD 0 []⟩
  let st := (ps.Nodes path).foldl (fun st node =>
    let demand : EInterval :=
      if st.prev = node then ⟨0, 0, 0, 0⟩
      else ToExtendedInterval
        ((dc.demand_per_path_class.getD path_class.toNat (fun _ _ => ⟨0, 0⟩))
          st.prev node)
    let demand_sum := eadd st.demand_sum demand
    { demand_sum := demand_sum
      prev := node
      index := st.index + 1
      cached_demand := st.cached_demand.set st.prev.toNat demand
      indexv := st.indexv.set node.toNat (st.index : Int)
      riq0 := st.riq0 ++ [⟨dc.node_capacity.getD node.toNat ⟨0, 0, 0, 0⟩, demand_sum,
        dc.node_capacity.getD node.toNat ⟨0, 0, 0, 0⟩, demand_sum, demand_sum⟩] }) st0
  { dc with
    cached_demand := st.cached_demand.set (ps.End path).toNat ⟨0, 0, 0, 0⟩
    index := st.indexv
    riq := dc.riq.set 0 st.riq0 }

/-- One combined node of `UpdateRIQStructure` (lines 4195-4209), from the
F half-window and the L half-window of the layer below. -/
def riqCombine (fw lw : RIQNode) : RIQNode :=
  let lst_to_lst := eDelta fw.tsum_at_lst lw.tsum_at_lst
  let fst_to_fst := eDelta fw.tsum_at_fst lw.tsum_at_fst
  { cumuls_to_fst := einter fw.cumuls_to_fst (esub lw.cumuls_to_fst fst_to_fst)
    tightest_tsum := einter fw.tightest_tsum lw.tightest_tsum
    cumuls_to_lst := einter (eadd fw.cumuls_to_lst lst_to_lst) lw.cumuls_to_lst
    tsum_at_fst := fw.tsum_at_fst
    tsum_at_lst := lw.tsum_at_lst }

/-- `UpdateRIQStructure(begin_index, end_index)` (lines 4184-4211). -/
def updateRIQStructure (riq : List (List RIQNode)) (begin_index end_index : Nat) :
    List (List RIQNode) :=
  let max_layer := msbPos (end_index - begin_index - 1)
  (List.range' 1 max_layer).foldl (fun riq layer =>
    let half_window := 2 ^ (layer - 1)
    let below := riq.getD (layer - 1) []
    let cur := riq.getD layer []
    let resized := cur.take end_index ++
      List.replicate (end_index - cur.length) defaultRIQ
    let updated := (List.range' (begin_index + 2 * half_window - 1)
        (end_index - (begin_index + 2 * half_window - 1))).foldl
      (fun lay i => lay.set i (riqCombine (below.getD (i - half_window) defaultRIQ)
        (below.getD i defaultRIQ))) resized
    riq.set layer updated) riq

/-- `DimensionChecker::IncrementalCommit()` (lines 4136-4142). -/
def dcIncrementalCommit (dc : DimensionChecker) (ps : PathState) : DimensionChecker :=
  ps.changed_paths.foldl (fun dc path =>
    let begin_index := (dc.riq.getD 0 []).length
    let dc2 := appendPathDemandsToSums dc ps path.toNat
    let end_index := (dc2.riq.getD 0 []).length
    { dc2 with riq := updateRIQStructure dc2.riq begin_index end_index }) dc

/-- `DimensionChecker::FullCommit()` (lines 4144-4154). -/
def dcFullCommit (dc : DimensionChecker) (ps : PathState) : DimensionChecker :=
  let dc0 := { dc with riq := dc.riq.map (fun _ => ([] : List RIQNode)) }
  (List.range ps.num_paths).foldl (fun dc path =>
    let begin_index := (dc.riq.getD 0 []).length
    let dc2 := appendPathDemandsToSums dc ps path
    let end_index := (dc2.riq.getD 0 []).length
    { dc2 with riq := updateRIQStructure dc2.riq begin_index end_index }) dc0

/-- `DimensionChecker::Commit()` (lines 4121-4134). -/
def dcCommit (dc : DimensionChecker) (ps : PathState) : DimensionChecker :=
  let current_layer_size := (dc.riq.getD 0 []).length
  let change_size := ps.changed_paths.foldl (fun acc path =>
    (ps.Chains path.toNat).foldl (fun acc chain =>
      acc + (chain.end_index - chain.begin_index).toNat) acc)
    ps.changed_paths.length
  if current_layer_size + change_size ≤ dc.maximum_riq_layer_size then
    dcIncrementalCommit dc ps
  else dcFullCommit dc ps

/-- The constructor `DimensionChecker::DimensionChecker` (lines 4038-4060):
sets up the vectors and runs `FullCommit()`. -/
def mkDimensionChecker (ps : PathState) (path_capacity : List Interval)
    (path_class : List Int) (demand_per_path_class : List (Int → Int → Interval))
    (node_capacity : List Interval) (min_range_size_for_riq : Int) :
    DimensionChecker :=
  let dc : DimensionChecker := {
    path_capacity := path_capacity.map ToExtendedInterval
    path_class := path_class
    demand_per_path_class := demand_per_path_class
    node_capacity := node_capacity.map ToExtendedInterval
    index := List.replicate ps.num_nodes 0
    maximum_riq_layer_size := max 16 (4 * ps.num_nodes)
    min_range_size_for_riq := min_range_size_for_riq
    cached_demand := List.replicate ps.num_nodes ⟨0, 0, 0, 0⟩
    riq := List.replicate (msbPos ps.num_nodes + 1) [] }
  dcFullCommit dc ps

/-- `UpdateCumulUsingChainRIQ(first_index, last_index, path_capacity,
cumul)` (lines 4213-4243), returning the updated cumul. -/
def updateCumulUsingChainRIQ (riq : List (List RIQNode)) (first_index last_index : Nat)
    (path_capacity cumul : EInterval) : EInterval :=
  let layer := msbPos (last_index - first_index)
  let window := 2 ^ layer
  let fw := (riq.getD layer []).getD (first_index + window - 1) defaultRIQ
  let lw := (riq.getD layer []).getD last_index defaultRIQ
  let cumul := einter cumul fw.cumuls_to_fst
  let cumul := einter cumul (esub lw.cumuls_to_fst (eDelta fw.tsum_at_fst lw.tsum_at_fst))
  let cumul := einter cumul (esub path_capacity
    (eDelta fw.tsum_at_fst (einter fw.tightest_tsum lw.tightest_tsum)))
  if eIsEmpty cumul then cumul
  else
    let cumul := eadd cumul (eDelta fw.tsum_at_fst lw.tsum_at_lst)
    let cumul := einter cumul
      (eadd fw.cumuls_to_lst (eDelta fw.tsum_at_lst lw.tsum_at_lst))
    einter cumul lw.cumuls_to_lst

/-- The node-by-node walk of `Check`'s else branch (lines 4101-4113),
over the nodes of a chain without its first node; `none` when the cumul
set becomes empty. -/
def dcWalkNodes (dc : DimensionChecker) (path_class : Int) (chain_is_cached : Bool)
    (path_capacity : EInterval) :
    List Int → Int → EInterval → Option (Int × EInterval)
  | [], prev_node, cumul => some (prev_node, cumul)
  | node :: rest, prev_node, cumul =>
    let demand : EInterval :=
      if chain_is_cached then dc.cached_demand.getD prev_node.toNat ⟨0, 0, 0, 0⟩
      else ToExtendedInterval
        ((dc.demand_per_path_class.getD path_class.toNat (fun _ _ => ⟨0, 0⟩))
          prev_node node)
    let cumul := eadd cumul demand
    let cumul := einter cumul (dc.node_capacity.getD node.toNat ⟨0, 0, 0, 0⟩)
    let cumul := einter cumul path_capacity
    if eIsEmpty cumul then none
    else dcWalkNodes dc path_class chain_is_cached path_capacity rest node cumul

/-- The chain loop of `Check` (lines 4073-4117). -/
def dcCheckChains (dc : DimensionChecker) (ps : PathState) (path_class : Int)
    (path_capacity : EInterval) :
    List ChainBounds → Int → EInterval → Bool
  | [], _, _ => true
  | cb :: rest, prev_node, cumul =>
    let first_node := atI ps.committed_nodes cb.begin_index.toNat
    let last_node := atI ps.committed_nodes (cb.end_index - 1).toNat
    let step1 : Option (Int × EInterval) :=
      if prev_node ≠ first_node then
        let demand := ToExtendedInterval
          ((dc.demand_per_path_class.getD path_class.toNat (fun _ _ => ⟨0, 0⟩))
            prev_node first_node)
        let cumul := eadd cumul demand
        let cumul := einter cumul path_capacity
        let cumul := einter cumul (dc.node_capacity.getD first_node.toNat ⟨0, 0, 0, 0⟩)
        if eIsEmpty cumul then none else some (first_node, cumul)
      else some (prev_node, cumul)
    match step1 with
    | none => false
    | some (prev_node, cumul) =>
      let first_index := (dc.index.getD first_node.toNat 0).toNat
      let last_index := (dc.index.getD last_node.toNat 0).toNat
      let chain_path := ps.Path first_node
      let chain_path_class : Int :=
        if chain_path = -1 then -1 else dc.path_class.getD chain_path.toNat (-1)
      let chain_is_cached : Bool := chain_path_class == path_class
      if decide ((last_index : Int) - (first_index : Int) > dc.min_range_size_for_riq)
          && chain_is_cached then
        let cumul := updateCumulUsingChainRIQ dc.riq first_index last_index
          path_capacity cumul
        if eIsEmpty cumul then false
        else dcCheckChains dc ps path_class path_capacity rest last_node cumul
      else
        match dcWalkNodes dc path_class chain_is_cached path_capacity
          (intSlice ps.committed_nodes (cb.begin_index + 1) cb.end_index)
          prev_node cumul with
        | none => false
        | some pc => dcCheckChains dc ps path_class path_capacity rest pc.1 pc.2

/-- One changed path of `Check` (lines 4064-4117). -/
def dcCheckPath (dc : DimensionChecker) (ps : PathState) (path : Nat) : Bool :=
  let path_capacity := dc.path_capacity.getD path ⟨0, 0, 0, 0⟩
  let path_class := dc.path_class.getD path (-1)
  let prev_node := ps.Start path
  let cumul := einter (dc.node_capacity.getD prev_node.toNat ⟨0, 0, 0, 0⟩) path_capacity
  if eIsEmpty cumul then false
  else dcCheckChains dc ps path_class path_capacity (ps.Chains path) prev_node cumul

/-- `DimensionChecker::Check()` (lines 4061-4120). -/
def dcCheck (dc : DimensionChecker) (ps : PathState) : Bool :=
  if ps.IsInvalid then true
  else ps.changed_paths.all (fun path => dcCheckPath dc ps path.toNat)

/-! ### Claim C6: SetInvalid stickiness and the Check guard -/

/-- **C6**: once `SetInvalid()` has been called, `IsInvalid()` stays true
across any sequence of `ChangePath`, `ChangeLoops` and `SetInvalid`
operations; only `Revert()` clears the flag; and while the flag is set,
`DimensionChecker::Check()` returns true (behaves as accept) regardless of
the checker's data and of the changed paths recorded in the state. -/
theorem pathState_invalid_sticky (s : PathState) (ops : List PSOp)
    (h : s.is_invalid = true) :
    (psApplyOps s ops).IsInvalid = true ∧
    (∀ t : PathState, (PathState.Revert t).IsInvalid = false) ∧
    (∀ dc : DimensionChecker, ∀ t : PathState, t.IsInvalid = true →
      dcCheck dc t = true) := by
  refine ⟨?_, fun t => rfl, fun dc t ht => ?_⟩
  · induction ops generalizing s with
    | nil => exact h
    | cons op ops ih =>
      show (psApplyOps (psApplyOp s op) ops).IsInvalid = true
      apply ih
      cases op with
      | changePath p L => exact h
      | changeLoops ls => exact h
      | setInvalid => rfl
  · simp [dcCheck, ht]

def c6State : PathState := (mkPathState 2 [0] [1]).SetInvalid

def c6Checker : DimensionChecker := ⟨[], [], [], [], [], 16, 0, [], []⟩

/-- Witness for `pathState_invalid_sticky`: the flag survives a path
change and a loop change, and an (empty-data) checker accepts. -/
theorem pathState_invalid_sticky_witness :
    c6State.is_invalid = true ∧
    (psApplyOps c6State [.changePath 0 [⟨0, 2⟩], .changeLoops [1]]).IsInvalid = true ∧
    dcCheck c6Checker c6State = true :=
  ⟨rfl, (pathState_invalid_sticky c6State [.changePath 0 [⟨0, 2⟩], .changeLoops [1]]
      rfl).1,
    (pathState_invalid_sticky c6State [] rfl).2.2 c6Checker c6State rfl⟩

/-! ### Claim C1: the RIQ update versus the node-by-node traversal -/

def c1Committed : PathState := mkPathState 2 [0] [1]

def c1Demand : List (Int → Int → Interval) :=
  [fun a b => if a = 0 ∧ b = 1 then ⟨-3, 5⟩ else ⟨0, 0⟩]

/-- The checker of the counterexample: one path `0 → 1` with path capacity
`[-4, 0]`, node capacities `[-7, 5]` and `[-8, -7]`, demand `[-3, 5]` on
the arc `0 → 1`, RIQ tables built by the constructor's `FullCommit`. -/
def c1Checker (r : Int) : DimensionChecker :=
  mkDimensionChecker c1Committed [⟨-4, 0⟩] [0] c1Demand [⟨-7, 5⟩, ⟨-8, -7⟩] r

/-- The change re-proposes the committed chain `[0, 2)` for path 0, so the
chain's committed path class equals the current path class and the RIQ is
eligible. -/
def c1Changed : PathState := c1Committed.ChangePath 0 [⟨0, 2⟩]

/-- **C1 counterexample**: on the same path state and the same RIQ tables,
`Check()` returns true when `min_range_size_for_riq = 0` (the one-shot RIQ
update finds the nonempty interval `[-7, -7]`) and false when
`min_range_size_for_riq = 1` (the node-by-node traversal intersects with
the path capacity `[-4, 0]` at the last node and finds the empty set).
The boolean returned by `Check()` therefore depends on
`min_range_size_for_riq`, and the one-shot RIQ update does not have the
same emptiness verdict as the node-by-node traversal: it only
over-approximates it (see `updateCumulUsingChainRIQ_supset`). -/
theorem dimensionChecker_riq_vs_naive :
    dcCheck (c1Checker 0) c1Changed = true ∧
    dcCheck (c1Checker 1) c1Changed = false := by
  constructor
  · decide
  · decide

/-! #### Finite-interval algebra

In the no-overflow regime (all magnitudes far below `2^63`, no infinity
counts), the saturating extended-interval operations are exact interval
arithmetic.  The lemmas below make the operations of `einter`, `eadd`,
`esub`, `eDelta` and `eIsEmpty` explicit under such bounds. -/

/-- No infinity counts. -/
def Fin2 (e : EInterval) : Prop :=
  e.num_negative_infinity = 0 ∧ e.num_positive_infinity = 0

/-- Endpoints bounded by `C` in magnitude. -/
def Bnd (e : EInterval) (C : Int) : Prop :=
  -C ≤ e.min ∧ e.min ≤ C ∧ -C ≤ e.max ∧ e.max ≤ C

def NB (e : EInterval) (C : Int) : Prop := Fin2 e ∧ Bnd e C

/-- Membership in a finite extended interval. -/
def EMem (z : Int) (e : EInterval) : Prop := e.min ≤ z ∧ z ≤ e.max

theorem NB_mono (e : EInterval) (C D : Int) (h : NB e C) (hCD : C ≤ D) : NB e D := by
  obtain ⟨hf, b1, b2, b3, b4⟩ := h
  exact ⟨hf, by omega, by omega, by omega, by omega⟩

theorem einter_fin (e1 e2 : EInterval) (h1 : Fin2 e1) (h2 : Fin2 e2) :
    einter e1 e2 = ⟨max e1.min e2.min, min e1.max e2.max, 0, 0⟩ := by
  obtain ⟨a1, a2⟩ := h1
  obtain ⟨b1, b2⟩ := h2
  simp [einter, a1, a2, b1, b2]

theorem einter_NB (e1 e2 : EInterval) (C D : Int) (h1 : NB e1 C) (h2 : NB e2 D) :
    einter e1 e2 = ⟨max e1.min e2.min, min e1.max e2.max, 0, 0⟩ ∧
    NB (einter e1 e2) (max C D) := by
  obtain ⟨hf1, b1, b2, b3, b4⟩ := h1
  obtain ⟨hf2, c1, c2, c3, c4⟩ := h2
  have he := einter_fin e1 e2 hf1 hf2
  refine ⟨he, ?_⟩
  rw [he]
  exact ⟨⟨rfl, rfl⟩, by simp; omega, by simp; omega, by simp; omega, by simp; omega⟩

theorem EMem_einter (z : Int) (e1 e2 : EInterval) (h1 : Fin2 e1) (h2 : Fin2 e2)
    (m1 : EMem z e1) (m2 : EMem z e2) : EMem z (einter e1 e2) := by
  rw [einter_fin e1 e2 h1 h2]
  obtain ⟨x1, x2⟩ := m1
  obtain ⟨y1, y2⟩ := m2
  exact ⟨by simp; omega, by simp; omega⟩

theorem eadd_NB (e1 e2 : EInterval) (C D : Int) (h1 : NB e1 C) (h2 : NB e2 D)
    (hCD : C + D ≤ 2 ^ 62) (hC : 0 ≤ C) (hD : 0 ≤ D) :
    eadd e1 e2 = ⟨e1.min + e2.min, e1.max + e2.max, 0, 0⟩ ∧
    NB (eadd e1 e2) (C + D) := by
  obtain ⟨⟨f1, f2⟩, b1, b2, b3, b4⟩ := h1
  obtain ⟨⟨g1, g2⟩, c1, c2, c3, c4⟩ := h2
  have hmin : CapAdd e1.min e2.min = e1.min + e2.min := by
    apply CapAdd_eq
    · unfold kint64min
      omega
    · unfold kint64max
      omega
  have hmax : CapAdd e1.max e2.max = e1.max + e2.max := by
    apply CapAdd_eq
    · unfold kint64min
      omega
    · unfold kint64max
      omega
  have he : eadd e1 e2 = ⟨e1.min + e2.min, e1.max + e2.max, 0, 0⟩ := by
    simp [eadd, hmin, hmax, f1, f2, g1, g2]
  refine ⟨he, ?_⟩
  rw [he]
  exact ⟨⟨rfl, rfl⟩, by simp; omega, by simp; omega, by simp; omega, by simp; omega⟩

theorem esub_NB (e1 e2 : EInterval) (C D : Int) (h1 : NB e1 C) (h2 : NB e2 D)
    (hCD : C + D ≤ 2 ^ 62) (hC : 0 ≤ C) (hD : 0 ≤ D) :
    esub e1 e2 = ⟨e1.min - e2.max, e1.max - e2.min, 0, 0⟩ ∧
    NB (esub e1 e2) (C + D) := by
  obtain ⟨⟨f1, f2⟩, b1, b2, b3, b4⟩ := h1
  obtain ⟨⟨g1, g2⟩, c1, c2, c3, c4⟩ := h2
  have hmin : CapSub e1.min e2.max = e1.min - e2.max := by
    apply CapSub_eq
    · unfold kint64min
      omega
    · unfold kint64max
      omega
  have hmax : CapSub e1.max e2.min = e1.max - e2.min := by
    apply CapSub_eq
    · unfold kint64min
      omega
    · unfold kint64max
      omega
  have he : esub e1 e2 = ⟨e1.min - e2.max, e1.max - e2.min, 0, 0⟩ := by
    simp [esub, hmin, hmax, f1, f2, g1, g2]
  refine ⟨he, ?_⟩
  rw [he]
  exact ⟨⟨rfl, rfl⟩, by simp; omega, by simp; omega, by simp; omega, by simp; omega⟩

theorem eDelta_NB (e1 e2 : EInterval) (C D : Int) (h1 : NB e1 C) (h2 : NB e2 D)
    (hCD : C + D ≤ 2 ^ 62) (hC : 0 ≤ C) (hD : 0 ≤ D) :
    eDelta e1 e2 = ⟨e2.min - e1.min, e2.max - e1.max, 0, 0⟩ ∧
    NB (eDelta e1 e2) (C + D) := by
  obtain ⟨⟨f1, f2⟩, b1, b2, b3, b4⟩ := h1
  obtain ⟨⟨g1, g2⟩, c1, c2, c3, c4⟩ := h2
  have hmin : CapSub e2.min e1.min = e2.min - e1.min := by
    apply CapSub_eq
    · unfold kint64min
      omega
    · unfold kint64max
      omega
  have hmax : CapSub e2.max e1.max = e2.max - e1.max := by
    apply CapSub_eq
    · unfold kint64min
      omega
    · unfold kint64max
      omega
  have he : eDelta e1 e2 = ⟨e2.min - e1.min, e2.max - e1.max, 0, 0⟩ := by
    simp [eDelta, hmin, hmax, f1, f2, g1, g2]
  refine ⟨he, ?_⟩
  rw [he]
  exact ⟨⟨rfl, rfl⟩, by simp; omega, by simp; omega, by simp; omega, by simp; omega⟩

theorem eIsEmpty_fin (e : EInterval) (h : Fin2 e) :
    eIsEmpty e = false ↔ e.min ≤ e.max := by
  obtain ⟨h1, h2⟩ := h
  simp [eIsEmpty, h1, h2]

/-- Prefix sums of the arc demands, as `AppendPathDemandsToSums` computes
them (`demand_sum`). -/
def tsumF (d : Nat → EInterval) : Nat → EInterval
  | 0 => ⟨0, 0, 0, 0⟩
  | i + 1 => eadd (tsumF d i) (d i)

/-- A trajectory through positions `a..b`: each value lies in its node
capacity and each step lies in the arc demand. -/
def IsTraj (cap d : Nat → EInterval) (a b : Nat) (x : Nat → Int) : Prop :=
  (∀ j : Nat, a ≤ j → j ≤ b → EMem (x j) (cap j)) ∧
  (∀ j : Nat, a ≤ j → j < b → EMem (x (j + 1) - x j) (d j))

theorem IsTraj_mono (cap d : Nat → EInterval) (a b a' b' : Nat) (x : Nat → Int)
    (h : IsTraj cap d a b x) (ha : a ≤ a') (hb : b' ≤ b) : IsTraj cap d a' b' x :=
  ⟨fun j h1 h2 => h.1 j (by omega) (by omega),
   fun j h1 h2 => h.2 j (by omega) (by omega)⟩

theorem tsumF_NB (d : Nat → EInterval) (n : Nat) (B : Int) (hB : B = 2 ^ 40)
    (hn : n ≤ 2 ^ 10) (hd : ∀ i, i < n → NB (d i) B) :
    ∀ k, k ≤ n → NB (tsumF d k) ((k : Int) * B) := by
  intro k
  induction k with
  | zero =>
    intro _
    refine ⟨⟨rfl, rfl⟩, ?_, ?_, ?_, ?_⟩ <;> simp [tsumF]
  | succ k ih =>
    intro hk
    have hks := ih (by omega)
    have hdk := hd k (by omega)
    have h := (eadd_NB (tsumF d k) (d k) ((k : Int) * B) B hks hdk
      (by subst hB; push_cast; nlinarith [sq_nonneg ((k : Int))])
      (by subst hB; positivity) (by subst hB; positivity)).2
    have hcast : ((k : Int)) * B + B = (((k + 1 : Nat)) : Int) * B := by
      push_cast
      ring
    rw [hcast] at h
    exact h

theorem tsumF_succ (d : Nat → EInterval) (n : Nat) (B : Int) (hB : B = 2 ^ 40)
    (hn : n ≤ 2 ^ 10) (hd : ∀ i, i < n → NB (d i) B) (k : Nat) (hk : k < n) :
    tsumF d (k + 1) =
      ⟨(tsumF d k).min + (d k).min, (tsumF d k).max + (d k).max, 0, 0⟩ := by
  have hks := tsumF_NB d n B hB hn hd k (by omega)
  have hdk := hd k (by omega)
  exact (eadd_NB (tsumF d k) (d k) ((k : Int) * B) B hks hdk
    (by subst hB; nlinarith [Int.natCast_nonneg k])
    (by subst hB; positivity) (by subst hB; positivity)).1

/-- Over a trajectory, the difference `x v - x u` lies between the
corresponding differences of prefix-sum bounds. -/
theorem traj_segment (cap d : Nat → EInterval) (n : Nat) (B : Int) (hB : B = 2 ^ 40)
    (hn : n ≤ 2 ^ 10) (hd : ∀ i, i < n → NB (d i) B)
    (a b : Nat) (x : Nat → Int) (ht : IsTraj cap d a b x) (hbn : b < n) :
    ∀ u v : Nat, a ≤ u → u ≤ v → v ≤ b →
    (tsumF d v).min - (tsumF d u).min ≤ x v - x u ∧
    x v - x u ≤ (tsumF d v).max - (tsumF d u).max := by
  intro u v hau huv hvb
  induction v, huv using Nat.le_induction with
  | base => omega
  | succ v huv ih =>
    have hstep := ht.2 v (by omega) (by omega)
    have hv := ih (by omega)
    have hsucc := tsumF_succ d n B hB hn hd v (by omega)
    rw [hsucc]
    obtain ⟨s1, s2⟩ := hstep
    constructor
    · simp only
      omega
    · simp only
      omega

theorem riqCombine_fields (fw lw : RIQNode) :
    (riqCombine fw lw).cumuls_to_fst =
      einter fw.cumuls_to_fst
        (esub lw.cumuls_to_fst (eDelta fw.tsum_at_fst lw.tsum_at_fst)) ∧
    (riqCombine fw lw).tightest_tsum = einter fw.tightest_tsum lw.tightest_tsum ∧
    (riqCombine fw lw).cumuls_to_lst =
      einter (eadd fw.cumuls_to_lst (eDelta fw.tsum_at_lst lw.tsum_at_lst))
        lw.cumuls_to_lst ∧
    (riqCombine fw lw).tsum_at_fst = fw.tsum_at_fst ∧
    (riqCombine fw lw).tsum_at_lst = lw.tsum_at_lst :=
  ⟨rfl, rfl, rfl, rfl, rfl⟩

/-- Soundness of the RIQ layers w.r.t. trajectories.  `RQ l i` is the RIQ
node of layer `l` at index `i`; layer 0 carries the node capacity and the
prefix demand sums (`h0`, as built by `AppendPathDemandsToSums`), and each
higher layer combines the two half windows of the layer below (`hcomb`,
as built by `UpdateRIQStructure`).  Then for the window `[i+1-2^l, i]`:
the `tsum` fields are the prefix sums at the window ends, the tightest
`tsum` attains endpoint values of prefix sums inside the window, bounds
stay in the no-overflow regime, and `cumuls_to_fst` / `cumuls_to_lst`
contain the first / last value of every capacity-feasible trajectory
through the window. -/
theorem riq_sound (cap d : Nat → EInterval) (n : Nat) (B : Int)
    (RQ : Nat → Nat → RIQNode)
    (hB : B = 2 ^ 40) (hn : n ≤ 2 ^ 10)
    (hcap : ∀ i, i < n → NB (cap i) B) (hd : ∀ i, i < n → NB (d i) B)
    (h0 : ∀ i, i < n → RQ 0 i = ⟨cap i, tsumF d i, cap i, tsumF d i, tsumF d i⟩)
    (hcomb : ∀ l i, 1 ≤ l → l ≤ msbPos (n - 1) → 2 ^ l - 1 ≤ i → i < n →
      RQ l i = riqCombine (RQ (l - 1) (i - 2 ^ (l - 1))) (RQ (l - 1) i)) :
    ∀ l, l ≤ msbPos (n - 1) → ∀ i, i < n → 2 ^ l - 1 ≤ i →
    ((RQ l i).tsum_at_fst = tsumF d (i + 1 - 2 ^ l) ∧
     (RQ l i).tsum_at_lst = tsumF d i ∧
     Fin2 (RQ l i).tightest_tsum ∧
     (∃ j, i + 1 - 2 ^ l ≤ j ∧ j ≤ i ∧
       (RQ l i).tightest_tsum.min = (tsumF d j).min) ∧
     (∃ j, i + 1 - 2 ^ l ≤ j ∧ j ≤ i ∧
       (RQ l i).tightest_tsum.max = (tsumF d j).max) ∧
     NB (RQ l i).cumuls_to_fst (B + (l : Int) * 2 ^ 52) ∧
     NB (RQ l i).cumuls_to_lst (B + (l : Int) * 2 ^ 52) ∧
     (∀ x : Nat → Int, IsTraj cap d (i + 1 - 2 ^ l) i x →
       EMem (x (i + 1 - 2 ^ l)) (RQ l i).cumuls_to_fst) ∧
     (∀ x : Nat → Int, IsTraj cap d (i + 1 - 2 ^ l) i x →
       EMem (x i) (RQ l i).cumuls_to_lst)) := by
  have htsB : ∀ k, k ≤ n → NB (tsumF d k) (2 ^ 50) := by
    intro k hk
    refine NB_mono _ _ _ (tsumF_NB d n B hB hn hd k hk) ?_
    have hk' : (k : Int) ≤ 2 ^ 10 := by exact_mod_cast le_trans hk hn
    subst hB
    nlinarith
  intro l
  induction l with
  | zero =>
    intro _ i hi hge
    have hi0 : i + 1 - 2 ^ 0 = i := by norm_num
    rw [h0 i hi, hi0]
    have hts := htsB i (by omega)
    have hc := hcap i hi
    have hB0 : B + ((0 : Nat) : Int) * 2 ^ 52 = B := by
      push_cast
      ring
    rw [hB0]
    exact ⟨rfl, rfl, hts.1, ⟨i, le_refl i, le_refl i, rfl⟩,
      ⟨i, le_refl i, le_refl i, rfl⟩, hc, hc,
      fun x ht => ht.1 i (le_refl i) (le_refl i),
      fun x ht => ht.1 i (le_refl i) (le_refl i)⟩
  | succ l ih =>
    intro hml i hi hge
    have hl : l ≤ msbPos (n - 1) := by omega
    have hp : (2 : Nat) ^ (l + 1) = 2 * 2 ^ l := by
      rw [pow_succ]
      ring
    have hp1 : 1 ≤ (2 : Nat) ^ l := Nat.one_le_two_pow
    have hl10 : l + 1 ≤ 10 := by
      have h2n : (2 : Nat) ^ (l + 1) ≤ 2 ^ 10 := by omega
      exact (Nat.pow_le_pow_iff_right (by norm_num)).mp h2n
    have hcombi := hcomb (l + 1) i (by omega) hml hge hi
    have hll : l + 1 - 1 = l := rfl
    rw [hll] at hcombi
    have hFi : i - 2 ^ l < n := by omega
    have hFge : 2 ^ l - 1 ≤ i - 2 ^ l := by omega
    obtain ⟨f1, f2, f3, f4, f5, f6, f7, f8, f9⟩ := ih hl (i - 2 ^ l) hFi hFge
    obtain ⟨g1, g2, g3, g4, g5, g6, g7, g8, g9⟩ := ih hl i hi (by omega)
    have hA : (i - 2 ^ l) + 1 - 2 ^ l = i + 1 - 2 ^ (l + 1) := by omega
    obtain ⟨r1, r2, r3, r4, r5⟩ := riqCombine_fields (RQ l (i - 2 ^ l)) (RQ l i)
    rw [hcombi, r1, r2, r3, r4, r5]
    -- prefix-sum fields
    have hfw_tsf : (RQ l (i - 2 ^ l)).tsum_at_fst = tsumF d (i + 1 - 2 ^ (l + 1)) := by
      rw [f1, hA]
    have hfw_tsl : (RQ l (i - 2 ^ l)).tsum_at_lst = tsumF d (i - 2 ^ l) := f2
    -- bounds for tsum fields
    have hts_fwf := htsB (i + 1 - 2 ^ (l + 1)) (by omega)
    have hts_fwl := htsB (i - 2 ^ l) (by omega)
    have hts_lwf := htsB (i + 1 - 2 ^ l) (by omega)
    have hts_lwl := htsB i (by omega)
    have hlI : ((l : Int)) ≤ 9 := by exact_mod_cast (by omega : l ≤ 9)
    have hlI0 : (0 : Int) ≤ (l : Int) := Int.natCast_nonneg l
    -- the two deltas
    obtain ⟨hdel_f_eq, hdel_f_NB⟩ := eDelta_NB (RQ l (i - 2 ^ l)).tsum_at_fst
      (RQ l i).tsum_at_fst (2 ^ 50) (2 ^ 50)
      (by rw [hfw_tsf]; exact hts_fwf) (by rw [g1]; exact hts_lwf)
      (by norm_num) (by norm_num) (by norm_num)
    obtain ⟨hdel_l_eq, hdel_l_NB⟩ := eDelta_NB (RQ l (i - 2 ^ l)).tsum_at_lst
      (RQ l i).tsum_at_lst (2 ^ 50) (2 ^ 50)
      (by rw [hfw_tsl]; exact hts_fwl) (by rw [g2]; exact hts_lwl)
      (by norm_num) (by norm_num) (by norm_num)
    -- esub and eadd pieces
    obtain ⟨hsub_eq, hsub_NB⟩ := esub_NB (RQ l i).cumuls_to_fst
      (eDelta (RQ l (i - 2 ^ l)).tsum_at_fst (RQ l i).tsum_at_fst)
      (B + (l : Int) * 2 ^ 52) (2 ^ 50 + 2 ^ 50) g6 hdel_f_NB
      (by subst hB; omega) (by subst hB; omega) (by norm_num)
    obtain ⟨hadd_eq, hadd_NB⟩ := eadd_NB (RQ l (i - 2 ^ l)).cumuls_to_lst
      (eDelta (RQ l (i - 2 ^ l)).tsum_at_lst (RQ l i).tsum_at_lst)
      (B + (l : Int) * 2 ^ 52) (2 ^ 50 + 2 ^ 50) f7 hdel_l_NB
      (by subst hB; omega) (by subst hB; omega) (by norm_num)
    obtain ⟨hctf_eq, hctf_NB⟩ := einter_NB (RQ l (i - 2 ^ l)).cumuls_to_fst
      (esub (RQ l i).cumuls_to_fst
        (eDelta (RQ l (i - 2 ^ l)).tsum_at_fst (RQ l i).tsum_at_fst))
      (B + (l : Int) * 2 ^ 52) (B + (l : Int) * 2 ^ 52 + (2 ^ 50 + 2 ^ 50)) f6 hsub_NB
    obtain ⟨hctl_eq, hctl_NB⟩ := einter_NB
      (eadd (RQ l (i - 2 ^ l)).cumuls_to_lst
        (eDelta (RQ l (i - 2 ^ l)).tsum_at_lst (RQ l i).tsum_at_lst))
      (RQ l i).cumuls_to_lst
      (B + (l : Int) * 2 ^ 52 + (2 ^ 50 + 2 ^ 50)) (B + (l : Int) * 2 ^ 52) hadd_NB g7
    refine ⟨hfw_tsf, g2, ?_, ?_, ?_, ?_, ?_, ?_, ?_⟩
    · -- Fin2 of the tight intersection
      rw [einter_fin _ _ f3 g3]
      exact ⟨rfl, rfl⟩
    · -- attainment of the tight minimum
      rw [einter_fin _ _ f3 g3]
      rcases max_choice (RQ l (i - 2 ^ l)).tightest_tsum.min
          (RQ l i).tightest_tsum.min with hmx | hmx
      · obtain ⟨j, hj1, hj2, hj3⟩ := f4
        exact ⟨j, by omega, by omega, by rw [hmx]; exact hj3⟩
      · obtain ⟨j, hj1, hj2, hj3⟩ := g4
        exact ⟨j, by omega, by omega, by rw [hmx]; exact hj3⟩
    · -- attainment of the tight maximum
      rw [einter_fin _ _ f3 g3]
      rcases min_choice (RQ l (i - 2 ^ l)).tightest_tsum.max
          (RQ l i).tightest_tsum.max with hmx | hmx
      · obtain ⟨j, hj1, hj2, hj3⟩ := f5
        exact ⟨j, by omega, by omega, by rw [hmx]; exact hj3⟩
      · obtain ⟨j, hj1, hj2, hj3⟩ := g5
        exact ⟨j, by omega, by omega, by rw [hmx]; exact hj3⟩
    · -- cumuls_to_fst bound
      refine NB_mono _ _ _ hctf_NB ?_
      push_cast
      subst hB
      rw [max_le_iff]
      constructor <;> omega
    · -- cumuls_to_lst bound
      refine NB_mono _ _ _ hctl_NB ?_
      push_cast
      subst hB
      rw [max_le_iff]
      constructor <;> omega
    · -- cumuls_to_fst contains the first value of a trajectory
      intro x ht
      have htF : IsTraj cap d ((i - 2 ^ l) + 1 - 2 ^ l) (i - 2 ^ l) x := by
        rw [hA]
        exact IsTraj_mono cap d _ _ _ _ x ht (le_refl _) (by omega)
      have hm1 := f8 x htF
      rw [hA] at hm1
      have htL : IsTraj cap d (i + 1 - 2 ^ l) i x :=
        IsTraj_mono cap d _ _ _ _ x ht (by omega) (le_refl _)
      have hm2base := g8 x htL
      have hseg := traj_segment cap d n B hB hn hd (i + 1 - 2 ^ (l + 1)) i x ht hi
        (i + 1 - 2 ^ (l + 1)) (i + 1 - 2 ^ l) (le_refl _) (by omega) (by omega)
      refine EMem_einter _ _ _ f6.1 hsub_NB.1 hm1 ?_
      rw [hsub_eq]
      rw [hdel_f_eq] at hsub_eq ⊢
      obtain ⟨w1, w2⟩ := hm2base
      rw [hfw_tsf, g1] at *
      obtain ⟨s1, s2⟩ := hseg
      constructor
      · simp only
        omega
      · simp only
        omega
    · -- cumuls_to_lst contains the last value of a trajectory
      intro x ht
      have htF : IsTraj cap d ((i - 2 ^ l) + 1 - 2 ^ l) (i - 2 ^ l) x := by
        rw [hA]
        exact IsTraj_mono cap d _ _ _ _ x ht (le_refl _) (by omega)
      have hm1 := f9 x htF
      have htL : IsTraj cap d (i + 1 - 2 ^ l) i x :=
        IsTraj_mono cap d _ _ _ _ x ht (by omega) (le_refl _)
      have hm2 := g9 x htL
      have hseg := traj_segment cap d n B hB hn hd (i + 1 - 2 ^ (l + 1)) i x ht hi
        (i - 2 ^ l) i (by omega) (by omega) (le_refl _)
      refine EMem_einter _ _ _ hadd_NB.1 g7.1 ?_ hm2
      rw [hadd_eq]
      rw [hdel_l_eq] at hadd_eq ⊢
      obtain ⟨w1, w2⟩ := hm1
      rw [hfw_tsl, g2] at *
      obtain ⟨s1, s2⟩ := hseg
      constructor
      · simp only
        omega
      · simp only
        omega

theorem EMem_einter_elim (z : Int) (a b : EInterval) (h1 : Fin2 a) (h2 : Fin2 b)
    (h : EMem z (einter a b)) : EMem z a ∧ EMem z b := by
  rw [einter_fin a b h1 h2] at h
  obtain ⟨hl, hr⟩ := h
  simp only at hl hr
  exact ⟨⟨le_trans (le_max_left _ _) hl, le_trans hr (min_le_left _ _)⟩,
    ⟨le_trans (le_max_right _ _) hl, le_trans hr (min_le_right _ _)⟩⟩

/-- The node-by-node update of `Check`'s else branch, at the index level:
from position `i` with reachable set `cumul`, walk `k` arcs; at each step
add the arc demand, intersect with the next node capacity and then the
path capacity, and fail as soon as the set becomes empty
(lines 4101-4113). -/
def naiveWalkIdx (cap d : Nat → EInterval) (pc : EInterval) :
    Nat → Nat → EInterval → Option EInterval
  | _, 0, cumul => some cumul
  | i, k + 1, cumul =>
    let c := einter (einter (eadd cumul (d i)) (cap (i + 1))) pc
    if eIsEmpty c then none
    else naiveWalkIdx cap d pc (i + 1) k c

/-- From a successful node-by-node walk and a point of its result, build a
trajectory: values at intermediate nodes within capacities and path
capacity, steps within demands. -/
theorem naiveWalk_to_traj (cap d : Nat → EInterval) (pc : EInterval) (n : Nat) (B : Int)
    (hB : B = 2 ^ 40) (hn : n ≤ 2 ^ 10)
    (hcap : ∀ i, i < n → NB (cap i) B) (hd : ∀ i, i < n → NB (d i) B)
    (hdp : ∀ i, i < n → (d i).min ≤ (d i).max)
    (hpc : NB pc B) :
    ∀ (k i : Nat) (cumul res : EInterval) (C : Int) (z : Int),
    i + k < n → NB cumul C → 0 ≤ C → C + (k : Int) * 2 ^ 41 ≤ 2 ^ 60 →
    cumul.min ≤ cumul.max →
    naiveWalkIdx cap d pc i k cumul = some res → EMem z res →
    ∃ x : Nat → Int, x (i + k) = z ∧ EMem (x i) cumul ∧
      (∀ j, i < j → j ≤ i + k → EMem (x j) (cap j) ∧ EMem (x j) pc) ∧
      (∀ j, i ≤ j → j < i + k → EMem (x (j + 1) - x j) (d j)) := by
  intro k
  induction k with
  | zero =>
    intro i cumul res C z hin hcu hC hCk hne hwalk hz
    rw [naiveWalkIdx] at hwalk
    have hres : cumul = res := Option.some.inj hwalk
    subst hres
    exact ⟨fun _ => z, rfl, hz, fun j h1 h2 => absurd h1 (by omega),
      fun j h1 h2 => absurd h2 (by omega)⟩
  | succ k ih =>
    intro i cumul res C z hin hcu hC hCk hne hwalk hz
    rw [naiveWalkIdx] at hwalk
    have hdi := hd i (by omega)
    have hci1 := hcap (i + 1) (by omega)
    obtain ⟨hadd_eq, hadd_NB⟩ := eadd_NB cumul (d i) C B hcu hdi
      (by subst hB; omega) hC (by subst hB; norm_num)
    obtain ⟨hin1_eq, hin1_NB⟩ := einter_NB (eadd cumul (d i)) (cap (i + 1))
      (C + B) B hadd_NB hci1
    obtain ⟨hin2_eq, hin2_NB⟩ := einter_NB (einter (eadd cumul (d i)) (cap (i + 1))) pc
      (max (C + B) B) B hin1_NB hpc
    have hcNB : NB (einter (einter (eadd cumul (d i)) (cap (i + 1))) pc)
        (C + 2 ^ 41) := by
      refine NB_mono _ _ _ hin2_NB ?_
      subst hB
      rw [max_le_iff, max_le_iff]
      refine ⟨⟨?_, ?_⟩, ?_⟩ <;> omega
    cases hemp : eIsEmpty (einter (einter (eadd cumul (d i)) (cap (i + 1))) pc) with
    | true =>
      rw [hemp] at hwalk
      simp at hwalk
    | false =>
      rw [hemp] at hwalk
      simp only [Bool.false_eq_true, if_false] at hwalk
      have hcne : (einter (einter (eadd cumul (d i)) (cap (i + 1))) pc).min ≤
          (einter (einter (eadd cumul (d i)) (cap (i + 1))) pc).max :=
        (eIsEmpty_fin _ hcNB.1).mp hemp
      obtain ⟨x, hx1, hx2, hx3, hx4⟩ := ih (i + 1)
        (einter (einter (eadd cumul (d i)) (cap (i + 1))) pc) res (C + 2 ^ 41) z
        (by omega) hcNB (by subst hB; omega)
        (by push_cast at hCk ⊢; omega) hcne hwalk hz
      obtain ⟨hm12, hmpc⟩ := EMem_einter_elim _ _ _ hin1_NB.1 hpc.1 hx2
      obtain ⟨hmadd, hmcap⟩ := EMem_einter_elim _ _ _ hadd_NB.1 hci1.1 hm12
      rw [hadd_eq] at hmadd
      obtain ⟨ha1, ha2⟩ := hmadd
      simp only at ha1 ha2
      have hdple := hdp i (by omega)
      refine ⟨Function.update x i (max cumul.min (x (i + 1) - (d i).max)),
        ?_, ?_, ?_, ?_⟩
      · have hnei : i + (k + 1) ≠ i := by omega
        rw [Function.update_noteq hnei]
        rw [show i + (k + 1) = (i + 1) + k from by omega]
        exact hx1
      · rw [Function.update_same]
        constructor
        · exact le_max_left _ _
        · rw [max_le_iff]
          constructor
          · exact hne
          · omega
      · intro j h1 h2
        have hji : j ≠ i := by omega
        rw [Function.update_noteq hji]
        by_cases hj1 : j = i + 1
        · subst hj1
          exact ⟨hmcap, hmpc⟩
        · exact hx3 j (by omega) (by omega)
      · intro j h1 h2
        by_cases hji : j = i
        · subst hji
          have hne1 : j + 1 ≠ j := by omega
          rw [Function.update_noteq hne1, Function.update_same]
          constructor
          · rw [max_comm]
            rcases max_choice (x (j + 1) - (d j).max) cumul.min with hmx | hmx <;>
              rw [hmx] <;> omega
          · rw [max_comm]
            rcases max_choice (x (j + 1) - (d j).max) cumul.min with hmx | hmx <;>
              rw [hmx] <;> omega
        · have hne1 : j + 1 ≠ i := by omega
          rw [Function.update_noteq hne1, Function.update_noteq hji]
          exact hx4 j (by omega) (by omega)

theorem EMem_def (z : Int) (e : EInterval) : EMem z e ↔ e.min ≤ z ∧ z ≤ e.max := Iff.rfl

instance (e : EInterval) : Decidable (Fin2 e) :=
  inferInstanceAs (Decidable (e.num_negative_infinity = 0 ∧ e.num_positive_infinity = 0))

instance (e : EInterval) (C : Int) : Decidable (Bnd e C) :=
  inferInstanceAs (Decidable (-C ≤ e.min ∧ e.min ≤ C ∧ -C ≤ e.max ∧ e.max ≤ C))

instance (e : EInterval) (C : Int) : Decidable (NB e C) :=
  inferInstanceAs (Decidable (Fin2 e ∧ Bnd e C))

instance (z : Int) (e : EInterval) : Decidable (EMem z e) :=
  inferInstanceAs (Decidable (e.min ≤ z ∧ z ≤ e.max))

/-- `msbPosGo fuel n` is the floor binary logarithm of `n` whenever the
fuel is at least `n`. -/
theorem msbPosGo_spec : ∀ fuel n : Nat, 1 ≤ n → n ≤ fuel →
    2 ^ msbPosGo fuel n ≤ n ∧ n < 2 ^ (msbPosGo fuel n + 1) := by
  intro fuel
  induction fuel with
  | zero =>
    intro n h1 h2
    exact absurd h2 (by omega)
  | succ fuel ih =>
    intro n h1 h2
    by_cases h : n ≥ 2
    · simp only [msbPosGo]
      rw [if_pos h]
      obtain ⟨ha, hb⟩ := ih (n / 2) (by omega) (by omega)
      have hp1 : (2 : Nat) ^ (msbPosGo fuel (n / 2) + 1) =
          2 * 2 ^ msbPosGo fuel (n / 2) := by
        rw [pow_succ]
        ring
      have hp2 : (2 : Nat) ^ (msbPosGo fuel (n / 2) + 1 + 1) =
          2 * 2 ^ (msbPosGo fuel (n / 2) + 1) := by
        rw [pow_succ]
        ring
      omega
    · simp only [msbPosGo]
      rw [if_neg h]
      rw [pow_zero, zero_add, pow_one]
      omega

theorem msbPos_spec (n : Nat) (h : 1 ≤ n) :
    2 ^ msbPos n ≤ n ∧ n < 2 ^ (msbPos n + 1) :=
  msbPosGo_spec n n h (le_refl n)

theorem msbPos_le_of_le (a b : Nat) (h1 : 1 ≤ a) (hab : a ≤ b) :
    msbPos a ≤ msbPos b := by
  obtain ⟨ha1, ha2⟩ := msbPos_spec a h1
  obtain ⟨hb1, hb2⟩ := msbPos_spec b (by omega)
  by_contra hlt
  push_neg at hlt
  have hle : 2 ^ (msbPos b + 1) ≤ 2 ^ msbPos a :=
    Nat.pow_le_pow_right (by norm_num) (by omega)
  omega

/-- Unfolding of `UpdateCumulUsingChainRIQ` when the emptiness test after
the first three intersections fails. -/
theorem updateCumul_step (riqL : List (List RIQNode)) (first_index last_index : Nat)
    (path_capacity cumul : EInterval) (fw lw : RIQNode)
    (hfw : (riqL.getD (msbPos (last_index - first_index)) []).getD
      (first_index + 2 ^ msbPos (last_index - first_index) - 1) defaultRIQ = fw)
    (hlw : (riqL.getD (msbPos (last_index - first_index)) []).getD last_index
      defaultRIQ = lw)
    (hne : eIsEmpty (einter (einter (einter cumul fw.cumuls_to_fst)
        (esub lw.cumuls_to_fst (eDelta fw.tsum_at_fst lw.tsum_at_fst)))
      (esub path_capacity
        (eDelta fw.tsum_at_fst (einter fw.tightest_tsum lw.tightest_tsum)))) = false) :
    updateCumulUsingChainRIQ riqL first_index last_index path_capacity cumul =
      einter (einter (eadd (einter (einter (einter cumul fw.cumuls_to_fst)
          (esub lw.cumuls_to_fst (eDelta fw.tsum_at_fst lw.tsum_at_fst)))
        (esub path_capacity
          (eDelta fw.tsum_at_fst (einter fw.tightest_tsum lw.tightest_tsum))))
        (eDelta fw.tsum_at_fst lw.tsum_at_lst))
        (eadd fw.cumuls_to_lst (eDelta fw.tsum_at_lst lw.tsum_at_lst)))
        lw.cumuls_to_lst := by
  subst hfw hlw
  simp only [updateCumulUsingChainRIQ]
  rw [hne]
  simp only [Bool.false_eq_true, if_false]

/-- C1 (amended): the one-shot RIQ update over-approximates the
node-by-node traversal.  On a committed chain with finite node capacities,
arc demands and path capacity (all bounded by `2^40` so that no saturation
occurs), if the RIQ table satisfies the structural recurrence the code
builds (`h0` for layer 0, `hcomb` for the combine step of
`UpdateRIQStructure`), then every value `z` that the node-by-node walk of
`Check`'s else branch can still reach at the last node of the chain also
lies in the interval computed by `UpdateCumulUsingChainRIQ`, and that
interval is then nonempty.  Hence the RIQ branch accepts whenever the
naive branch does; the converse fails (`dimensionChecker_riq_vs_naive`),
so the two branches are one-sided refinements, not equivalent. -/
theorem updateCumulUsingChainRIQ_supset
    (riqL : List (List RIQNode)) (cap d : Nat → EInterval) (pc : EInterval)
    (n : Nat) (B : Int)
    (hB : B = 2 ^ 40) (hn : n ≤ 2 ^ 10)
    (hcap : ∀ i, i < n → NB (cap i) B) (hd : ∀ i, i < n → NB (d i) B)
    (hdp : ∀ i, i < n → (d i).min ≤ (d i).max)
    (hpc : NB pc B)
    (h0 : ∀ i, i < n →
      (riqL.getD 0 []).getD i defaultRIQ =
        RIQNode.mk (cap i) (tsumF d i) (cap i) (tsumF d i) (tsumF d i))
    (hcomb : ∀ l i, 1 ≤ l → l ≤ msbPos (n - 1) → 2 ^ l - 1 ≤ i → i < n →
      (riqL.getD l []).getD i defaultRIQ =
        riqCombine ((riqL.getD (l - 1) []).getD (i - 2 ^ (l - 1)) defaultRIQ)
          ((riqL.getD (l - 1) []).getD i defaultRIQ))
    (first last : Nat) (hfl : first < last) (hln : last < n)
    (cumul : EInterval) (hcu : NB cumul B) (hcne : cumul.min ≤ cumul.max)
    (hcsub : ∀ v : Int, EMem v cumul → EMem v (cap first) ∧ EMem v pc)
    (res : EInterval) (z : Int)
    (hwalk : naiveWalkIdx cap d pc first (last - first) cumul = some res)
    (hz : EMem z res) :
    EMem z (updateCumulUsingChainRIQ riqL first last pc cumul) ∧
    eIsEmpty (updateCumulUsingChainRIQ riqL first last pc cumul) = false := by
  obtain ⟨x, hx1, hx2, hx3, hx4⟩ := naiveWalk_to_traj cap d pc n B hB hn hcap hd hdp hpc
    (last - first) first cumul res B z (by omega) hcu (by omega) (by omega) hcne hwalk hz
  have hxlast : x last = z := by
    have h := hx1
    rw [show first + (last - first) = last from by omega] at h
    exact h
  have hfmem := hcsub (x first) hx2
  have htraj : IsTraj cap d first last x := by
    constructor
    · intro j h1 h2
      by_cases hj : j = first
      · subst hj
        exact hfmem.1
      · exact (hx3 j (by omega) (by omega)).1
    · intro j h1 h2
      exact hx4 j h1 (by omega)
  have hxpc : ∀ j, first ≤ j → j ≤ last → EMem (x j) pc := by
    intro j h1 h2
    by_cases hj : j = first
    · subst hj
      exact hfmem.2
    · exact (hx3 j (by omega) (by omega)).2
  have hlf1 : 1 ≤ last - first := by omega
  obtain ⟨hw1, hw2⟩ := msbPos_spec (last - first) hlf1
  have hLM : msbPos (last - first) ≤ msbPos (n - 1) := msbPos_le_of_le _ _ hlf1 (by omega)
  have hp2L : 1 ≤ (2 : Nat) ^ msbPos (last - first) := Nat.one_le_two_pow
  have hL9 : msbPos (last - first) ≤ 9 := by
    by_contra hc
    push_neg at hc
    have h10 : (2 : Nat) ^ 10 ≤ 2 ^ msbPos (last - first) :=
      Nat.pow_le_pow_right (by norm_num) (by omega)
    omega
  have hL9i : (msbPos (last - first) : Int) ≤ 9 := by exact_mod_cast hL9
  have hL0i : (0 : Int) ≤ (msbPos (last - first) : Int) := Int.natCast_nonneg _
  have hCL0 : 0 ≤ B + (msbPos (last - first) : Int) * 2 ^ 52 := by omega
  have hCLle : B + (msbPos (last - first) : Int) * 2 ^ 52 ≤ 2 ^ 56 := by omega
  have hsound := riq_sound cap d n B (fun l i => (riqL.getD l []).getD i defaultRIQ)
    hB hn hcap hd h0 hcomb
  have hFlt : first + 2 ^ msbPos (last - first) - 1 < n := by omega
  have hFge : 2 ^ msbPos (last - first) - 1 ≤ first + 2 ^ msbPos (last - first) - 1 := by
    omega
  obtain ⟨f1, f2, f3, f4, f5, f6, f7, f8, f9⟩ :=
    hsound (msbPos (last - first)) hLM (first + 2 ^ msbPos (last - first) - 1) hFlt hFge
  obtain ⟨g1, g2, g3, g4, g5, g6, g7, g8, g9⟩ :=
    hsound (msbPos (last - first)) hLM last hln (by omega)
  have hFfix : first + 2 ^ msbPos (last - first) - 1 + 1 - 2 ^ msbPos (last - first) =
      first := by omega
  rw [hFfix] at f1 f4 f5 f8 f9
  obtain ⟨fw, hfw⟩ : ∃ w, (riqL.getD (msbPos (last - first)) []).getD
      (first + 2 ^ msbPos (last - first) - 1) defaultRIQ = w := ⟨_, rfl⟩
  obtain ⟨lw, hlw⟩ : ∃ w, (riqL.getD (msbPos (last - first)) []).getD last defaultRIQ = w :=
    ⟨_, rfl⟩
  beta_reduce at f1 f2 f3 f4 f5 f6 f7 f8 f9 g1 g2 g3 g4 g5 g6 g7 g8 g9
  rw [hfw] at f1 f2 f3 f4 f5 f6 f7 f8 f9
  rw [hlw] at g1 g2 g3 g4 g5 g6 g7 g8 g9
  have htsB : ∀ k, k ≤ n → NB (tsumF d k) (2 ^ 50) := by
    intro k hk
    refine NB_mono _ _ _ (tsumF_NB d n B hB hn hd k hk) ?_
    have hk2 : (k : Int) ≤ 2 ^ 10 := by exact_mod_cast le_trans hk hn
    rw [hB]
    nlinarith [Int.natCast_nonneg k]
  have hftsf : NB fw.tsum_at_fst (2 ^ 50) := by
    rw [f1]
    exact htsB first (by omega)
  have hftsl : NB fw.tsum_at_lst (2 ^ 50) := by
    rw [f2]
    exact htsB (first + 2 ^ msbPos (last - first) - 1) (by omega)
  have hltsf : NB lw.tsum_at_fst (2 ^ 50) := by
    rw [g1]
    exact htsB (last + 1 - 2 ^ msbPos (last - first)) (by omega)
  have hltsl : NB lw.tsum_at_lst (2 ^ 50) := by
    rw [g2]
    exact htsB last (by omega)
  have hftight : NB fw.tightest_tsum (2 ^ 50) := by
    obtain ⟨j1, hj1a, hj1b, hj1e⟩ := f4
    obtain ⟨j2, hj2a, hj2b, hj2e⟩ := f5
    have h1 := htsB j1 (by omega)
    have h2 := htsB j2 (by omega)
    refine ⟨f3, ?_, ?_, ?_, ?_⟩
    · rw [hj1e]
      exact h1.2.1
    · rw [hj1e]
      exact h1.2.2.1
    · rw [hj2e]
      exact h2.2.2.2.1
    · rw [hj2e]
      exact h2.2.2.2.2
  have hgtight : NB lw.tightest_tsum (2 ^ 50) := by
    obtain ⟨j1, hj1a, hj1b, hj1e⟩ := g4
    obtain ⟨j2, hj2a, hj2b, hj2e⟩ := g5
    have h1 := htsB j1 (by omega)
    have h2 := htsB j2 (by omega)
    refine ⟨g3, ?_, ?_, ?_, ?_⟩
    · rw [hj1e]
      exact h1.2.1
    · rw [hj1e]
      exact h1.2.2.1
    · rw [hj2e]
      exact h2.2.2.2.1
    · rw [hj2e]
      exact h2.2.2.2.2
  have hΔ1 := eDelta_NB fw.tsum_at_fst lw.tsum_at_fst (2 ^ 50) (2 ^ 50) hftsf hltsf
    (by norm_num) (by norm_num) (by norm_num)
  have hΔ1NB : NB (eDelta fw.tsum_at_fst lw.tsum_at_fst) (2 ^ 51) :=
    NB_mono _ _ _ hΔ1.2 (by norm_num)
  have hsub1 := esub_NB lw.cumuls_to_fst (eDelta fw.tsum_at_fst lw.tsum_at_fst)
    (B + (msbPos (last - first) : Int) * 2 ^ 52) (2 ^ 51) g6 hΔ1NB (by omega) hCL0
    (by norm_num)
  have hsub1NB : NB (esub lw.cumuls_to_fst (eDelta fw.tsum_at_fst lw.tsum_at_fst))
      (2 ^ 57) := NB_mono _ _ _ hsub1.2 (by omega)
  have hX1 := einter_NB cumul fw.cumuls_to_fst B
    (B + (msbPos (last - first) : Int) * 2 ^ 52) hcu f6
  have hX1NB : NB (einter cumul fw.cumuls_to_fst) (2 ^ 57) := by
    refine NB_mono _ _ _ hX1.2 ?_
    rw [max_le_iff]
    constructor <;> omega
  have hX2 := einter_NB (einter cumul fw.cumuls_to_fst)
    (esub lw.cumuls_to_fst (eDelta fw.tsum_at_fst lw.tsum_at_fst)) (2 ^ 57) (2 ^ 57)
    hX1NB hsub1NB
  have hX2NB : NB (einter (einter cumul fw.cumuls_to_fst)
      (esub lw.cumuls_to_fst (eDelta fw.tsum_at_fst lw.tsum_at_fst))) (2 ^ 57) :=
    NB_mono _ _ _ hX2.2 (by simp)
  have hT := einter_NB fw.tightest_tsum lw.tightest_tsum (2 ^ 50) (2 ^ 50) hftight hgtight
  have hTNB : NB (einter fw.tightest_tsum lw.tightest_tsum) (2 ^ 50) :=
    NB_mono _ _ _ hT.2 (by simp)
  have hΔT := eDelta_NB fw.tsum_at_fst (einter fw.tightest_tsum lw.tightest_tsum)
    (2 ^ 50) (2 ^ 50) hftsf hTNB (by norm_num) (by norm_num) (by norm_num)
  have hΔTNB : NB (eDelta fw.tsum_at_fst (einter fw.tightest_tsum lw.tightest_tsum))
      (2 ^ 51) := NB_mono _ _ _ hΔT.2 (by norm_num)
  have hsub2 := esub_NB pc
    (eDelta fw.tsum_at_fst (einter fw.tightest_tsum lw.tightest_tsum)) B (2 ^ 51)
    hpc hΔTNB (by omega) (by omega) (by norm_num)
  have hsub2NB : NB (esub pc
      (eDelta fw.tsum_at_fst (einter fw.tightest_tsum lw.tightest_tsum))) (2 ^ 57) :=
    NB_mono _ _ _ hsub2.2 (by omega)
  have hQ3 := einter_NB (einter (einter cumul fw.cumuls_to_fst)
      (esub lw.cumuls_to_fst (eDelta fw.tsum_at_fst lw.tsum_at_fst)))
    (esub pc (eDelta fw.tsum_at_fst (einter fw.tightest_tsum lw.tightest_tsum)))
    (2 ^ 57) (2 ^ 57) hX2NB hsub2NB
  have hQ3NB : NB (einter (einter (einter cumul fw.cumuls_to_fst)
      (esub lw.cumuls_to_fst (eDelta fw.tsum_at_fst lw.tsum_at_fst)))
      (esub pc (eDelta fw.tsum_at_fst (einter fw.tightest_tsum lw.tightest_tsum))))
      (2 ^ 57) := NB_mono _ _ _ hQ3.2 (by simp)
  have hm1 : EMem (x first) fw.cumuls_to_fst :=
    f8 x (IsTraj_mono cap d first last first (first + 2 ^ msbPos (last - first) - 1) x
      htraj (le_refl first) (by omega))
  have hm2 : EMem (x first) (esub lw.cumuls_to_fst (eDelta fw.tsum_at_fst lw.tsum_at_fst)) := by
    have hmem := g8 x (IsTraj_mono cap d first last
      (last + 1 - 2 ^ msbPos (last - first)) last x htraj (by omega) (le_refl last))
    have hseg := traj_segment cap d n B hB hn hd first last x htraj hln first
      (last + 1 - 2 ^ msbPos (last - first)) (le_refl first) (by omega) (by omega)
    have e1 : (esub lw.cumuls_to_fst (eDelta fw.tsum_at_fst lw.tsum_at_fst)).min =
        lw.cumuls_to_fst.min - ((tsumF d (last + 1 - 2 ^ msbPos (last - first))).max -
          (tsumF d first).max) := by
      rw [hsub1.1, hΔ1.1, f1, g1]
    have e2 : (esub lw.cumuls_to_fst (eDelta fw.tsum_at_fst lw.tsum_at_fst)).max =
        lw.cumuls_to_fst.max - ((tsumF d (last + 1 - 2 ^ msbPos (last - first))).min -
          (tsumF d first).min) := by
      rw [hsub1.1, hΔ1.1, f1, g1]
    rw [EMem_def, e1, e2]
    rw [EMem_def] at hmem
    obtain ⟨hs1, hs2⟩ := hseg
    omega
  have hm3 : EMem (x first)
      (esub pc (eDelta fw.tsum_at_fst (einter fw.tightest_tsum lw.tightest_tsum))) := by
    obtain ⟨j1, hj1a, hj1b, hj1e⟩ := f4
    obtain ⟨j2, hj2a, hj2b, hj2e⟩ := f5
    obtain ⟨j3, hj3a, hj3b, hj3e⟩ := g4
    obtain ⟨j4, hj4a, hj4b, hj4e⟩ := g5
    have hs1 := traj_segment cap d n B hB hn hd first last x htraj hln first j1
      (le_refl first) hj1a (by omega)
    have hs2 := traj_segment cap d n B hB hn hd first last x htraj hln first j2
      (le_refl first) hj2a (by omega)
    have hs3 := traj_segment cap d n B hB hn hd first last x htraj hln first j3
      (le_refl first) (by omega) (by omega)
    have hs4 := traj_segment cap d n B hB hn hd first last x htraj hln first j4
      (le_refl first) (by omega) (by omega)
    have hq1 := hxpc j1 hj1a (by omega)
    have hq2 := hxpc j2 hj2a (by omega)
    have hq3m := hxpc j3 (by omega) hj3b
    have hq4m := hxpc j4 (by omega) hj4b
    have e1 : (esub pc
        (eDelta fw.tsum_at_fst (einter fw.tightest_tsum lw.tightest_tsum))).min =
        pc.min - (min fw.tightest_tsum.max lw.tightest_tsum.max - (tsumF d first).max) := by
      rw [hsub2.1, hΔT.1, hT.1, f1]
    have e2 : (esub pc
        (eDelta fw.tsum_at_fst (einter fw.tightest_tsum lw.tightest_tsum))).max =
        pc.max - (max fw.tightest_tsum.min lw.tightest_tsum.min - (tsumF d first).min) := by
      rw [hsub2.1, hΔT.1, hT.1, f1]
    rw [EMem_def, e1, e2, hj1e, hj2e, hj3e, hj4e]
    rw [EMem_def] at hq1 hq2 hq3m hq4m
    constructor
    · rcases min_choice ((tsumF d j2).max) ((tsumF d j4).max) with hmc | hmc <;> rw [hmc]
      · have h := hs2.2
        omega
      · have h := hs4.2
        omega
    · rcases max_choice ((tsumF d j1).min) ((tsumF d j3).min) with hmc | hmc <;> rw [hmc]
      · have h := hs1.1
        omega
      · have h := hs3.1
        omega
  have hmX1 : EMem (x first) (einter cumul fw.cumuls_to_fst) :=
    EMem_einter _ _ _ hcu.1 f6.1 hx2 hm1
  have hmX2 : EMem (x first) (einter (einter cumul fw.cumuls_to_fst)
      (esub lw.cumuls_to_fst (eDelta fw.tsum_at_fst lw.tsum_at_fst))) :=
    EMem_einter _ _ _ hX1NB.1 hsub1NB.1 hmX1 hm2
  have hmQ3 : EMem (x first) (einter (einter (einter cumul fw.cumuls_to_fst)
      (esub lw.cumuls_to_fst (eDelta fw.tsum_at_fst lw.tsum_at_fst)))
      (esub pc (eDelta fw.tsum_at_fst (einter fw.tightest_tsum lw.tightest_tsum)))) :=
    EMem_einter _ _ _ hX2NB.1 hsub2NB.1 hmX2 hm3
  have hQ3ne : eIsEmpty (einter (einter (einter cumul fw.cumuls_to_fst)
      (esub lw.cumuls_to_fst (eDelta fw.tsum_at_fst lw.tsum_at_fst)))
      (esub pc (eDelta fw.tsum_at_fst (einter fw.tightest_tsum lw.tightest_tsum)))) =
      false := by
    rw [eIsEmpty_fin _ hQ3NB.1]
    rw [EMem_def] at hmQ3
    omega
  rw [updateCumul_step riqL first last pc cumul fw lw hfw hlw hQ3ne]
  obtain ⟨Q3, hQ3def⟩ : ∃ q, einter (einter (einter cumul fw.cumuls_to_fst)
      (esub lw.cumuls_to_fst (eDelta fw.tsum_at_fst lw.tsum_at_fst)))
      (esub pc (eDelta fw.tsum_at_fst (einter fw.tightest_tsum lw.tightest_tsum))) = q :=
    ⟨_, rfl⟩
  rw [hQ3def] at hmQ3 hQ3NB ⊢
  have hΔ2 := eDelta_NB fw.tsum_at_fst lw.tsum_at_lst (2 ^ 50) (2 ^ 50) hftsf hltsl
    (by norm_num) (by norm_num) (by norm_num)
  have hΔ2NB : NB (eDelta fw.tsum_at_fst lw.tsum_at_lst) (2 ^ 51) :=
    NB_mono _ _ _ hΔ2.2 (by norm_num)
  have hq4 := eadd_NB Q3 (eDelta fw.tsum_at_fst lw.tsum_at_lst) (2 ^ 57) (2 ^ 51)
    hQ3NB hΔ2NB (by norm_num) (by norm_num) (by norm_num)
  have hq4NB : NB (eadd Q3 (eDelta fw.tsum_at_fst lw.tsum_at_lst)) (2 ^ 58) :=
    NB_mono _ _ _ hq4.2 (by norm_num)
  have hΔ3 := eDelta_NB fw.tsum_at_lst lw.tsum_at_lst (2 ^ 50) (2 ^ 50) hftsl hltsl
    (by norm_num) (by norm_num) (by norm_num)
  have hΔ3NB : NB (eDelta fw.tsum_at_lst lw.tsum_at_lst) (2 ^ 51) :=
    NB_mono _ _ _ hΔ3.2 (by norm_num)
  have hA5 := eadd_NB fw.cumuls_to_lst (eDelta fw.tsum_at_lst lw.tsum_at_lst)
    (B + (msbPos (last - first) : Int) * 2 ^ 52) (2 ^ 51) f7 hΔ3NB (by omega) hCL0
    (by norm_num)
  have hA5NB : NB (eadd fw.cumuls_to_lst (eDelta fw.tsum_at_lst lw.tsum_at_lst))
      (2 ^ 57) := NB_mono _ _ _ hA5.2 (by omega)
  have hsegL := traj_segment cap d n B hB hn hd first last x htraj hln first last
    (le_refl first) (by omega) (le_refl last)
  have hsegF := traj_segment cap d n B hB hn hd first last x htraj hln
    (first + 2 ^ msbPos (last - first) - 1) last (by omega) (by omega) (le_refl last)
  have hmF : EMem (x (first + 2 ^ msbPos (last - first) - 1)) fw.cumuls_to_lst :=
    f9 x (IsTraj_mono cap d first last first (first + 2 ^ msbPos (last - first) - 1) x
      htraj (le_refl first) (by omega))
  have hmlast : EMem (x last) lw.cumuls_to_lst :=
    g9 x (IsTraj_mono cap d first last (last + 1 - 2 ^ msbPos (last - first)) last x
      htraj (by omega) (le_refl last))
  have hmq4 : EMem (x last) (eadd Q3 (eDelta fw.tsum_at_fst lw.tsum_at_lst)) := by
    have e1 : (eadd Q3 (eDelta fw.tsum_at_fst lw.tsum_at_lst)).min =
        Q3.min + ((tsumF d last).min - (tsumF d first).min) := by
      rw [hq4.1, hΔ2.1, f1, g2]
    have e2 : (eadd Q3 (eDelta fw.tsum_at_fst lw.tsum_at_lst)).max =
        Q3.max + ((tsumF d last).max - (tsumF d first).max) := by
      rw [hq4.1, hΔ2.1, f1, g2]
    rw [EMem_def, e1, e2]
    rw [EMem_def] at hmQ3
    obtain ⟨hsa, hsb⟩ := hsegL
    omega
  have hmq5 : EMem (x last) (eadd fw.cumuls_to_lst (eDelta fw.tsum_at_lst lw.tsum_at_lst)) := by
    have e1 : (eadd fw.cumuls_to_lst (eDelta fw.tsum_at_lst lw.tsum_at_lst)).min =
        fw.cumuls_to_lst.min + ((tsumF d last).min -
          (tsumF d (first + 2 ^ msbPos (last - first) - 1)).min) := by
      rw [hA5.1, hΔ3.1, f2, g2]
    have e2 : (eadd fw.cumuls_to_lst (eDelta fw.tsum_at_lst lw.tsum_at_lst)).max =
        fw.cumuls_to_lst.max + ((tsumF d last).max -
          (tsumF d (first + 2 ^ msbPos (last - first) - 1)).max) := by
      rw [hA5.1, hΔ3.1, f2, g2]
    rw [EMem_def, e1, e2]
    rw [EMem_def] at hmF
    obtain ⟨hsa, hsb⟩ := hsegF
    omega
  have hq5 := einter_NB (eadd Q3 (eDelta fw.tsum_at_fst lw.tsum_at_lst))
    (eadd fw.cumuls_to_lst (eDelta fw.tsum_at_lst lw.tsum_at_lst)) (2 ^ 58) (2 ^ 57)
    hq4NB hA5NB
  have hfin : EMem (x last) (einter (einter (eadd Q3 (eDelta fw.tsum_at_fst lw.tsum_at_lst))
      (eadd fw.cumuls_to_lst (eDelta fw.tsum_at_lst lw.tsum_at_lst))) lw.cumuls_to_lst) :=
    EMem_einter _ _ _ hq5.2.1 g7.1
      (EMem_einter _ _ _ hq4NB.1 hA5NB.1 hmq4 hmq5) hmlast
  have hfinNB := einter_NB (einter (eadd Q3 (eDelta fw.tsum_at_fst lw.tsum_at_lst))
      (eadd fw.cumuls_to_lst (eDelta fw.tsum_at_lst lw.tsum_at_lst))) lw.cumuls_to_lst
    (max (2 ^ 58) (2 ^ 57)) (B + (msbPos (last - first) : Int) * 2 ^ 52) hq5.2 g7
  constructor
  · rw [← hxlast]
    exact hfin
  · rw [eIsEmpty_fin _ hfinNB.2.1]
    rw [EMem_def] at hfin
    omega

/-- Node capacities for the witness chain: all nodes allow `[0, 10]`. -/
def c1wCap : Nat → EInterval := fun _ => ⟨0, 10, 0, 0⟩

/-- Arc demands for the witness chain: every arc adds between 1 and 2. -/
def c1wD : Nat → EInterval := fun _ => ⟨1, 2, 0, 0⟩

/-- Layer-0 RIQ node of the witness chain at position `i`. -/
def c1wRQ0 (i : Nat) : RIQNode :=
  ⟨c1wCap i, tsumF c1wD i, c1wCap i, tsumF c1wD i, tsumF c1wD i⟩

/-- The RIQ table of the witness chain (4 nodes, so layers 0 and 1),
built by the layer-0 rule and the combine recurrence. -/
def c1wRiq : List (List RIQNode) :=
  [[c1wRQ0 0, c1wRQ0 1, c1wRQ0 2, c1wRQ0 3],
   [defaultRIQ, riqCombine (c1wRQ0 0) (c1wRQ0 1), riqCombine (c1wRQ0 1) (c1wRQ0 2),
    riqCombine (c1wRQ0 2) (c1wRQ0 3)]]

theorem updateCumulUsingChainRIQ_supset_witness :
    EMem 5 (updateCumulUsingChainRIQ c1wRiq 0 3 (EInterval.mk 0 12 0 0)
      (EInterval.mk 0 5 0 0)) ∧
    eIsEmpty (updateCumulUsingChainRIQ c1wRiq 0 3 (EInterval.mk 0 12 0 0)
      (EInterval.mk 0 5 0 0)) = false := by
  refine updateCumulUsingChainRIQ_supset c1wRiq c1wCap c1wD (EInterval.mk 0 12 0 0) 4
    (2 ^ 40) rfl (by norm_num) (by decide) (by decide) (by decide) (by decide) (by decide)
    ?_ 0 3 (by norm_num) (by norm_num) (EInterval.mk 0 5 0 0) (by decide) (by decide) ?_
    (EInterval.mk 3 10 0 0) 5 (by decide) (by decide)
  · intro l i h1 h2 h3 h4
    have hml : msbPos (4 - 1) = 1 := by decide
    rw [hml] at h2
    have hl1 : l = 1 := by omega
    subst hl1
    have hi : i = 1 ∨ i = 2 ∨ i = 3 := by omega
    rcases hi with h | h | h <;> subst h <;> decide
  · intro v hv
    exact ⟨⟨hv.1, le_trans hv.2 (by decide)⟩, ⟨hv.1, le_trans hv.2 (by decide)⟩⟩

end ORTools
